import Mathlib

/-!
# Circuit Mapping — verification of the core data/expansion/layout/search engine

Shallow embedding of the TypeScript sources:
  * `src/unnamed/part_003` — core type definitions (`types.ts`)
  * `src/unnamed/part_004` — dedup / version merge / node index / layout engine
    (`utils/dedup.ts`, `utils/layout.ts`)
  * `src/unnamed/part_005` — `useExpand` hook (`hooks/useExpand.ts`)
  * `src/src/components/FlowWidget.tsx` — click handler (expand / collapse)
  * `src/src/services/search.ts` — `SearchService`

Modelling conventions:
  * JS numbers are modelled as exact rationals `JsNum` (an integer
    numerator/denominator pair with cross-multiplication comparisons; every
    value the engine builds has a positive denominator, and no claim
    depends on binary floating-point rounding).  The representation is
    deliberately unnormalized so that the kernel can evaluate it; the code
    never tests computed numbers for equality, only for order.
  * JS `Map` is modelled as an association list in insertion order
    (`jsMapSet` overwrites in place or appends, like `Map.set`;
    `List.lookup` is `Map.get`); JS `Set` as a duplicate-free list in
    insertion order (`jsSetAdd`).
  * `Array.prototype.sort` is mandated stable by ES2019; a stable sort wrt a
    total comparator has a unique result, so it is modelled by a stable
    insertion sort (`jsSortStable`), with the JS comparator convention
    (`cmp a b ≤ 0` means `a` may stay before `b`).
  * Unbounded recursion in the source (the descendant/ancestor closure
    walks and the layout DFS) is modelled with an explicit fuel parameter
    returning `Option`: `none` models a recursion that has not finished
    within the given stack budget; genuine divergence is the statement
    "`none` for every fuel".
  * Mutation of a caller-visible object (`deduplicateDocuments` reassigns
    `existing.versions` on its first-seen `Document`) is modelled by
    threading the input array as an explicit store of object states.
  * `String.localeCompare` on ISO-8601 timestamps and plain keys is modelled
    as ordinary lexicographic string comparison; `toLowerCase` is modelled
    per ASCII character (every string in the claims is ASCII).
  * `Number(segment)` on a dot-separated version segment is modelled as
    `String.toNat?` with default `0` (the empty segment is `0` in both; a
    non-numeric segment gives JS `NaN`, whose comparator behaviour the
    source leaves undefined — spec §9 flags this as an open question, and no
    claim exercises it).
  * TS type `LinkType` is the literal `'is_parent_of'`, but the code casts
    the fallback strings `'related_to'` and `'references'` into it, so link
    types are modelled as `String`.
-/

namespace CircuitMap

/-! ## JS numbers -/

/-- Exact rational model of a JS number: numerator and denominator, kept
unnormalized (every operation below preserves a positive denominator for
the values this code base produces). -/
structure JsNum where
  num : Int
  den : Int
deriving DecidableEq, Repr

instance (n : Nat) : OfNat JsNum n := ⟨⟨n, 1⟩⟩

instance : NatCast JsNum := ⟨fun n => ⟨n, 1⟩⟩

instance : Neg JsNum := ⟨fun a => ⟨-a.num, a.den⟩⟩

instance : Add JsNum := ⟨fun a b => ⟨a.num * b.den + b.num * a.den, a.den * b.den⟩⟩

instance : Sub JsNum := ⟨fun a b => ⟨a.num * b.den - b.num * a.den, a.den * b.den⟩⟩

instance : Mul JsNum := ⟨fun a b => ⟨a.num * b.num, a.den * b.den⟩⟩

instance : Div JsNum := ⟨fun a b => ⟨a.num * b.den, a.den * b.num⟩⟩

/-- Order by cross multiplication (correct for positive denominators,
which all values built by the embedded code have). -/
instance : LE JsNum := ⟨fun a b => a.num * b.den ≤ b.num * a.den⟩

instance : LT JsNum := ⟨fun a b => a.num * b.den < b.num * a.den⟩

instance (a b : JsNum) : Decidable (a ≤ b) :=
  inferInstanceAs (Decidable (a.num * b.den ≤ b.num * a.den))

instance (a b : JsNum) : Decidable (a < b) :=
  inferInstanceAs (Decidable (a.num * b.den < b.num * a.den))

/-! ## JS semantics helpers -/

/-- JS `Map.set`: overwrite the value under an existing key in place,
otherwise append the binding (insertion order preserved). -/
def jsMapSet {α : Type} (m : List (String × α)) (k : String) (v : α) :
    List (String × α) :=
  match m with
  | [] => [(k, v)]
  | (k0, v0) :: rest =>
      if k0 = k then (k, v) :: rest else (k0, v0) :: jsMapSet rest k v

/-- JS `Map.set` with natural-number keys (used by the layout level groups). -/
def jsMapSetNat {α : Type} (m : List (Nat × α)) (k : Nat) (v : α) :
    List (Nat × α) :=
  match m with
  | [] => [(k, v)]
  | (k0, v0) :: rest =>
      if k0 = k then (k, v) :: rest else (k0, v0) :: jsMapSetNat rest k v

/-- JS `Set.add`: append unless already present. -/
def jsSetAdd (s : List String) (x : String) : List String :=
  if s.contains x then s else s ++ [x]

/-- JS `a || b` for an optional string `a` (`undefined` and `""` are falsy). -/
def jsOrStrOpt (a : Option String) (b : String) : String :=
  match a with
  | none => b
  | some s => if s = "" then b else s

/-- JS `a || b` where both sides are optional strings (used for
`rootNodeId || nodes[0]?.id`); the result is the JS value, which may still
be `undefined` (`none`). -/
def jsOrOptOpt (a : Option String) (b : Option String) : Option String :=
  match a with
  | none => b
  | some s => if s = "" then b else some s

/-- JS truthiness of an optional string (`undefined` and `""` are falsy). -/
def jsTruthyStr (a : Option String) : Bool :=
  match a with
  | none => false
  | some s => s ≠ ""

/-- One step of stable insertion: place `x` after every `y` with
`cmp y x ≤ 0`, i.e. after every element the comparator allows to stay
before it — this preserves the original relative order of ties, exactly the
ES2019 stable-sort contract. -/
def insertCmp {α : Type} (cmp : α → α → Int) (x : α) : List α → List α
  | [] => [x]
  | y :: ys => if cmp y x ≤ 0 then y :: insertCmp cmp x ys else x :: y :: ys

/-- Model of `Array.prototype.sort(cmp)` for an integer-valued comparator:
the (unique) stable sort wrt the comparator, as a left fold of stable
insertions. -/
def jsSortStable {α : Type} (cmp : α → α → Int) (l : List α) : List α :=
  l.foldl (fun acc x => insertCmp cmp x acc) []

/-- `insertCmp` for a fractional comparator (the search score sort). -/
def insertCmpQ {α : Type} (cmp : α → α → JsNum) (x : α) : List α → List α
  | [] => [x]
  | y :: ys => if cmp y x ≤ 0 then y :: insertCmpQ cmp x ys else x :: y :: ys

/-- `Array.prototype.sort(cmp)` for a fractional comparator. -/
def jsSortStableQ {α : Type} (cmp : α → α → JsNum) (l : List α) : List α :=
  l.foldl (fun acc x => insertCmpQ cmp x acc) []

/-- ASCII model of `String.prototype.toLowerCase`. -/
def jsToLower (s : String) : String :=
  String.mk (s.toList.map Char.toLower)

/-- Model of `String.prototype.includes` (substring test). -/
def jsIncludes (s sub : String) : Bool :=
  decide (List.IsInfix (sub.toList) (s.toList))

/-- Model of `String.prototype.startsWith`. -/
def jsStartsWith (s pre : String) : Bool :=
  List.isPrefixOf (pre.toList) (s.toList)

/-- Lexicographic strictly-less on character lists (code-unit order). -/
def charListLtb : List Char → List Char → Bool
  | [], [] => false
  | [], _ :: _ => true
  | _ :: _, [] => false
  | c :: cs, d :: ds =>
      if c < d then true else if d < c then false else charListLtb cs ds

/-- Model of `a.localeCompare(b)` for the ASCII strings of this code base:
lexicographic three-way comparison in code-unit order. -/
def jsLocaleCompare (a b : String) : Int :=
  if charListLtb a.toList b.toList then -1 else if a = b then 0 else 1

/-- Model of `String.prototype.trim` (drop leading and trailing
whitespace). -/
def jsTrim (s : String) : String :=
  String.mk
    (((s.toList.dropWhile Char.isWhitespace).reverse.dropWhile
        Char.isWhitespace).reverse)

/-- `v.split('.')`: every separator occurrence splits (empty pieces kept). -/
def splitOnDotGo : List Char → List Char → List String
  | [], cur => [String.mk cur]
  | c :: rest, cur =>
      if c = '.' then String.mk cur :: splitOnDotGo rest []
      else splitOnDotGo rest (cur ++ [c])

def splitOnDot (s : String) : List String :=
  splitOnDotGo s.toList []

/-- Decimal parse of a segment: `some n` on a nonempty all-digit string,
`none` otherwise (the model of `Number(segment)` for the numeric segments
the version format uses; the empty segment is handled by the caller's
`getD 0`, matching `Number('') = 0`). -/
def parseDigits (s : String) : Option Nat :=
  if s.toList ≠ [] && s.toList.all Char.isDigit then
    some (s.toList.foldl (fun acc c => 10 * acc + (c.toNat - '0'.toNat)) 0)
  else none

/-! ## Data model (`types.ts`, `src/unnamed/part_003`)

Optional fields the engine never writes or reads (`FlowNode.parentNode`,
`extent`, `selected`, `isGroup`, `FlowEdge.label` beyond its absence) are
kept only where some code path can observe them. `metadata` bags are opaque
to the core (spec §9) and modelled as optional string-to-string maps. -/

structure DocumentVersion where
  versionId : String
  versionNumber : String
  createdAt : String
  metadata : Option (List (String × String)) := none
deriving DecidableEq, Repr

structure RecordLink where
  recordKey : String
  linkType : String
deriving DecidableEq, Repr

structure DocumentLink where
  documentKey : String
  versionId : Option String := none
  linkType : String
deriving DecidableEq, Repr

structure RecordNode where
  recordKey : String
  title : String
  description : Option String := none
  metadata : Option (List (String × String)) := none
  linkedRecords : Option (List RecordLink) := none
  linkedDocuments : Option (List DocumentLink) := none
deriving DecidableEq, Repr

structure Document where
  documentKey : String
  title : String
  description : Option String := none
  metadata : Option (List (String × String)) := none
  versions : List DocumentVersion
  linkedRecords : Option (List RecordLink) := none
  linkedDocuments : Option (List DocumentLink) := none
deriving DecidableEq, Repr

inductive NodeType where
  | record
  | document
  | documentVersion
deriving DecidableEq, Repr

structure Pos where
  x : JsNum
  y : JsNum
deriving DecidableEq, Repr

structure FlowNodeData where
  type : NodeType
  recordKey : Option String := none
  documentKey : Option String := none
  versionId : Option String := none
  versionNumber : Option String := none
  title : String
  versions : Option (List DocumentVersion) := none
  metadata : Option (List (String × String)) := none
  isExpanded : Option Bool := none
  childCount : Option Nat := none
deriving DecidableEq, Repr

structure FlowNode where
  id : String
  type : NodeType
  position : Pos
  data : FlowNodeData
deriving DecidableEq, Repr

structure EdgeData where
  linkType : String
deriving DecidableEq, Repr

structure EdgeStyle where
  stroke : String
  strokeWidth : JsNum
deriving DecidableEq, Repr

structure FlowEdge where
  id : String
  source : String
  target : String
  label : Option String := none
  type : Option String := none
  data : Option EdgeData := none
  animated : Option Bool := none
  style : Option EdgeStyle := none
deriving DecidableEq, Repr

structure NodeIndex where
  recordsByKey : List (String × FlowNode)
  documentsByKey : List (String × FlowNode)
  versionsById : List (String × FlowNode)
  nodeById : List (String × FlowNode)
deriving DecidableEq, Repr

structure DataRepository where
  records : List (String × RecordNode)
  documents : List (String × Document)
  allRecords : List RecordNode
  allDocuments : List Document
deriving DecidableEq, Repr

/-! ## Deduplication (`utils/dedup.ts`, `src/unnamed/part_004`) -/

def createRecordNodeId (recordKey : String) : String :=
  "record-" ++ recordKey

def createDocumentNodeId (documentKey : String) : String :=
  "document-" ++ documentKey

def createDocumentVersionNodeId (versionId : String) : String :=
  "version-" ++ versionId

/-- `deduplicateRecords`: iterate the input, keep the first record per
`recordKey` (`seen` is a JS Map in insertion order); the result is
`Array.from(seen.values())`. -/
def deduplicateRecordsSeen (records : List RecordNode) :
    List (String × RecordNode) :=
  records.foldl
    (fun seen record =>
      if (seen.lookup record.recordKey).isSome then seen
      else seen ++ [(record.recordKey, record)])
    []

def deduplicateRecords (records : List RecordNode) : List RecordNode :=
  (deduplicateRecordsSeen records).map (·.2)

/-- `mergeDocumentVersions`: union `versions1 ++ versions2` keeping the
first occurrence per `versionId`, then sort by descending `createdAt`
(`b.createdAt.localeCompare(a.createdAt)`). -/
def mergeDocumentVersions (versions1 versions2 : List DocumentVersion) :
    List DocumentVersion :=
  let merged :=
    (versions1 ++ versions2).foldl
      (fun m version =>
        if (m.lookup version.versionId).isSome then m
        else m ++ [(version.versionId, version)])
      []
  jsSortStable (fun a b => jsLocaleCompare b.createdAt a.createdAt)
    (merged.map (·.2))

/-- `deduplicateDocuments`, with the caller-visible mutation made explicit:
the JS `seen` Map stores references into the input array, and on a key
collision the code reassigns `existing.versions` on the first-seen
`Document` object.  The state is `(seen, store)` where `seen` maps a
`documentKey` to the index of its first occurrence and `store` is the
current object state of every input position. -/
def dedupDocsStep (st : List (String × Nat) × List Document)
    (entry : Nat × Document) : List (String × Nat) × List Document :=
  let seen := st.1
  let store := st.2
  let i := entry.1
  let doc := entry.2
  match seen.lookup doc.documentKey with
  | none => (seen ++ [(doc.documentKey, i)], store)
  | some j =>
      let existing := store.getD j doc
      (seen,
       store.set j
         { existing with
           versions := mergeDocumentVersions existing.versions doc.versions })

def dedupDocsLoop (documents : List Document) :
    List (String × Nat) × List Document :=
  documents.enum.foldl dedupDocsStep ([], documents)

/-- The value `deduplicateDocuments` returns
(`Array.from(seen.values())`, read after all mutations). -/
def deduplicateDocuments (documents : List Document) : List Document :=
  let st := dedupDocsLoop documents
  st.1.map (fun kv => st.2.getD kv.2 { documentKey := "", title := "", versions := [] })

/-- The object states of the input array after `deduplicateDocuments` ran
(positions of first-seen duplicated documents have been mutated). -/
def dedupDocsInputAfter (documents : List Document) : List Document :=
  (dedupDocsLoop documents).2

/-- `sortVersions` helper: `v.split('.').map(Number)` (numeric segments;
the empty segment is `0` in both JS and this model). -/
def parseVersion (v : String) : List Nat :=
  (splitOnDot v).map (fun s => (parseDigits s).getD 0)

/-- Tail of the `sortVersions` comparator loop once the first version has
run out of segments (`aNum` is `0` from then on). -/
def semverCmpNil : List Nat → Int
  | [] => 0
  | b :: bs => if b ≠ 0 then (b : Int) else semverCmpNil bs

/-- The comparator body of `sortVersions`: first differing segment decides,
missing segments count as `0` (`bNum - aNum`, i.e. descending). -/
def semverCmpParts : List Nat → List Nat → Int
  | [], bs => semverCmpNil bs
  | a :: as_, [] => if a ≠ 0 then (0 : Int) - a else semverCmpParts as_ []
  | a :: as_, b :: bs => if a ≠ b then (b : Int) - a else semverCmpParts as_ bs

def semverCmp (a b : DocumentVersion) : Int :=
  semverCmpParts (parseVersion a.versionNumber) (parseVersion b.versionNumber)

/-- `sortVersions`: stable sort of a copy of the list by descending
semantic version. -/
def sortVersions (versions : List DocumentVersion) : List DocumentVersion :=
  jsSortStable semverCmp versions

/-! ### Node index (`utils/dedup.ts`) -/

def createNodeIndex : NodeIndex :=
  ⟨[], [], [], []⟩

def indexRecordNode (index : NodeIndex) (recordKey : String)
    (node : FlowNode) : NodeIndex :=
  { index with
    recordsByKey := jsMapSet index.recordsByKey recordKey node
    nodeById := jsMapSet index.nodeById node.id node }

def indexDocumentNode (index : NodeIndex) (documentKey : String)
    (node : FlowNode) : NodeIndex :=
  { index with
    documentsByKey := jsMapSet index.documentsByKey documentKey node
    nodeById := jsMapSet index.nodeById node.id node }

def indexDocumentVersionNode (index : NodeIndex) (versionId : String)
    (node : FlowNode) : NodeIndex :=
  { index with
    versionsById := jsMapSet index.versionsById versionId node
    nodeById := jsMapSet index.nodeById node.id node }

/-- `calculateRecordChildCount`: distinct linked document keys plus
distinct linked record keys (JS `Set` sizes). -/
def calculateRecordChildCount (record : RecordNode) : Nat :=
  (((record.linkedDocuments.getD []).map (·.documentKey)).dedup).length +
    (((record.linkedRecords.getD []).map (·.recordKey)).dedup).length

/-- `calculateDocumentChildCount`: distinct linked keys plus the version
count (`document.versions?.length || 0`). -/
def calculateDocumentChildCount (document : Document) : Nat :=
  (((document.linkedDocuments.getD []).map (·.documentKey)).dedup).length +
    (((document.linkedRecords.getD []).map (·.recordKey)).dedup).length +
    document.versions.length

/-- `getOrCreateRecordNode`; the TS mutates the index through a reference,
modelled by also returning the updated index. -/
def getOrCreateRecordNode (index : NodeIndex) (record : RecordNode)
    (position : Pos) : FlowNode × NodeIndex :=
  match index.recordsByKey.lookup record.recordKey with
  | some existingNode => (existingNode, index)
  | none =>
      let node : FlowNode :=
        { id := createRecordNodeId record.recordKey
          type := NodeType.record
          position := position
          data :=
            { type := NodeType.record
              recordKey := some record.recordKey
              title := record.title
              metadata := record.metadata
              isExpanded := some false
              childCount := some (calculateRecordChildCount record) } }
      (node, indexRecordNode index record.recordKey node)

def getOrCreateDocumentNode (index : NodeIndex) (document : Document)
    (position : Pos) : FlowNode × NodeIndex :=
  match index.documentsByKey.lookup document.documentKey with
  | some existingNode => (existingNode, index)
  | none =>
      let node : FlowNode :=
        { id := createDocumentNodeId document.documentKey
          type := NodeType.document
          position := position
          data :=
            { type := NodeType.document
              documentKey := some document.documentKey
              title := document.title
              versions := some (sortVersions document.versions)
              metadata := document.metadata
              isExpanded := some false
              childCount := some (calculateDocumentChildCount document) } }
      (node, indexDocumentNode index document.documentKey node)

def getOrCreateDocumentVersionNode (index : NodeIndex) (documentKey : String)
    (version : DocumentVersion) (position : Pos) : FlowNode × NodeIndex :=
  match index.versionsById.lookup version.versionId with
  | some existingNode => (existingNode, index)
  | none =>
      let node : FlowNode :=
        { id := createDocumentVersionNodeId version.versionId
          type := NodeType.documentVersion
          position := position
          data :=
            { type := NodeType.documentVersion
              documentKey := some documentKey
              versionId := some version.versionId
              versionNumber := some version.versionNumber
              title := "v" ++ version.versionNumber
              metadata := version.metadata
              childCount := some 0 } }
      (node, indexDocumentVersionNode index version.versionId node)

/-! ### Data repository (`utils/dedup.ts`) -/

/-- `new Map(list.map(x => [key x, x]))`: later keys overwrite earlier ones
(the deduplicated lists have unique keys, so this is a plain zip). -/
def listToJsMapRecords (l : List RecordNode) : List (String × RecordNode) :=
  l.foldl (fun m r => jsMapSet m r.recordKey r) []

def listToJsMapDocuments (l : List Document) : List (String × Document) :=
  l.foldl (fun m d => jsMapSet m d.documentKey d) []

def createDataRepository (records : List RecordNode)
    (documents : List Document) : DataRepository :=
  let dedupedRecords := deduplicateRecords records
  let dedupedDocuments := deduplicateDocuments documents
  { records := listToJsMapRecords dedupedRecords
    documents := listToJsMapDocuments dedupedDocuments
    allRecords := dedupedRecords
    allDocuments := dedupedDocuments }

def getRecord (repository : DataRepository) (recordKey : String) :
    Option RecordNode :=
  repository.records.lookup recordKey

def getDocument (repository : DataRepository) (documentKey : String) :
    Option Document :=
  repository.documents.lookup documentKey

/-! ### Edge creation (`utils/dedup.ts`) -/

def getLinkTypeColor (_linkType : String) : String :=
  "#3b82f6"

def createEdgeId (sourceId targetId : String) (linkType : String) : String :=
  sourceId ++ "â†’" ++ targetId ++ ":" ++ linkType

def createEdge (sourceId targetId : String) (linkType : String) : FlowEdge :=
  { id := createEdgeId sourceId targetId linkType
    source := sourceId
    target := targetId
    type := some "smoothstep"
    data := some { linkType := linkType }
    animated := some false
    style := some { stroke := getLinkTypeColor linkType, strokeWidth := 2 } }

/-- `isEdgeUnique`: true iff no existing edge has the same
`(source, target, data.linkType)` triple (`edge.data?.linkType === linkType`
is false when `data` is absent). -/
def isEdgeUnique (edges : List FlowEdge) (sourceId targetId : String)
    (linkType : String) : Bool :=
  ! edges.any (fun edge =>
      edge.source = sourceId && edge.target = targetId &&
        (match edge.data with
         | some d => d.linkType = linkType
         | none => false))

/-- `collectLinkedRecords` (despite the name it does not recurse): resolve
each linked record key in the repository, skipping unresolved keys; the
`visited` parameter defaults to the empty set at every call site. -/
def collectLinkedRecords (record : RecordNode) (repository : DataRepository)
    (visited : List String := []) : List RecordNode :=
  if visited.contains record.recordKey then []
  else
    (record.linkedRecords.getD []).filterMap
      (fun link => getRecord repository link.recordKey)

def collectLinkedDocuments (record : RecordNode)
    (repository : DataRepository) : List Document :=
  (record.linkedDocuments.getD []).filterMap
    (fun link => getDocument repository link.documentKey)

/-! ## Layout engine (`utils/layout.ts`, `src/unnamed/part_004`)

`LayoutEngine` options: the constructor only overrides a default when the
supplied number is truthy, and `calculateHierarchicalLayout` passes
`{levelGap: 320, nodeGap: 220}`, so the engine it builds has
width 200 / height 60 / levelGap 320 / nodeGap 220. -/

structure LayoutOpts where
  nodeWidth : JsNum := 200
  nodeHeight : JsNum := 60
  levelGap : JsNum := 120
  nodeGap : JsNum := 60
deriving DecidableEq, Repr

inductive Dir where
  | LR
  | TB
  | RL
  | BT
deriving DecidableEq, Repr

/-- `buildAdjacencyList`: initialise every node id to `[]`, then push each
edge's target onto its source's list (JS Map in insertion order; an edge
source that is not a node id gets its own key). -/
def buildAdjacencyList (nodes : List FlowNode) (edges : List FlowEdge) :
    List (String × List String) :=
  let init := nodes.foldl (fun adjacency node => jsMapSet adjacency node.id []) []
  edges.foldl
    (fun adjacency edge =>
      jsMapSet adjacency edge.source
        (((adjacency.lookup edge.source).getD []) ++ [edge.target]))
    init

structure DfsState where
  visited : List String
  levels : List (String × Nat)
deriving DecidableEq, Repr

/-- The `forEach` over the adjacency children inside the `dfs` closure,
abstracted over the recursive visit at the next stack depth. -/
def dfsChildren (f : String → Nat → DfsState → Option DfsState) :
    List String → Nat → DfsState → Option DfsState
  | [], _, st => some st
  | c :: cs, level, st =>
      match f c level st with
      | none => none
      | some st2 => dfsChildren f cs level st2

/-- The recursive `dfs` closure of `calculateLevels`:
`if visited return; visited.add(id); levels.set(id, level); recurse on the
adjacency children`.  The source recursion is unbounded; `fuel` models the
call stack and `calculateLevels` supplies a provably sufficient amount. -/
def dfsVisit (adj : String → List String) : Nat → String → Nat → DfsState →
    Option DfsState
  | 0, _, _, _ => none
  | Nat.succ fuel1, id, level, st =>
      if st.visited.contains id then some st
      else
        dfsChildren (dfsVisit adj fuel1) (adj id) (level + 1)
          ⟨st.visited ++ [id], st.levels ++ [(id, level)]⟩

/-- `calculateLevels(nodes, edges, rootNodeId?)`: run the guarded DFS from
`rootNodeId || nodes[0]?.id` (returning the empty map when that is falsy),
then default every node id the DFS did not reach to level 0.  The `none`
branch of the DFS is unreachable for the supplied fuel
(`dfsVisit_isSome`). -/
def calculateLevels (nodes : List FlowNode) (edges : List FlowEdge)
    (rootNodeId : Option String) : List (String × Nat) :=
  let adjacency := buildAdjacencyList nodes edges
  let adj := fun id => (adjacency.lookup id).getD []
  match jsOrOptOpt rootNodeId ((nodes.head?).map (·.id)) with
  | none => []
  | some startNode =>
      if startNode = "" then []
      else
        let univ := startNode :: (nodes.map (·.id) ++ edges.map (·.target))
        match dfsVisit adj (univ.length + 1) startNode 0 ⟨[], []⟩ with
        | none => []
        | some st =>
            nodes.foldl
              (fun levels node =>
                if (levels.lookup node.id).isSome then levels
                else levels ++ [(node.id, 0)])
              st.levels

/-- The `levelGroups` Map of `positionNodes` (nodes grouped by
`levels.get(node.id) || 0`, keys in first-occurrence order, each group in
node-list order). -/
def levelGroupsOf (levels : List (String × Nat)) (nodes : List FlowNode) :
    List (Nat × List FlowNode) :=
  nodes.foldl
    (fun groups node =>
      let level := (levels.lookup node.id).getD 0
      jsMapSetNat groups level (((groups.lookup level).getD []) ++ [node]))
    []

/-- The horizontal walk of `positionNodes` (`LR`/`RL` branch): for each
level in `sorted` order lay its group out vertically centred on 0, then
advance `currentX` by `nodeWidth + levelGap`. -/
def posWalkH (o : LayoutOpts) (levelGroups : List (Nat × List FlowNode))
    (sorted : List Nat) (startX : JsNum) : List FlowNode :=
  (sorted.foldl
    (fun st level =>
      let nodesAtLevel := (levelGroups.lookup level).getD []
      let totalHeight := (nodesAtLevel.length : JsNum) * (o.nodeHeight + o.nodeGap)
      let inner :=
        nodesAtLevel.foldl
          (fun st2 node =>
            (st2.1 + o.nodeHeight + o.nodeGap,
             st2.2 ++ [{ node with position := ⟨st.1, st2.1⟩ }]))
          (-totalHeight / 2, st.2)
      (st.1 + o.nodeWidth + o.levelGap, inner.2))
    (startX, ([] : List FlowNode))).2

/-- The vertical walk of `positionNodes` (`TB`/`BT` branch). -/
def posWalkV (o : LayoutOpts) (levelGroups : List (Nat × List FlowNode))
    (sorted : List Nat) (startY : JsNum) : List FlowNode :=
  (sorted.foldl
    (fun st level =>
      let nodesAtLevel := (levelGroups.lookup level).getD []
      let totalWidth := (nodesAtLevel.length : JsNum) * (o.nodeWidth + o.nodeGap)
      let inner :=
        nodesAtLevel.foldl
          (fun st2 node =>
            (st2.1 + o.nodeWidth + o.nodeGap,
             st2.2 ++ [{ node with position := ⟨st2.1, st.1⟩ }]))
          (-totalWidth / 2, st.2)
      (st.1 + o.nodeHeight + o.levelGap, inner.2))
    (startY, ([] : List FlowNode))).2

/-- The column of repositioned nodes a single `posWalkH` level emits
(`x` fixed, `y` advancing) — a decomposition of the walk used by the
layout lemmas. -/
def blockV (o : LayoutOpts) (x : JsNum) : JsNum → List FlowNode →
    List FlowNode
  | _, [] => []
  | y, n :: ms =>
      { n with position := ⟨x, y⟩ } ::
        blockV o x (y + o.nodeHeight + o.nodeGap) ms

/-- The row of repositioned nodes a single `posWalkV` level emits
(`y` fixed, `x` advancing). -/
def blockH (o : LayoutOpts) (y : JsNum) : JsNum → List FlowNode →
    List FlowNode
  | _, [] => []
  | x, n :: ms =>
      { n with position := ⟨x, y⟩ } ::
        blockH o y (x + o.nodeWidth + o.nodeGap) ms

/-- `posWalkH` as the association list of per-level emitted columns. -/
def walkColsBlocks (o : LayoutOpts) (lg : List (Nat × List FlowNode)) :
    List Nat → JsNum → List (Nat × List FlowNode)
  | [], _ => []
  | k :: ks, x =>
      (k, blockV o x
        (-(((((lg.lookup k).getD []).length : JsNum)) *
          (o.nodeHeight + o.nodeGap)) / 2) ((lg.lookup k).getD [])) ::
        walkColsBlocks o lg ks (x + o.nodeWidth + o.levelGap)

/-- `posWalkV` as the association list of per-level emitted rows. -/
def walkRowsBlocks (o : LayoutOpts) (lg : List (Nat × List FlowNode)) :
    List Nat → JsNum → List (Nat × List FlowNode)
  | [], _ => []
  | k :: ks, y =>
      (k, blockH o y
        (-(((((lg.lookup k).getD []).length : JsNum)) *
          (o.nodeWidth + o.nodeGap)) / 2) ((lg.lookup k).getD [])) ::
        walkRowsBlocks o lg ks (y + o.nodeHeight + o.levelGap)

/-- `positionNodes`: group by level, sort the present level keys
(ascending for `LR`/`TB`, descending for `RL`/`BT`), and walk the groups
(start coordinate `-1000` for `RL`/`BT`, `0` otherwise). -/
def positionNodes (o : LayoutOpts) (nodes : List FlowNode)
    (levels : List (String × Nat)) (direction : Dir) : List FlowNode :=
  let levelGroups := levelGroupsOf levels nodes
  let keys := levelGroups.map (·.1)
  match direction with
  | Dir.LR => posWalkH o levelGroups
      (jsSortStable (fun a b => (a : Int) - b) keys) 0
  | Dir.RL => posWalkH o levelGroups
      (jsSortStable (fun a b => (b : Int) - a) keys) (-1000)
  | Dir.TB => posWalkV o levelGroups
      (jsSortStable (fun a b => (a : Int) - b) keys) 0
  | Dir.BT => posWalkV o levelGroups
      (jsSortStable (fun a b => (b : Int) - a) keys) (-1000)

/-- `LayoutEngine.calculateLayout`. -/
def calculateLayout (o : LayoutOpts) (nodes : List FlowNode)
    (edges : List FlowEdge) (direction : Option Dir)
    (rootOpt : Option String) : List FlowNode :=
  let dir := direction.getD Dir.LR
  let rootNodeId := jsOrOptOpt rootOpt ((nodes.head?).map (·.id))
  if nodes.length = 0 then []
  else
    let levels := calculateLevels nodes edges rootNodeId
    positionNodes o nodes levels dir

/-- `calculateHierarchicalLayout` (the layout used by the expansion
engine): a `LayoutEngine` with `levelGap := 320, nodeGap := 220`. -/
def hierarchicalOpts : LayoutOpts :=
  { levelGap := 320, nodeGap := 220 }

def calculateHierarchicalLayout (nodes : List FlowNode)
    (edges : List FlowEdge) (rootNodeId : Option String)
    (direction : Dir := Dir.TB) : List FlowNode :=
  calculateLayout hierarchicalOpts nodes edges (some direction) rootNodeId

/-! ## Expansion engine (`hooks/useExpand.ts`, `src/unnamed/part_005`) -/

/-- JS `a || b` for a non-optional string field. -/
def jsOrStr (a b : String) : String :=
  if a = "" then b else a

/-- `if (!newNodes.find(n => n.id === childNode.id)) newNodes.push(childNode)`. -/
def pushNodeUnlessPresent (nodes : List FlowNode) (childNode : FlowNode) :
    List FlowNode :=
  if nodes.any (fun n => n.id == childNode.id) then nodes
  else nodes ++ [childNode]

/-- `if (isEdgeUnique(...)) newEdges.push(createEdge(...))`. -/
def pushEdgeIfUnique (edges : List FlowEdge) (sourceId targetId : String)
    (linkType : String) : List FlowEdge :=
  if isEdgeUnique edges sourceId targetId linkType then
    edges ++ [createEdge sourceId targetId linkType]
  else edges

/-- The mutable locals of an expansion in flight: the node index (mutated
through `getOrCreate*`), `newNodes`, `newEdges`, and the running `yOffset`. -/
structure ExpSt where
  index : NodeIndex
  nodes : List FlowNode
  edges : List FlowEdge
  yOffset : JsNum

/-- `expandNode`, record branch, `linkedRecords.forEach` body. -/
def expandRecRecStep (nodeId : String) (baseXOffset : JsNum)
    (record : RecordNode) (st : ExpSt) (linkedRecord : RecordNode) : ExpSt :=
  let c := getOrCreateRecordNode st.index linkedRecord ⟨baseXOffset, st.yOffset⟩
  let childNode := c.1
  let nodes := pushNodeUnlessPresent st.nodes childNode
  let recordLink :=
    (record.linkedRecords.getD []).find?
      (fun l => l.recordKey == linkedRecord.recordKey)
  let linkType := jsOrStrOpt (recordLink.map (·.linkType)) "related_to"
  let edges := pushEdgeIfUnique st.edges nodeId childNode.id linkType
  ⟨c.2, nodes, edges, st.yOffset + 120⟩

/-- `expandNode`, record branch, `linkedDocs.forEach` body. -/
def expandRecDocStep (nodeId : String) (baseXOffset : JsNum)
    (record : RecordNode) (st : ExpSt) (linkedDoc : Document) : ExpSt :=
  let c := getOrCreateDocumentNode st.index linkedDoc ⟨baseXOffset, st.yOffset⟩
  let childNode := c.1
  let nodes := pushNodeUnlessPresent st.nodes childNode
  let docLink :=
    (record.linkedDocuments.getD []).find?
      (fun l => l.documentKey == linkedDoc.documentKey)
  let linkType := jsOrStrOpt (docLink.map (·.linkType)) "references"
  let edges := pushEdgeIfUnique st.edges nodeId childNode.id linkType
  ⟨c.2, nodes, edges, st.yOffset + 140⟩

/-- `versions.forEach` body (the version-pill materialization): one
`documentVersion` node per version at `x = baseXOffset + 80`, connected
from the source node with linkType `'is_parent_of'`, `yOffset += 90`. -/
def expandVersionStep (nodeId : String) (baseXOffset : JsNum)
    (documentKey : String) (st : ExpSt) (version : DocumentVersion) : ExpSt :=
  let c := getOrCreateDocumentVersionNode st.index documentKey version
    ⟨baseXOffset + 80, st.yOffset⟩
  let versionNode := c.1
  let nodes := pushNodeUnlessPresent st.nodes versionNode
  let edges := pushEdgeIfUnique st.edges nodeId versionNode.id "is_parent_of"
  ⟨c.2, nodes, edges, st.yOffset + 90⟩

/-- `expandNode`, document branch, `document.linkedRecords?.forEach` body —
including the version block that the source nests inside the
"child record node was newly pushed" conditional. -/
def expandNodeDocRecStep (repository : DataRepository) (nodeId : String)
    (baseXOffset : JsNum) (document : Document) (st : ExpSt)
    (linkRecord : RecordLink) : ExpSt :=
  match getRecord repository linkRecord.recordKey with
  | none => st
  | some linkedRecord =>
      let c := getOrCreateRecordNode st.index linkedRecord
        ⟨baseXOffset, st.yOffset⟩
      let childNode := c.1
      let afterIf : ExpSt :=
        if st.nodes.any (fun n => n.id == childNode.id) then
          ⟨c.2, st.nodes, st.edges, st.yOffset⟩
        else
          document.versions.foldl
            (expandVersionStep nodeId baseXOffset document.documentKey)
            ⟨c.2, st.nodes ++ [childNode], st.edges, st.yOffset⟩
      let linkType := jsOrStr linkRecord.linkType "references"
      let edges := pushEdgeIfUnique afterIf.edges nodeId childNode.id linkType
      ⟨afterIf.index, afterIf.nodes, edges, afterIf.yOffset + 120⟩

/-- The `afterIf` intermediate state of `expandNodeDocRecStep` (the value
of the mutable locals after the guarded push-and-materialize-versions
conditional), named so the step lemmas can speak about it. -/
def docRecAfterIf (nodeId : String) (bx : JsNum) (document : Document)
    (st : ExpSt) (childNode : FlowNode) (idx2 : NodeIndex) : ExpSt :=
  if st.nodes.any (fun n => n.id == childNode.id) then
    ⟨idx2, st.nodes, st.edges, st.yOffset⟩
  else
    document.versions.foldl
      (expandVersionStep nodeId bx document.documentKey)
      ⟨idx2, st.nodes ++ [childNode], st.edges, st.yOffset⟩

/-- `expandNode`, document branch, `document.linkedDocuments?.forEach` body. -/
def expandNodeDocDocStep (repository : DataRepository) (nodeId : String)
    (baseXOffset : JsNum) (st : ExpSt) (linkDoc : DocumentLink) : ExpSt :=
  match getDocument repository linkDoc.documentKey with
  | none => st
  | some linkedDoc =>
      let c := getOrCreateDocumentNode st.index linkedDoc
        ⟨baseXOffset, st.yOffset⟩
      let childNode := c.1
      let nodes := pushNodeUnlessPresent st.nodes childNode
      let linkType := jsOrStr linkDoc.linkType "references"
      let edges := pushEdgeIfUnique st.edges nodeId childNode.id linkType
      ⟨c.2, nodes, edges, st.yOffset + 140⟩

/-- `newNodes.map(n => n.id === nodeId ? {...n, data: {...n.data, isExpanded: true}} : n)`. -/
def markExpanded (nodeId : String) (nodes : List FlowNode) : List FlowNode :=
  nodes.map
    (fun n =>
      if n.id = nodeId then
        { n with data := { n.data with isExpanded := some true } }
      else n)

/-- The branch body of `expandNode` before the shared mark-and-layout
epilogue.  The `Bool` is true when control falls through to the epilogue
and false on the early `return { nodes: newNodes, edges: newEdges }` paths
(missing key on the node data, or entity absent from the repository). -/
def expandNodeBody (index : NodeIndex) (nodeId : String)
    (nodes : List FlowNode) (edges : List FlowEdge)
    (repository : DataRepository) (sourceNode : FlowNode) :
    (NodeIndex × List FlowNode × List FlowEdge) × Bool :=
  if sourceNode.type = NodeType.record then
    if jsTruthyStr sourceNode.data.recordKey then
      match getRecord repository (sourceNode.data.recordKey.getD "") with
      | none => ((index, nodes, edges), false)
      | some record =>
          let baseXOffset := sourceNode.position.x + 250
          let yOffset := sourceNode.position.y - 100
          let st1 :=
            (collectLinkedRecords record repository).foldl
              (expandRecRecStep nodeId baseXOffset record)
              ⟨index, nodes, edges, yOffset⟩
          let st2 :=
            (collectLinkedDocuments record repository).foldl
              (expandRecDocStep nodeId baseXOffset record) st1
          ((st2.index, st2.nodes, st2.edges), true)
    else ((index, nodes, edges), false)
  else if sourceNode.type = NodeType.document then
    if jsTruthyStr sourceNode.data.documentKey then
      match getDocument repository (sourceNode.data.documentKey.getD "") with
      | none => ((index, nodes, edges), false)
      | some document =>
          let baseXOffset := sourceNode.position.x + 250
          let yOffset := sourceNode.position.y - 100
          let st1 :=
            (document.linkedRecords.getD []).foldl
              (expandNodeDocRecStep repository nodeId baseXOffset document)
              ⟨index, nodes, edges, yOffset⟩
          let st2 :=
            (document.linkedDocuments.getD []).foldl
              (expandNodeDocDocStep repository nodeId baseXOffset) st1
          ((st2.index, st2.nodes, st2.edges), true)
    else ((index, nodes, edges), false)
  else ((index, nodes, edges), true)

/-- `expandNode` of the `useExpand` hook: resolve the source node, run the
record/document branch, then mark the source expanded and re-layout with
the source as root (`initialState.layoutDirection || 'TB'`). The node index
(mutated through a ref in the source) is returned alongside
`{ nodes, edges }`. -/
def expandNode (index : NodeIndex) (layoutDirection : Option Dir)
    (nodeId : String) (nodes : List FlowNode) (edges : List FlowEdge)
    (repository : DataRepository) :
    NodeIndex × List FlowNode × List FlowEdge :=
  match nodes.find? (fun n => n.id == nodeId) with
  | none => (index, nodes, edges)
  | some sourceNode =>
      let body := expandNodeBody index nodeId nodes edges repository sourceNode
      if body.2 then
        let updatedNodes := markExpanded nodeId body.1.2.1
        let layoutedNodes :=
          calculateHierarchicalLayout updatedNodes body.1.2.2 (some nodeId)
            (layoutDirection.getD Dir.TB)
        (body.1.1, layoutedNodes, body.1.2.2)
      else body.1

/-! ### `getNodeDescendants` and collapse -/

/-- The `childEdges.forEach` of the `collectDescendants` closure,
abstracted over the recursive visit: add the edge target to the set, then
recurse on it. -/
def collectDescEdges (f : String → List String → Option (List String)) :
    List FlowEdge → List String → Option (List String)
  | [], descendants => some descendants
  | e :: rest, descendants =>
      match f e.target (jsSetAdd descendants e.target) with
      | none => none
      | some ds => collectDescEdges f rest ds

/-- The `collectDescendants` closure (textually identical in
`useExpand.ts` and in `FlowWidget.tsx`): adds each child edge's target to
the `descendants` set and recurses on it **unconditionally** — the set is
never consulted before recursing.  The recursion is modelled with fuel;
`none` for every fuel is how the embedding states that the source
recursion never returns. -/
def collectDescVisit (edges : List FlowEdge) : Nat → String → List String →
    Option (List String)
  | 0, _, _ => none
  | Nat.succ fuel1, id, descendants =>
      collectDescEdges (collectDescVisit edges fuel1)
        (edges.filter (fun e => e.source == id)) descendants

def getNodeDescendants (fuel : Nat) (nodeId : String)
    (_nodes : List FlowNode) (edges : List FlowEdge) :
    Option (List String) :=
  collectDescVisit edges fuel nodeId []

/-- `removeNodeWithDescendants` (`useExpand.ts`). -/
def removeNodeWithDescendants (fuel : Nat) (nodeId : String)
    (nodes : List FlowNode) (edges : List FlowEdge) :
    Option (List FlowNode × List FlowEdge) :=
  match getNodeDescendants fuel nodeId nodes edges with
  | none => none
  | some descendantIds =>
      let nodesToRemove := nodeId :: descendantIds
      some
        (nodes.filter (fun n => ! nodesToRemove.contains n.id),
         edges.filter
           (fun e =>
             ! nodesToRemove.contains e.source &&
               ! nodesToRemove.contains e.target))

/-- The `parentEdges.forEach` of the `collectAncestors` closure,
abstracted over the recursive visit. -/
def collectAncEdges (f : String → List String → Option (List String)) :
    List FlowEdge → List String → Option (List String)
  | [], ancestors => some ancestors
  | e :: rest, ancestors =>
      if ancestors.contains e.source then
        collectAncEdges f rest ancestors
      else
        match f e.source (ancestors ++ [e.source]) with
        | none => none
        | some as_ => collectAncEdges f rest as_

/-- The `collectAncestors` closure of `findAncestors` — this one **is**
guarded: it only adds and recurses on a source id not already in the set. -/
def collectAncVisit (edges : List FlowEdge) : Nat → String → List String →
    Option (List String)
  | 0, _, _ => none
  | Nat.succ fuel1, id, ancestors =>
      collectAncEdges (collectAncVisit edges fuel1)
        (edges.filter (fun e => e.target == id)) ancestors

def findAncestors (fuel : Nat) (nodeId : String) (edges : List FlowEdge) :
    Option (List String) :=
  collectAncVisit edges fuel nodeId []

/-! ### `expandNodeHelper` and `expandNodePath` (`useExpand.ts`) -/

/-- `expandNodeHelper`, document branch, `linkedRecords?.forEach` body
(fallback link type `'is_parent_of'`, no nested version block). -/
def helperDocRecStep (repository : DataRepository) (nodeId : String)
    (baseXOffset : JsNum) (st : ExpSt) (linkRecord : RecordLink) : ExpSt :=
  match getRecord repository linkRecord.recordKey with
  | none => st
  | some linkedRecord =>
      let c := getOrCreateRecordNode st.index linkedRecord
        ⟨baseXOffset, st.yOffset⟩
      let childNode := c.1
      let nodes := pushNodeUnlessPresent st.nodes childNode
      let linkType := jsOrStr linkRecord.linkType "is_parent_of"
      let edges := pushEdgeIfUnique st.edges nodeId childNode.id linkType
      ⟨c.2, nodes, edges, st.yOffset + 120⟩

/-- `expandNodeHelper`, document branch, `linkedDocuments?.forEach` body
(fallback link type `'is_parent_of'`). -/
def helperDocDocStep (repository : DataRepository) (nodeId : String)
    (baseXOffset : JsNum) (st : ExpSt) (linkDoc : DocumentLink) : ExpSt :=
  match getDocument repository linkDoc.documentKey with
  | none => st
  | some linkedDoc =>
      let c := getOrCreateDocumentNode st.index linkedDoc
        ⟨baseXOffset, st.yOffset⟩
      let childNode := c.1
      let nodes := pushNodeUnlessPresent st.nodes childNode
      let linkType := jsOrStr linkDoc.linkType "is_parent_of"
      let edges := pushEdgeIfUnique st.edges nodeId childNode.id linkType
      ⟨c.2, nodes, edges, st.yOffset + 140⟩

/-- The branch body of `expandNodeHelper`: record branch as in
`expandNode`; document branch processes linked records, linked documents
and then — unconditionally, at the top level of the branch — the
document's versions. -/
def expandNodeHelperBody (index : NodeIndex) (nodeId : String)
    (nodes : List FlowNode) (edges : List FlowEdge)
    (repository : DataRepository) (sourceNode : FlowNode) :
    (NodeIndex × List FlowNode × List FlowEdge) × Bool :=
  if sourceNode.type = NodeType.record then
    if jsTruthyStr sourceNode.data.recordKey then
      match getRecord repository (sourceNode.data.recordKey.getD "") with
      | none => ((index, nodes, edges), false)
      | some record =>
          let baseXOffset := sourceNode.position.x + 250
          let yOffset := sourceNode.position.y - 100
          let st1 :=
            (collectLinkedRecords record repository).foldl
              (expandRecRecStep nodeId baseXOffset record)
              ⟨index, nodes, edges, yOffset⟩
          let st2 :=
            (collectLinkedDocuments record repository).foldl
              (expandRecDocStep nodeId baseXOffset record) st1
          ((st2.index, st2.nodes, st2.edges), true)
    else ((index, nodes, edges), false)
  else if sourceNode.type = NodeType.document then
    if jsTruthyStr sourceNode.data.documentKey then
      match getDocument repository (sourceNode.data.documentKey.getD "") with
      | none => ((index, nodes, edges), false)
      | some document =>
          let baseXOffset := sourceNode.position.x + 250
          let yOffset := sourceNode.position.y - 100
          let st1 :=
            (document.linkedRecords.getD []).foldl
              (helperDocRecStep repository nodeId baseXOffset)
              ⟨index, nodes, edges, yOffset⟩
          let st2 :=
            (document.linkedDocuments.getD []).foldl
              (helperDocDocStep repository nodeId baseXOffset) st1
          let st3 :=
            document.versions.foldl
              (expandVersionStep nodeId baseXOffset document.documentKey) st2
          ((st3.index, st3.nodes, st3.edges), true)
    else ((index, nodes, edges), false)
  else ((index, nodes, edges), true)

/-- `expandNodeHelper` (standalone twin of `expandNode`; layout direction
fixed to `'TB'`). -/
def expandNodeHelper (index : NodeIndex) (nodeId : String)
    (nodes : List FlowNode) (edges : List FlowEdge)
    (repository : DataRepository) :
    NodeIndex × List FlowNode × List FlowEdge :=
  match nodes.find? (fun n => n.id == nodeId) with
  | none => (index, nodes, edges)
  | some sourceNode =>
      let body := expandNodeHelperBody index nodeId nodes edges repository
        sourceNode
      if body.2 then
        let updatedNodes := markExpanded nodeId body.1.2.1
        let layoutedNodes :=
          calculateHierarchicalLayout updatedNodes body.1.2.2 (some nodeId)
            Dir.TB
        (body.1.1, layoutedNodes, body.1.2.2)
      else body.1

/-- `expandNodePath`: expand every ancestor of the target (the ancestor
closure is the guarded backward traversal `findAncestors`). -/
def expandNodePath (fuel : Nat) (targetNodeId : String)
    (nodes : List FlowNode) (edges : List FlowEdge)
    (repository : DataRepository) (nodeIndex : NodeIndex) :
    Option (NodeIndex × List FlowNode × List FlowEdge) :=
  match findAncestors fuel targetNodeId edges with
  | none => none
  | some ancestors =>
      some
        (ancestors.foldl
          (fun st ancestorId =>
            expandNodeHelper st.1 ancestorId st.2.1 st.2.2 repository)
          (nodeIndex, nodes, edges))

/-! ## `FlowWidget.handleNodeClick` (`src/src/components/FlowWidget.tsx`) -/

/-- The widget's working state: visible nodes and edges, the
`expandedState` mapping (a JS object read as `expandedState[id] || false`,
hence a total Boolean function), and the session node index. -/
structure WidgetState where
  nodes : List FlowNode
  edges : List FlowEdge
  expandedState : String → Bool
  nodeIndex : NodeIndex

/-- `setExpandedState(prev => ({...prev, [id]: v}))`. -/
def setExpandedFlag (st : String → Bool) (id : String) (v : Bool) :
    String → Bool :=
  fun k => if k = id then v else st k

/-- `handleNodeClick`: collapse when the clicked node's flag is set
(filter out the descendant closure, keeping the clicked node, and drop
every edge with source equal to the clicked node or either endpoint in the
closure), otherwise expand via the hook's `expandNode`.  `none` models the
collapse branch never returning because `getNodeDescendants` recursed
forever. -/
def handleNodeClick (repository : DataRepository)
    (layoutDirection : Option Dir) (fuel : Nat) (nodeId : String)
    (s : WidgetState) : Option WidgetState :=
  if s.expandedState nodeId then
    match getNodeDescendants fuel nodeId s.nodes s.edges with
    | none => none
    | some descendants =>
        some
          { nodes :=
              s.nodes.filter
                (fun n => n.id == nodeId || ! descendants.contains n.id)
            edges :=
              s.edges.filter
                (fun e =>
                  ! (e.source == nodeId) &&
                    ! descendants.contains e.source &&
                      ! descendants.contains e.target)
            expandedState := setExpandedFlag s.expandedState nodeId false
            nodeIndex := s.nodeIndex }
  else
    let r := expandNode s.nodeIndex layoutDirection nodeId s.nodes s.edges
      repository
    some
      { nodes := r.2.1
        edges := r.2.2
        expandedState := setExpandedFlag s.expandedState nodeId true
        nodeIndex := r.1 }

/-! ## Search service (`src/src/services/search.ts`) -/

inductive SearchCategory where
  | records
  | documents
  | all
deriving DecidableEq, Repr

inductive SRType where
  | record
  | document
deriving DecidableEq, Repr

structure SearchResult where
  id : String
  type : SRType
  key : String
  title : String
  category : SearchCategory
  metadata : Option (List (String × String)) := none
deriving DecidableEq, Repr

/-- `SearchService.buildIndex`: index all records, then all documents,
under `record-`/`document-` prefixed ids (a JS Map in insertion order). -/
def buildSearchIndex (repository : DataRepository) :
    List (String × SearchResult) :=
  let withRecords :=
    repository.allRecords.foldl
      (fun index record =>
        let id := "record-" ++ record.recordKey
        jsMapSet index id
          { id := id
            type := SRType.record
            key := record.recordKey
            title := record.title
            category := SearchCategory.records
            metadata := record.metadata })
      []
  repository.allDocuments.foldl
    (fun index document =>
      let docId := "document-" ++ document.documentKey
      jsMapSet index docId
        { id := docId
          type := SRType.document
          key := document.documentKey
          title := document.title
          category := SearchCategory.documents
          metadata := document.metadata })
    withRecords

/-- `calculateSimilarity` (`search.ts`): 1 for equal lowercased strings,
0.8 when one contains the other, otherwise the fraction of the shorter
string's characters occurring anywhere in the longer. -/
def calculateSimilarity (str1 str2 : String) : JsNum :=
  let s1 := jsToLower str1
  let s2 := jsToLower str2
  if s1 = s2 then 1
  else if jsIncludes s1 s2 || jsIncludes s2 s1 then 8 / 10
  else
    let longer := if s1.length > s2.length then s1 else s2
    let shorter := if s1.length > s2.length then s2 else s1
    let matchCount :=
      (shorter.toList.filter (fun char => longer.toList.contains char)).length
    (matchCount : JsNum) / (longer.length : JsNum)

/-- `SearchService.calculateScore`: per term, +2 for a title prefix match,
+1.5 for a non-prefix title substring match, +1 for a key substring match,
plus the fuzzy similarity when it exceeds 0.6. -/
def calculateScore (result : SearchResult) (terms : List String) : JsNum :=
  let titleLower := jsToLower result.title
  let keyLower := jsToLower result.key
  terms.foldl
    (fun score term =>
      let score :=
        if jsIncludes titleLower term then
          if jsStartsWith titleLower term then score + 2 else score + 3 / 2
        else score
      let score := if jsIncludes keyLower term then score + 1 else score
      let similarity := calculateSimilarity titleLower term
      if similarity > 3 / 5 then score + similarity else score)
    0

/-- The `categoryFilter` closure of `SearchService.search`. -/
def categoryFilter (categories : List SearchCategory)
    (result : SearchResult) : Bool :=
  if categories.contains SearchCategory.all then true
  else if categories.contains SearchCategory.records &&
      result.type == SRType.record then true
  else if categories.contains SearchCategory.documents &&
      result.type == SRType.document then true
  else false

/-- `query.split(/\s+/)`: tokens between maximal whitespace runs, with an
empty token at either end when the string starts/ends with whitespace.
`inRun` records that the scanner is inside a whitespace run (the current
token has already been flushed), so a run of any length yields a single
separator. -/
def jsSplitWsGo : List Char → Bool → List Char → List String → List String
  | [], _, cur, acc => acc ++ [String.mk cur]
  | c :: rest, inRun, cur, acc =>
      if c.isWhitespace then
        if inRun then jsSplitWsGo rest true [] acc
        else jsSplitWsGo rest true [] (acc ++ [String.mk cur])
      else jsSplitWsGo rest false (cur ++ [c]) acc

def jsSplitWs (s : String) : List String :=
  jsSplitWsGo s.toList false [] []

/-- `SearchService.search` over a built index: empty (or all-whitespace)
queries return `[]` before any scoring; otherwise filter by category,
score against the lowercased whitespace-split terms, drop non-positive
scores, sort by descending score (stable) and truncate to `limit`
(default 15). -/
def searchRun (index : List (String × SearchResult)) (q : String)
    (categories : List SearchCategory) (limit : Nat := 15) :
    List SearchResult :=
  if (jsTrim q).length = 0 then []
  else
    let searchTerms := jsSplitWs (jsToLower q)
    let filtered := (index.map (·.2)).filter (categoryFilter categories)
    let scored :=
      (filtered.map (fun result => (result, calculateScore result searchTerms))).filter
        (fun rs => rs.2 > 0)
    let sorted := jsSortStableQ (fun a b => b.2 - a.2) scored
    (sorted.take limit).map (·.1)

/-! ## Spec-side definition (for the refinement comparison of claim C8)

Modelled from the spec: "default root: the first node with no incoming
edge in the working set". The code's default root is `nodes[0]` instead. -/

def specFirstNoIncomingRoot (nodes : List FlowNode)
    (edges : List FlowEdge) : Option String :=
  (nodes.find? (fun n => ! edges.any (fun e => e.target == n.id))).map (·.id)

/-! ## Semantic notions used by the theorems -/

/-- `ReachN adj a b n`: `b` is reachable from `a` in exactly `n` adjacency
steps (the "traversal depth" notion for the layout levels). -/
inductive ReachN (adj : String → List String) : String → String → Nat → Prop
  | refl (a : String) : ReachN adj a a 0
  | step {a b c : String} {n : Nat} : ReachN adj a b n → c ∈ adj b →
      ReachN adj a c (n + 1)

/-- The order the spec asserts for an exposed version list: descending
semantic order, ties broken by descending `createdAt`. `a` may precede `b`
iff `a`'s semantic version is greater, or they tie and `a.createdAt` is not
less than `b.createdAt`. -/
def specVersionOrder (a b : DocumentVersion) : Prop :=
  semverCmp a b < 0 ∨
    (semverCmp a b = 0 ∧
      charListLtb a.createdAt.toList b.createdAt.toList = false)

instance (a b : DocumentVersion) : Decidable (specVersionOrder a b) := by
  unfold specVersionOrder; infer_instance

/-- Equality of every `Document` field except the version set. -/
def nonVersionFieldsEq (a b : Document) : Prop :=
  a.documentKey = b.documentKey ∧ a.title = b.title ∧
    a.description = b.description ∧ a.metadata = b.metadata ∧
      a.linkedRecords = b.linkedRecords ∧ a.linkedDocuments = b.linkedDocuments

/-! ## Concrete fixtures for witnesses and counterexamples -/

/-- A minimal record-variant visual node with a given id (used for graphs
whose node payloads are irrelevant). -/
def mkPlainNode (id : String) : FlowNode :=
  { id := id
    type := NodeType.record
    position := ⟨0, 0⟩
    data := { type := NodeType.record, title := id } }

def nodeA : FlowNode := mkPlainNode "A"
def nodeB : FlowNode := mkPlainNode "B"
def nodeC : FlowNode := mkPlainNode "C"
def nodeD : FlowNode := mkPlainNode "D"

def cycAB : FlowEdge := createEdge "A" "B" "is_parent_of"
def cycBA : FlowEdge := createEdge "B" "A" "is_parent_of"

/-- The two-node cycle A→B→A of the claims. -/
def cycEdges : List FlowEdge := [cycAB, cycBA]

def chainBC : FlowEdge := createEdge "B" "C" "is_parent_of"
def chainCD : FlowEdge := createEdge "C" "D" "is_parent_of"

/-- The chain A→B→C→D with A expanded. -/
def chainFlags : String → Bool := fun k => k == "A"

def chainState : WidgetState :=
  { nodes := [nodeA, nodeB, nodeC, nodeD]
    edges := [cycAB, chainBC, chainCD]
    expandedState := chainFlags
    nodeIndex := createNodeIndex }

def emptyRepo : DataRepository := createDataRepository [] []

/-- The collapsed chain state (what clicking A must produce). -/
def chainCollapsedState : WidgetState :=
  { nodes := [nodeA]
    edges := []
    expandedState := setExpandedFlag chainFlags "A" false
    nodeIndex := createNodeIndex }

/-- Two versions with equal semantic version `1.0` and ascending
`createdAt` (first-seen is the older one). -/
def vTieOld : DocumentVersion :=
  { versionId := "a", versionNumber := "1.0", createdAt := "2020-01-01" }

def vTieNew : DocumentVersion :=
  { versionId := "b", versionNumber := "1.0", createdAt := "2021-01-01" }

/-- A document ingested once whose version list ties semantically in
ascending `createdAt` order. -/
def dTie : Document :=
  { documentKey := "D", title := "doc", versions := [vTieOld, vTieNew] }

def dDefault : Document := { documentKey := "", title := "", versions := [] }

def c6repo : DataRepository := createDataRepository [] [dTie]

/-- The version list the repository exposes for `dTie` on its visual node. -/
def c6exposed : List DocumentVersion :=
  ((getOrCreateDocumentNode createNodeIndex
      ((getDocument c6repo "D").getD dDefault) ⟨0, 0⟩).1.data.versions).getD []

/-- Duplicate ingestions of documentKey "D" with different version sets. -/
def dDupFirst : Document :=
  { documentKey := "D", title := "first", versions := [vTieOld] }

def dDupSecond : Document :=
  { documentKey := "D", title := "second", versions := [vTieNew] }

/-- `dDupFirst` as it stands after `deduplicateDocuments` mutated it. -/
def dDupFirstAfter : Document :=
  { dDupFirst with
    versions := mergeDocumentVersions dDupFirst.versions dDupSecond.versions }

/-- The spec's dedup example: R1 ingested twice with different titles,
then R2. -/
def r1first : RecordNode := { recordKey := "R1", title := "first title" }

def r1second : RecordNode := { recordKey := "R1", title := "second title" }

def r2other : RecordNode := { recordKey := "R2", title := "other" }

def c1repo : DataRepository :=
  createDataRepository [r1first, r1second, r2other] [dDupFirst, dDupSecond]

/-- Search fixtures: the two items of the spec's scoring example. -/
def rAPI : RecordNode := { recordKey := "r1", title := "API Layer" }

def rDocu : RecordNode := { recordKey := "r2", title := "Documentation" }

def searchRepo : DataRepository := createDataRepository [rAPI, rDocu] []

def searchIdx : List (String × SearchResult) := buildSearchIndex searchRepo

def srAPI : SearchResult :=
  { id := "record-r1"
    type := SRType.record
    key := "r1"
    title := "API Layer"
    category := SearchCategory.records }

def srDocu : SearchResult :=
  { id := "record-r2"
    type := SRType.record
    key := "r2"
    title := "Documentation"
    category := SearchCategory.records }

/-- A document with one version and no linked records (the C3 failing
input), and a graph showing only its node. -/
def c3doc : Document := { documentKey := "DV", title := "doc", versions := [vTieOld] }

def c3repo : DataRepository := createDataRepository [] [c3doc]

def c3start : FlowNode × NodeIndex :=
  getOrCreateDocumentNode createNodeIndex c3doc ⟨0, 0⟩

/-- Expansion fixture for the idempotence witness: a record with a linked
record and a linked document. -/
def c4childRec : RecordNode := { recordKey := "C", title := "child" }

def c4rootRec : RecordNode :=
  { recordKey := "R"
    title := "root"
    linkedRecords := some [{ recordKey := "C", linkType := "is_parent_of" }]
    linkedDocuments := some [{ documentKey := "DV", linkType := "is_parent_of" }] }

def c4repo : DataRepository := createDataRepository [c4rootRec, c4childRec] [c3doc]

def c4start : FlowNode × NodeIndex :=
  getOrCreateRecordNode createNodeIndex c4rootRec ⟨0, 0⟩

def c4once : NodeIndex × List FlowNode × List FlowEdge :=
  expandNode c4start.2 none "record-R" [c4start.1] [] c4repo

/-- Layout fixture: working set `[B, A]` with the single edge A→B — the
first node of the set (B) has an incoming edge, the first node with no
incoming edge is A. -/
def c8nodes : List FlowNode := [nodeB, nodeA]

def c8edges : List FlowEdge := [cycAB]

/-- `i2` has every binding of `i1` in the three entity maps (the
`getOrCreate*` functions only ever add absent keys, so the node index only
grows). -/
def indexLe (i1 i2 : NodeIndex) : Prop :=
  (∀ k v, i1.recordsByKey.lookup k = some v →
    i2.recordsByKey.lookup k = some v) ∧
  (∀ k v, i1.documentsByKey.lookup k = some v →
    i2.documentsByKey.lookup k = some v) ∧
  (∀ k v, i1.versionsById.lookup k = some v →
    i2.versionsById.lookup k = some v)

/-- One expansion step only extends the in-flight state: the index grows,
and nodes and edges are appended to. -/
def stExtends (st st' : ExpSt) : Prop :=
  indexLe st.index st'.index ∧ (∃ ns, st'.nodes = st.nodes ++ ns) ∧
    (∃ es, st'.edges = st.edges ++ es)

/-- The saturation condition an expansion step leaves behind for the child
it processed: the child node is bound in the index map `look` under `key`,
it is present in the node list, and its edge triple is present. -/
def satIn (look : NodeIndex → List (String × FlowNode)) (key : String)
    (srcId lt : String) (st : ExpSt) : Prop :=
  ∃ v, (look st.index).lookup key = some v ∧
    st.nodes.any (fun n => n.id == v.id) = true ∧
    isEdgeUnique st.edges srcId v.id lt = false

/-! # Theorems -/

/-! ## C2 — closure termination on the two-node cycle -/

/-- On the cycle A→B→A the unguarded descendant walk never returns: for
every fuel (stack budget) the recursion is still running.  Proved for both
entry points simultaneously. -/
theorem collectDesc_cycle_none (fuel : Nat) :
    ∀ ds, collectDescVisit cycEdges fuel "A" ds = none ∧
      collectDescVisit cycEdges fuel "B" ds = none := by
  induction fuel with
  | zero => intro ds; exact ⟨rfl, rfl⟩
  | succ n ih =>
      intro ds
      constructor
      · show collectDescEdges (collectDescVisit cycEdges n)
          (cycEdges.filter (fun e => e.source == "A")) ds = none
        rw [show cycEdges.filter (fun e => e.source == "A") = [cycAB] from rfl]
        show (match collectDescVisit cycEdges n cycAB.target
                (jsSetAdd ds cycAB.target) with
              | none => none
              | some ds2 =>
                  collectDescEdges (collectDescVisit cycEdges n) [] ds2) = none
        rw [show cycAB.target = "B" from rfl, (ih (jsSetAdd ds "B")).2]
      · show collectDescEdges (collectDescVisit cycEdges n)
          (cycEdges.filter (fun e => e.source == "B")) ds = none
        rw [show cycEdges.filter (fun e => e.source == "B") = [cycBA] from rfl]
        show (match collectDescVisit cycEdges n cycBA.target
                (jsSetAdd ds cycBA.target) with
              | none => none
              | some ds2 =>
                  collectDescEdges (collectDescVisit cycEdges n) [] ds2) = none
        rw [show cycBA.target = "A" from rfl, (ih (jsSetAdd ds "A")).1]

/-- **C2** (code bug).  The claim asserts that both closure computations
terminate on the two-node cycle A→B→A with closure exactly {A, B}.  The
guarded ancestor closure (`findAncestors`, used by `expandPath`) does:
with any sufficient stack budget it returns exactly {B, A}.  But the
descendant closure used by collapse (`getNodeDescendants`, identical in
`useExpand.ts` and `FlowWidget.tsx`) recurses on each edge target without
consulting the visited set, so on the cycle it never returns — `none` for
every fuel — even though the spec calls the visited-set guard mandatory. -/
theorem c2_descendant_closure_diverges_on_cycle :
    (∀ fuel, getNodeDescendants fuel "A" [nodeA, nodeB] cycEdges = none) ∧
      ∀ fuel, findAncestors (fuel + 3) "A" cycEdges = some ["B", "A"] := by
  constructor
  · intro fuel; exact (collectDesc_cycle_none fuel []).1
  · intro fuel; rfl

/-! ## C3 — version children of a document with no linked records -/

/-- **C3** (code bug).  Expanding the document node of a document that has
one version and no linked records: `expandNode` (the expansion the click
handler runs) produces **no** `documentVersion` node and no edge at all,
because its version block is nested inside the "a linked record child was
just pushed" branch; its standalone twin `expandNodeHelper` — "similar to
expandNode" per its doc comment — materializes the version child
unconditionally, as the spec describes. -/
theorem c3_expandNode_drops_version_children :
    ((expandNode c3start.2 none "document-DV" [c3start.1] [] c3repo).2.1.filter
        (fun n => n.type == NodeType.documentVersion)) = [] ∧
      (expandNode c3start.2 none "document-DV" [c3start.1] [] c3repo).2.2 = [] ∧
      ((expandNodeHelper c3start.2 "document-DV" [c3start.1] []
            c3repo).2.1.filter
          (fun n => n.type == NodeType.documentVersion)).map (·.id) =
        ["version-a"] := by
  decide

/-! ## C10 — collapse only touches the clicked node's flag -/

/-- **C10** (confirmed).  A collapse of an expanded node `n` updates the
`expandedFlags` mapping only at `n` (to `false`); every other id — in
particular a removed descendant that was itself expanded — keeps its
previous flag. -/
theorem c10_collapse_frames_expanded_flags (repository : DataRepository)
    (layoutDirection : Option Dir) (fuel : Nat) (n : String)
    (s s2 : WidgetState) (hexp : s.expandedState n = true)
    (hrun : handleNodeClick repository layoutDirection fuel n s = some s2) :
    s2.expandedState n = false ∧
      ∀ m, m ≠ n → s2.expandedState m = s.expandedState m := by
  unfold handleNodeClick at hrun
  rw [hexp] at hrun
  simp only [if_true] at hrun
  cases hd : getNodeDescendants fuel n s.nodes s.edges with
  | none => rw [hd] at hrun; exact absurd hrun (by simp)
  | some ds =>
      rw [hd] at hrun
      have h2 : s2.expandedState = setExpandedFlag s.expandedState n false := by
        cases hrun; rfl
      rw [h2]
      refine ⟨?_, ?_⟩
      · show (if n = n then false else s.expandedState n) = false
        rw [if_pos rfl]
      · intro m hm
        show (if m = n then false else s.expandedState m) = s.expandedState m
        rw [if_neg hm]

/-- Witness for C10: collapsing A in the expanded chain state sets A's
flag to false and leaves B's flag untouched. -/
theorem c10_collapse_frames_expanded_flags_witness :
    chainCollapsedState.expandedState "A" = false ∧
      chainCollapsedState.expandedState "B" = chainState.expandedState "B" := by
  have h := c10_collapse_frames_expanded_flags emptyRepo none 10 "A" chainState
    chainCollapsedState rfl rfl
  exact ⟨h.1, h.2 "B" (by decide)⟩

/-! ## C5 — collapsing the head of a chain -/

/-- **C5** (confirmed).  On any visible graph that is exactly the acyclic
chain A→B→C→D with A expanded, clicking A collapses it: the descendant
closure {B, C, D} is removed together with every edge touching it, node A
alone remains, and A's flag is cleared.  `fuel + 4` covers every stack
budget deep enough for the four-node walk. -/
theorem c5_collapse_chain (repository : DataRepository)
    (layoutDirection : Option Dir) (fuel : Nat)
    (a b c d : String) (A B C D : FlowNode) (e1 e2 e3 : FlowEdge)
    (s : WidgetState)
    (hab : a ≠ b) (hac : a ≠ c) (had : a ≠ d)
    (hbc : b ≠ c) (hbd : b ≠ d) (hcd : c ≠ d)
    (hA : A.id = a) (hB : B.id = b) (hC : C.id = c) (hD : D.id = d)
    (h1s : e1.source = a) (h1t : e1.target = b)
    (h2s : e2.source = b) (h2t : e2.target = c)
    (h3s : e3.source = c) (h3t : e3.target = d)
    (hn : s.nodes = [A, B, C, D]) (he : s.edges = [e1, e2, e3])
    (hexp : s.expandedState a = true) :
    handleNodeClick repository layoutDirection (fuel + 4) a s =
      some { nodes := [A], edges := [],
             expandedState := setExpandedFlag s.expandedState a false,
             nodeIndex := s.nodeIndex } := by
  have hba : ((b == a) = false) := beq_eq_false_iff_ne.mpr (Ne.symm hab)
  have hca : ((c == a) = false) := beq_eq_false_iff_ne.mpr (Ne.symm hac)
  have hda : ((d == a) = false) := beq_eq_false_iff_ne.mpr (Ne.symm had)
  have hab2 : ((a == b) = false) := beq_eq_false_iff_ne.mpr hab
  have hcb : ((c == b) = false) := beq_eq_false_iff_ne.mpr (Ne.symm hbc)
  have hdb : ((d == b) = false) := beq_eq_false_iff_ne.mpr (Ne.symm hbd)
  have hac2 : ((a == c) = false) := beq_eq_false_iff_ne.mpr hac
  have hbc2 : ((b == c) = false) := beq_eq_false_iff_ne.mpr hbc
  have hdc : ((d == c) = false) := beq_eq_false_iff_ne.mpr (Ne.symm hcd)
  have had2 : ((a == d) = false) := beq_eq_false_iff_ne.mpr had
  have hbd2 : ((b == d) = false) := beq_eq_false_iff_ne.mpr hbd
  have hcd2 : ((c == d) = false) := beq_eq_false_iff_ne.mpr hcd
  have hfa : List.filter (fun e => e.source == a) [e1, e2, e3] = [e1] := by
    simp [List.filter_cons, h1s, h2s, h3s, hba, hca]
  have hfb : List.filter (fun e => e.source == b) [e1, e2, e3] = [e2] := by
    simp [List.filter_cons, h1s, h2s, h3s, hab2, hcb]
  have hfc : List.filter (fun e => e.source == c) [e1, e2, e3] = [e3] := by
    simp [List.filter_cons, h1s, h2s, h3s, hac2, hbc2]
  have hfd : List.filter (fun e => e.source == d) [e1, e2, e3] = [] := by
    simp [List.filter_cons, h1s, h2s, h3s, had2, hbd2, hcd2]
  have hadd2 : jsSetAdd [b] c = [b, c] := by
    have hcont : ([b].contains c) = false := by
      show (match c == b with
            | true => true
            | false => List.elem c []) = false
      rw [hcb]
      rfl
    unfold jsSetAdd
    rw [hcont]
    rfl
  have hadd3 : jsSetAdd [b, c] d = [b, c, d] := by
    have hcont : ([b, c].contains d) = false := by
      show (match d == b with
            | true => true
            | false => List.elem d [c]) = false
      rw [hdb]
      show (match d == c with
            | true => true
            | false => List.elem d []) = false
      rw [hdc]
      rfl
    unfold jsSetAdd
    rw [hcont]
    rfl
  have hdesc : getNodeDescendants (fuel + 4) a s.nodes s.edges =
      some [b, c, d] := by
    show collectDescVisit s.edges (fuel + 4) a [] = some [b, c, d]
    rw [he]
    have step4 : collectDescVisit [e1, e2, e3] (fuel + 1) d [b, c, d] =
        some [b, c, d] := by
      show collectDescEdges (collectDescVisit [e1, e2, e3] fuel)
        (List.filter (fun e => e.source == d) [e1, e2, e3]) [b, c, d] =
          some [b, c, d]
      rw [hfd]
      rfl
    have step3 : collectDescVisit [e1, e2, e3] (fuel + 2) c [b, c] =
        some [b, c, d] := by
      show collectDescEdges (collectDescVisit [e1, e2, e3] (fuel + 1))
        (List.filter (fun e => e.source == c) [e1, e2, e3]) [b, c] =
          some [b, c, d]
      rw [hfc]
      show (match collectDescVisit [e1, e2, e3] (fuel + 1) e3.target
              (jsSetAdd [b, c] e3.target) with
            | none => none
            | some ds2 =>
                collectDescEdges (collectDescVisit [e1, e2, e3] (fuel + 1))
                  [] ds2) = some [b, c, d]
      rw [h3t, hadd3, step4]
      rfl
    have step2 : collectDescVisit [e1, e2, e3] (fuel + 3) b [b] =
        some [b, c, d] := by
      show collectDescEdges (collectDescVisit [e1, e2, e3] (fuel + 2))
        (List.filter (fun e => e.source == b) [e1, e2, e3]) [b] =
          some [b, c, d]
      rw [hfb]
      show (match collectDescVisit [e1, e2, e3] (fuel + 2) e2.target
              (jsSetAdd [b] e2.target) with
            | none => none
            | some ds2 =>
                collectDescEdges (collectDescVisit [e1, e2, e3] (fuel + 2))
                  [] ds2) = some [b, c, d]
      rw [h2t, hadd2, step3]
      rfl
    show collectDescEdges (collectDescVisit [e1, e2, e3] (fuel + 3))
      (List.filter (fun e => e.source == a) [e1, e2, e3]) [] = some [b, c, d]
    rw [hfa]
    show (match collectDescVisit [e1, e2, e3] (fuel + 3) e1.target
            (jsSetAdd [] e1.target) with
          | none => none
          | some ds2 =>
              collectDescEdges (collectDescVisit [e1, e2, e3] (fuel + 3)) []
                ds2) = some [b, c, d]
    rw [h1t, show jsSetAdd [] b = [b] from rfl, step2]
    rfl
  unfold handleNodeClick
  rw [hexp]
  simp only [if_true, hdesc, Option.some.injEq, WidgetState.mk.injEq]
  refine ⟨?_, ?_, trivial, trivial⟩
  · rw [hn]
    simp [hA, hB, hC, hD, hab, hac, had, hbc, hbd, hcd,
      Ne.symm hab, Ne.symm hac, Ne.symm had, Ne.symm hbc, Ne.symm hbd,
      Ne.symm hcd]
  · rw [he]
    simp [h1s, h2s, h3s, h1t, h2t, h3t, hab, hac, had, hbc, hbd, hcd,
      Ne.symm hab, Ne.symm hac, Ne.symm had, Ne.symm hbc, Ne.symm hbd,
      Ne.symm hcd]

/-- Witness for C5: the concrete chain A→B→C→D with A expanded collapses
to the single node A with no edges. -/
theorem c5_collapse_chain_witness :
    handleNodeClick emptyRepo none 14 "A" chainState =
      some chainCollapsedState := by
  have h := c5_collapse_chain emptyRepo none 10 "A" "B" "C" "D"
    nodeA nodeB nodeC nodeD cycAB chainBC chainCD chainState
    (by decide) (by decide) (by decide) (by decide) (by decide) (by decide)
    rfl rfl rfl rfl rfl rfl rfl rfl rfl rfl rfl rfl rfl
  exact h

/-! ## C7 — search scoring -/

/-- A non-positive JS number is not strictly positive (scores live on
denominator 1 on the zero side, so this is plain integer arithmetic). -/
theorem jsNum_le_zero_not_lt {x : JsNum} (h : x ≤ 0) : ¬((0 : JsNum) < x) := by
  intro hlt
  have h2 : x.num * 1 ≤ 0 * x.den := h
  have h3 : 0 * x.den < x.num * 1 := hlt
  rw [mul_one, zero_mul] at h2 h3
  exact absurd h3 (not_lt.mpr h2)

/-- **C7** (confirmed).  (i) A query that trims to the empty string
returns `[]` for every index, without scoring anything.  (ii) If no
indexed item scores above zero the result is empty.  (iii) Query `"API"`
against the items titled `"API Layer"` and `"Documentation"` returns only
the former, whose score is strictly higher. -/
theorem c7_search_scoring :
    (∀ (index : List (String × SearchResult)) (q : String)
        (categories : List SearchCategory) (limit : Nat),
        jsTrim q = "" → searchRun index q categories limit = []) ∧
      (∀ (index : List (String × SearchResult)) (q : String)
          (categories : List SearchCategory) (limit : Nat),
          (∀ r ∈ index.map (·.2),
              calculateScore r (jsSplitWs (jsToLower q)) ≤ 0) →
            searchRun index q categories limit = []) ∧
      searchRun searchIdx "API" [SearchCategory.all] 15 = [srAPI] ∧
      calculateScore srDocu ["api"] < calculateScore srAPI ["api"] := by
  refine ⟨?_, ?_, by decide, by decide⟩
  · intro index q categories limit h
    unfold searchRun
    rw [h]
    rfl
  · intro index q categories limit h
    unfold searchRun
    by_cases htrim : (jsTrim q).length = 0
    · rw [if_pos htrim]
    · rw [if_neg htrim]
      have hfil : List.filter (fun rs => rs.2 > 0)
          (List.map
            (fun result =>
              (result, calculateScore result (jsSplitWs (jsToLower q))))
            (List.filter (categoryFilter categories)
              (List.map (·.2) index))) = [] := by
        refine List.filter_eq_nil_iff.mpr ?_
        intro rs hrs
        obtain ⟨result, hres, hrfl⟩ := List.mem_map.mp hrs
        have hmem : result ∈ List.map (·.2) index :=
          (List.mem_filter.mp hres).1
        have hle := h result hmem
        rw [← hrfl]
        simpa using jsNum_le_zero_not_lt hle
      simp [hfil, jsSortStableQ]

/-- Witness for C7: a whitespace-only query returns nothing on the empty
index, and a query with no positive score ("zzz") returns nothing on the
fixture index. -/
theorem c7_search_scoring_witness :
    searchRun [] "   " [SearchCategory.all] 15 = [] ∧
      searchRun searchIdx "zzz" [SearchCategory.all] 15 = [] := by
  refine ⟨c7_search_scoring.1 [] "   " [SearchCategory.all] 15 (by decide),
    c7_search_scoring.2.1 searchIdx "zzz" [SearchCategory.all] 15 ?_⟩
  decide

/-! ## C9 — side effects of building the repository -/

/-- A successful association-list lookup comes from a member binding. -/
theorem mem_of_lookup_eq_some {α : Type} :
    ∀ {l : List (String × α)} {k : String} {v : α},
      l.lookup k = some v → (k, v) ∈ l := by
  intro l
  induction l with
  | nil => intro k v h; exact absurd h (by simp [List.lookup])
  | cons a l ih =>
      intro k v h
      rw [List.lookup_cons] at h
      by_cases hk : (k == a.1) = true
      · rw [hk] at h
        have hv : a.2 = v := by injection h
        have hk2 : k = a.1 := eq_of_beq hk
        rw [hk2, ← hv]
        exact List.mem_cons_self a l
      · rw [Bool.not_eq_true] at hk
        rw [hk] at h
        exact List.mem_cons_of_mem a (ih h)

/-- **C9, counterexample.**  Building the repository is not free of side
effects on the input sequences: after deduplicating two ingestions of the
same `documentKey`, the input array's first element is no longer the
document that was passed in (its `versions` field was reassigned to the
merged list). -/
theorem c9_counterexample :
    dedupDocsInputAfter [dDupFirst, dDupSecond] ≠ [dDupFirst, dDupSecond] := by
  decide

/-- The dedup loop invariant: the store keeps its length, every slot keeps
its non-version fields, and a slot that no longer holds its original
document was the first occurrence of a key that recurs at a later index. -/
theorem dedupDocs_fold_invariant (documents : List Document) :
    ∀ (rest : List Document) (p : Nat) (seen : List (String × Nat))
      (store : List Document),
      documents.drop p = rest →
      store.length = documents.length →
      (∀ kv ∈ seen, kv.2 < p ∧ ∃ dj : Document, documents[kv.2]? = some dj ∧
          dj.documentKey = kv.1) →
      (∀ (i : Nat) (ai di : Document), store[i]? = some ai →
          documents[i]? = some di →
          nonVersionFieldsEq ai di ∧
            (ai ≠ di → ∃ (k : Nat) (dk : Document), i < k ∧
              documents[k]? = some dk ∧
              dk.documentKey = di.documentKey)) →
      (((List.enumFrom p rest).foldl dedupDocsStep (seen, store)).2.length =
          documents.length ∧
        ∀ (i : Nat) (ai di : Document),
          ((List.enumFrom p rest).foldl dedupDocsStep (seen, store)).2[i]? =
            some ai →
          documents[i]? = some di →
          nonVersionFieldsEq ai di ∧
            (ai ≠ di → ∃ (k : Nat) (dk : Document), i < k ∧
              documents[k]? = some dk ∧
              dk.documentKey = di.documentKey)) := by
  intro rest
  induction rest with
  | nil =>
      intro p seen store _ hlen _ hD
      exact ⟨hlen, hD⟩
  | cons d rest ih =>
      intro p seen store hdrop hlen hC hD
      have hp : documents[p]? = some d := by
        have h0 := List.getElem?_drop documents p 0
        rw [hdrop] at h0
        simpa using h0.symm
      have hdrop2 : documents.drop (p + 1) = rest := by
        rw [← List.tail_drop, hdrop]
        rfl
      have hplen : p < documents.length := by
        by_contra hge
        rw [List.getElem?_eq_none (Nat.le_of_not_lt hge)] at hp
        exact absurd hp (by simp)
      rw [show List.enumFrom p (d :: rest) = (p, d) :: List.enumFrom (p + 1) rest
            from rfl,
        List.foldl_cons]
      cases hlook : seen.lookup d.documentKey with
      | none =>
          have hstep : dedupDocsStep (seen, store) (p, d) =
              (seen ++ [(d.documentKey, p)], store) := by
            simp only [dedupDocsStep]
            rw [hlook]
          rw [hstep]
          refine ih (p + 1) _ _ hdrop2 hlen ?_ ?_
          · intro kv hkv
            rcases List.mem_append.mp hkv with hmem | hmem
            · obtain ⟨h1, h2⟩ := hC kv hmem
              exact ⟨Nat.lt_succ_of_lt h1, h2⟩
            · have hkv2 : kv = (d.documentKey, p) := by simpa using hmem
              subst hkv2
              exact ⟨Nat.lt_succ_self p, d, hp, rfl⟩
          · exact hD
      | some j =>
          have hstep : dedupDocsStep (seen, store) (p, d) =
              (seen,
               store.set j
                 { store.getD j d with
                   versions :=
                     mergeDocumentVersions (store.getD j d).versions
                       d.versions }) := by
            simp only [dedupDocsStep]
            rw [hlook]
          rw [hstep]
          have hmem := mem_of_lookup_eq_some hlook
          obtain ⟨hj, dj, hdj, hkey⟩ := hC _ hmem
          have hjlen : j < store.length := by omega
          refine ih (p + 1) _ _ hdrop2 (by rw [List.length_set]; exact hlen)
            ?_ ?_
          · intro kv hkv
            obtain ⟨h1, h2⟩ := hC kv hkv
            exact ⟨Nat.lt_succ_of_lt h1, h2⟩
          · intro i ai di hai hdi
            by_cases hij : i = j
            · subst hij
              have hstore_i : store[i]? = some (store.getD i d) := by
                rw [List.getD_eq_getElem _ _ hjlen]
                exact List.getElem?_eq_getElem hjlen
              rw [List.getElem?_set_eq_of_lt _ hjlen] at hai
              have hai2 : ai =
                  { store.getD i d with
                    versions :=
                      mergeDocumentVersions (store.getD i d).versions
                        d.versions } := by
                injection hai.symm
              obtain ⟨f1, f2, f3, f4, f5, f6⟩ :=
                (hD i (store.getD i d) di hstore_i hdi).1
              constructor
              · rw [hai2]
                exact ⟨f1, f2, f3, f4, f5, f6⟩
              · intro _
                refine ⟨p, d, hj, hp, ?_⟩
                have hdi2 : di = dj := by
                  rw [hdj] at hdi
                  injection hdi.symm
                rw [hdi2, hkey]
            · rw [List.getElem?_set_ne (Ne.symm hij)] at hai
              exact hD i ai di hai hdi

/-- **C9** (corrected / amended).  Building the repository leaves the
input document array's length and every document's non-version fields
unchanged, and any input document object that *was* changed is one whose
`documentKey` recurs at a later input position (its `versions` field was
reassigned by the duplicate merge).  The records input is never written at
all (`deduplicateRecords` only reads). -/
theorem c9_dedup_mutates_only_duplicated_first_seen
    (documents : List Document) :
    (dedupDocsInputAfter documents).length = documents.length ∧
      ∀ (i : Nat) (ai di : Document),
        (dedupDocsInputAfter documents)[i]? = some ai →
        documents[i]? = some di →
        nonVersionFieldsEq ai di ∧
          (ai ≠ di → ∃ (k : Nat) (dk : Document), i < k ∧
            documents[k]? = some dk ∧
            dk.documentKey = di.documentKey) := by
  have h := dedupDocs_fold_invariant documents documents 0 [] documents rfl rfl
    (by intro kv hkv; exact absurd hkv (List.not_mem_nil kv))
    (by
      intro i ai di hai hdi
      rw [hai] at hdi
      have hsame : ai = di := by injection hdi
      subst hsame
      exact ⟨⟨rfl, rfl, rfl, rfl, rfl, rfl⟩, fun hne => absurd rfl hne⟩)
  exact h

/-! ## C1 — repository deduplication

Generic helper lemmas about the JS-collection models first. -/

/-- Stable insertion produces a permutation. -/
theorem insertCmp_perm {α : Type} (cmp : α → α → Int) (x : α) :
    ∀ l : List α, List.Perm (insertCmp cmp x l) (x :: l) := by
  intro l
  induction l with
  | nil => rfl
  | cons y ys ih =>
      unfold insertCmp
      by_cases h : cmp y x ≤ 0
      · rw [if_pos h]
        exact (ih.cons y).trans (List.Perm.swap x y ys)
      · rw [if_neg h]

/-- The stable sort is a permutation of its input. -/
theorem jsSortStable_perm {α : Type} (cmp : α → α → Int) (l : List α) :
    List.Perm (jsSortStable cmp l) l := by
  suffices h : ∀ (l acc : List α),
      List.Perm (l.foldl (fun acc x => insertCmp cmp x acc) acc) (acc ++ l) by
    simpa using h l []
  intro l
  induction l with
  | nil => intro acc; simp
  | cons x xs ih =>
      intro acc
      rw [List.foldl_cons]
      refine (ih (insertCmp cmp x acc)).trans ?_
      have h1 : List.Perm (insertCmp cmp x acc ++ xs) ((x :: acc) ++ xs) :=
        (insertCmp_perm cmp x acc).append_right xs
      refine h1.trans ?_
      simpa using (List.perm_middle).symm

/-- `lookup` is `find?` on the key projection. -/
theorem lookup_eq_find? {α : Type} :
    ∀ (l : List (String × α)) (k : String),
      l.lookup k = (l.find? (fun kv => kv.1 == k)).map (·.2) := by
  intro l
  induction l with
  | nil => intro k; rfl
  | cons kv rest ih =>
      intro k
      rw [List.lookup_cons]
      by_cases h : (k == kv.1) = true
      · have h2 : (kv.1 == k) = true := by
          rw [beq_iff_eq] at h ⊢
          exact h.symm
        rw [h, @List.find?_cons_of_pos _ (fun kv => kv.1 == k) kv rest h2]
        rfl
      · have h2 : (kv.1 == k) = false := by
          rw [Bool.not_eq_true] at h
          rw [beq_eq_false_iff_ne] at h ⊢
          exact Ne.symm h
        rw [Bool.not_eq_true] at h
        rw [h, @List.find?_cons_of_neg _ (fun kv => kv.1 == k) kv rest
          (by simp [h2])]
        exact ih k

/-- An absent key has no binding. -/
theorem lookup_eq_none_forall {α : Type} :
    ∀ {l : List (String × α)} {k : String},
      l.lookup k = none → ∀ kv ∈ l, kv.1 ≠ k := by
  intro l
  induction l with
  | nil => intro k _ kv hkv; exact absurd hkv (List.not_mem_nil kv)
  | cons a rest ih =>
      intro k h kv hkv
      rw [List.lookup_cons] at h
      by_cases ha : (k == a.1) = true
      · rw [ha] at h
        exact absurd h (by simp)
      · rw [Bool.not_eq_true] at ha
        rw [ha] at h
        rcases List.mem_cons.mp hkv with rfl | hmem
        · rw [beq_eq_false_iff_ne] at ha
          exact Ne.symm ha
        · exact ih h kv hmem

/-- `find?` over a mapped association list whose images carry their keys. -/
theorem find?_map_assoc {γ β : Type} (keyOf : β → String)
    (f : String × γ → β) :
    ∀ (seen : List (String × γ)) (k : String),
      (∀ kv ∈ seen, keyOf (f kv) = kv.1) →
      (seen.map f).find? (fun x => keyOf x == k) =
        (seen.find? (fun kv => kv.1 == k)).map f := by
  intro seen
  induction seen with
  | nil => intro k _; rfl
  | cons kv rest ih =>
      intro k hk
      have hkey : keyOf (f kv) = kv.1 := hk kv (List.mem_cons_self kv rest)
      rw [List.map_cons]
      by_cases h : (kv.1 == k) = true
      · rw [@List.find?_cons_of_pos _ (fun x => keyOf x == k) (f kv)
            (rest.map f) (by simp only [hkey]; exact h),
          @List.find?_cons_of_pos _ (fun kv => kv.1 == k) kv rest h]
        rfl
      · rw [Bool.not_eq_true] at h
        rw [@List.find?_cons_of_neg _ (fun x => keyOf x == k) (f kv)
            (rest.map f) (by simp [hkey, h]),
          @List.find?_cons_of_neg _ (fun kv => kv.1 == k) kv rest
            (by simp [h])]
        exact ih k (fun kv2 h2 => hk kv2 (List.mem_cons_of_mem kv h2))

/-- `find?` returns the element at the first index satisfying the
predicate. -/
theorem find?_eq_of_first {α : Type} (p : α → Bool) :
    ∀ (l : List α) (j : Nat) (a : α), l[j]? = some a → p a = true →
      (∀ m, m < j → ∀ b, l[m]? = some b → p b = false) →
      l.find? p = some a := by
  intro l
  induction l with
  | nil => intro j a h; exact absurd h (by simp)
  | cons x rest ih =>
      intro j a hj hp hfirst
      cases j with
      | zero =>
          have hx : x = a := by
            simpa using hj
          subst hx
          exact List.find?_cons_of_pos rest hp
      | succ j =>
          have hx : p x = false :=
            hfirst 0 (Nat.succ_pos j) x (by simp)
          rw [List.find?_cons_of_neg rest (by rw [hx]; simp)]
          refine ih j a (by simpa using hj) hp ?_
          intro m hm b hb
          exact hfirst (m + 1) (Nat.succ_lt_succ hm) b (by simpa using hb)

/-- The version-id set of a merged version list is the union of the two
inputs' version-id sets. -/
theorem mergeDocumentVersions_ids (v1 v2 : List DocumentVersion)
    (vid : String) :
    (∃ v ∈ mergeDocumentVersions v1 v2, v.versionId = vid) ↔
      (∃ v ∈ v1, v.versionId = vid) ∨ ∃ v ∈ v2, v.versionId = vid := by
  have hfold : ∀ (l : List DocumentVersion)
      (acc : List (String × DocumentVersion)),
      (∀ kv ∈ acc, kv.2.versionId = kv.1) →
      ((∃ v ∈ (l.foldl
          (fun m version =>
            if (m.lookup version.versionId).isSome then m
            else m ++ [(version.versionId, version)]) acc).map (·.2),
        v.versionId = vid) ↔
        ((∃ v ∈ acc.map (·.2), v.versionId = vid) ∨
          ∃ v ∈ l, v.versionId = vid)) := by
    intro l
    induction l with
    | nil => intro acc _; simp
    | cons x xs ih =>
        intro acc hinv
        rw [List.foldl_cons]
        by_cases hx : (acc.lookup x.versionId).isSome
        · rw [if_pos hx]
          rw [ih acc hinv]
          constructor
          · rintro (h | h)
            · exact Or.inl h
            · obtain ⟨v, hv, hq⟩ := h
              exact Or.inr ⟨v, List.mem_cons_of_mem x hv, hq⟩
          · rintro (h | ⟨v, hv, hq⟩)
            · exact Or.inl h
            · rcases List.mem_cons.mp hv with rfl | hmem
              · left
                obtain ⟨w, hw⟩ := Option.isSome_iff_exists.mp hx
                have hmem2 := mem_of_lookup_eq_some hw
                refine ⟨w, List.mem_map_of_mem (·.2) hmem2, ?_⟩
                have hkey : w.versionId = v.versionId :=
                  hinv (v.versionId, w) hmem2
                rw [hkey, hq]
              · exact Or.inr ⟨v, hmem, hq⟩
        · rw [if_neg hx]
          have hinv2 : ∀ kv ∈ acc ++ [(x.versionId, x)],
              kv.2.versionId = kv.1 := by
            intro kv hkv
            rcases List.mem_append.mp hkv with hmem | hmem
            · exact hinv kv hmem
            · have : kv = (x.versionId, x) := by simpa using hmem
              subst this
              rfl
          rw [ih _ hinv2]
          constructor
          · rintro (h | h)
            · rw [List.map_append] at h
              obtain ⟨v, hv, hq⟩ := h
              rcases List.mem_append.mp hv with hmem | hmem
              · exact Or.inl ⟨v, hmem, hq⟩
              · have : v = x := by simpa using hmem
                subst this
                exact Or.inr ⟨v, List.mem_cons_self v xs, hq⟩
            · obtain ⟨v, hv, hq⟩ := h
              exact Or.inr ⟨v, List.mem_cons_of_mem x hv, hq⟩
          · rintro (h | ⟨v, hv, hq⟩)
            · obtain ⟨v, hv, hq⟩ := h
              refine Or.inl ⟨v, ?_, hq⟩
              rw [List.map_append]
              exact List.mem_append_left _ hv
            · rcases List.mem_cons.mp hv with rfl | hmem
              · refine Or.inl ⟨v, ?_, hq⟩
                rw [List.map_append]
                refine List.mem_append_right _ (by simp)
              · exact Or.inr ⟨v, hmem, hq⟩
  have hperm := jsSortStable_perm
    (fun a b => jsLocaleCompare b.createdAt a.createdAt)
    (((v1 ++ v2).foldl
        (fun m version =>
          if (m.lookup version.versionId).isSome then m
          else m ++ [(version.versionId, version)]) []).map (·.2))
  unfold mergeDocumentVersions
  constructor
  · rintro ⟨v, hv, hq⟩
    have hv2 := hperm.mem_iff.mp hv
    have := (hfold (v1 ++ v2) [] (by simp)).mp ⟨v, hv2, hq⟩
    rcases this with h | h
    · simp at h
    · obtain ⟨w, hw, hwq⟩ := h
      rcases List.mem_append.mp hw with hmem | hmem
      · exact Or.inl ⟨w, hmem, hwq⟩
      · exact Or.inr ⟨w, hmem, hwq⟩
  · intro h
    have hsrc : ∃ v ∈ v1 ++ v2, v.versionId = vid := by
      rcases h with ⟨v, hv, hq⟩ | ⟨v, hv, hq⟩
      · exact ⟨v, List.mem_append_left _ hv, hq⟩
      · exact ⟨v, List.mem_append_right _ hv, hq⟩
    have := (hfold (v1 ++ v2) [] (by simp)).mpr (Or.inr hsrc)
    obtain ⟨v, hv, hq⟩ := this
    exact ⟨v, hperm.mem_iff.mpr hv, hq⟩

/-- `lookup` distributes over append as a left-biased choice. -/
theorem lookup_append {α : Type} :
    ∀ (l1 l2 : List (String × α)) (k : String),
      (l1 ++ l2).lookup k = (l1.lookup k).or (l2.lookup k) := by
  intro l1
  induction l1 with
  | nil => intro l2 k; rfl
  | cons a l1 ih =>
      intro l2 k
      rw [List.cons_append, List.lookup_cons, List.lookup_cons]
      by_cases h : (k == a.1) = true
      · rw [h]
        rfl
      · rw [Bool.not_eq_true] at h
        rw [h]
        exact ih l2 k

/-- Invariant of the `deduplicateRecords` fold: bindings carry their key,
keys stay distinct, and the final lookup is the stored binding or else the
first matching record among the remaining input. -/
theorem dedupRecords_fold_invariant :
    ∀ (rest : List RecordNode) (seen : List (String × RecordNode)),
      (∀ kv ∈ seen, kv.2.recordKey = kv.1) →
      ((seen.map (·.1)).Nodup) →
      ((∀ kv ∈ rest.foldl
            (fun seen record =>
              if (seen.lookup record.recordKey).isSome then seen
              else seen ++ [(record.recordKey, record)]) seen,
          kv.2.recordKey = kv.1) ∧
        (((rest.foldl
            (fun seen record =>
              if (seen.lookup record.recordKey).isSome then seen
              else seen ++ [(record.recordKey, record)]) seen).map (·.1)).Nodup) ∧
        ∀ k, (rest.foldl
            (fun seen record =>
              if (seen.lookup record.recordKey).isSome then seen
              else seen ++ [(record.recordKey, record)]) seen).lookup k =
          (seen.lookup k).or (rest.find? (fun r => r.recordKey == k))) := by
  intro rest
  induction rest with
  | nil =>
      intro seen hk hnd
      refine ⟨hk, hnd, ?_⟩
      intro k
      show seen.lookup k = (seen.lookup k).or none
      cases h : seen.lookup k <;> rfl
  | cons r rest ih =>
      intro seen hk hnd
      rw [List.foldl_cons]
      by_cases hr : (seen.lookup r.recordKey).isSome
      · rw [if_pos hr]
        obtain ⟨h1, h2, h3⟩ := ih seen hk hnd
        refine ⟨h1, h2, ?_⟩
        intro k
        rw [h3 k]
        by_cases hkr : r.recordKey = k
        · subst hkr
          obtain ⟨w, hw⟩ := Option.isSome_iff_exists.mp hr
          rw [hw]
          rfl
        · rw [@List.find?_cons_of_neg _ (fun r2 => r2.recordKey == k) r rest
            (by simp [hkr])]
      · rw [if_neg hr]
        have hrn : seen.lookup r.recordKey = none := by
          cases h : seen.lookup r.recordKey with
          | none => rfl
          | some w => rw [h] at hr; exact absurd rfl hr
        have hfresh := lookup_eq_none_forall hrn
        obtain ⟨h1, h2, h3⟩ := ih (seen ++ [(r.recordKey, r)])
          (by
            intro kv hkv
            rcases List.mem_append.mp hkv with hmem | hmem
            · exact hk kv hmem
            · have : kv = (r.recordKey, r) := by simpa using hmem
              subst this
              rfl)
          (by
            rw [List.map_append, List.nodup_append]
            refine ⟨hnd, by simp, ?_⟩
            intro x hx hx2
            have hx3 : x = r.recordKey := by simpa using hx2
            subst hx3
            obtain ⟨kv, hkv, hkveq⟩ := List.mem_map.mp hx
            exact hfresh kv hkv hkveq)
        refine ⟨h1, h2, ?_⟩
        intro k
        rw [h3 k, lookup_append]
        by_cases hkr : r.recordKey = k
        · subst hkr
          rw [hrn]
          rw [show ([(r.recordKey, r)].lookup r.recordKey) = some r from by
            simp [List.lookup_cons]]
          rw [@List.find?_cons_of_pos _ (fun r2 => r2.recordKey == r.recordKey)
            r rest (by simp)]
          rfl
        · rw [show ([(r.recordKey, r)].lookup k) = none from by
            rw [List.lookup_cons,
              show (k == r.recordKey) = false from
                beq_eq_false_iff_ne.mpr fun h => hkr h.symm]
            rfl]
          rw [@List.find?_cons_of_neg _ (fun r2 => r2.recordKey == k) r rest
            (by simp [hkr])]
          cases h : seen.lookup k <;> simp [h]

/-- A default value never matters below the length. -/
theorem getD_eq_getD_of_lt {α : Type} (l : List α) (n : Nat) (d1 d2 : α)
    (h : n < l.length) : l.getD n d1 = l.getD n d2 := by
  rw [List.getD_eq_getElem _ _ h, List.getD_eq_getElem _ _ h]

/-- Reading back an in-range overwrite. -/
theorem getD_set_self_of_lt {α : Type} (l : List α) (i : Nat) (x d : α)
    (h : i < l.length) : (l.set i x).getD i d = x := by
  rw [List.getD_eq_getElem _ _ (by rw [List.length_set]; exact h)]
  have h3 := List.getElem?_eq_getElem
    (show i < (l.set i x).length by rw [List.length_set]; exact h)
  rw [List.getElem?_set_eq_of_lt x h] at h3
  exact (Option.some.inj h3).symm

/-- An overwrite elsewhere does not change an in-range read. -/
theorem getD_set_ne {α : Type} (l : List α) (i j : Nat) (x d : α)
    (hij : i ≠ j) (hj : j < l.length) :
    (l.set i x).getD j d = l.getD j d := by
  rw [List.getD_eq_getElem _ _ (by rw [List.length_set]; exact hj),
    List.getD_eq_getElem _ _ hj]
  have h4 : (l.set i x)[j]? = l[j]? := List.getElem?_set_ne hij
  rw [List.getElem?_eq_getElem
      (show j < (l.set i x).length by rw [List.length_set]; exact hj),
    List.getElem?_eq_getElem hj] at h4
  exact Option.some.inj h4

/-- In an association list with distinct keys, two members sharing a key
are the same binding. -/
theorem nodupKeys_eq_of_mem {α : Type} :
    ∀ (l : List (String × α)), (l.map (·.1)).Nodup →
      ∀ {a b : String × α}, a ∈ l → b ∈ l → a.1 = b.1 → a = b := by
  intro l
  induction l with
  | nil => intro _ a b ha; exact absurd ha (List.not_mem_nil a)
  | cons x rest ih =>
      intro hnd a b ha hb hab
      rw [List.map_cons, List.nodup_cons] at hnd
      rcases List.mem_cons.mp ha with rfl | ha2
      · rcases List.mem_cons.mp hb with rfl | hb2
        · rfl
        · exact absurd
            (by rw [hab]; exact List.mem_map_of_mem (·.1) hb2) hnd.1
      · rcases List.mem_cons.mp hb with rfl | hb2
        · exact absurd
            (by rw [← hab]; exact List.mem_map_of_mem (·.1) ha2) hnd.1
        · exact ih hnd.2 ha2 hb2 hab

/-- The full invariant of the `deduplicateDocuments` loop: `seen` binds
every processed key to its first occurrence, keys are distinct, slot
non-version fields are preserved, unbound slots are untouched, and a bound
slot's version-id set is the union over the processed documents of its
key. -/
theorem dedupDocs_union_invariant (documents : List Document) :
    ∀ (rest : List Document) (p : Nat) (seen : List (String × Nat))
      (store : List Document),
      documents.drop p = rest →
      store.length = documents.length →
      (∀ kv ∈ seen, kv.2 < p ∧ (∃ dj : Document, documents[kv.2]? = some dj ∧
          dj.documentKey = kv.1) ∧
        ∀ m, m < kv.2 → ∀ dm : Document, documents[m]? = some dm →
          dm.documentKey ≠ kv.1) →
      (∀ k, seen.lookup k = none →
        ∀ m, m < p → ∀ dm : Document, documents[m]? = some dm →
          dm.documentKey ≠ k) →
      ((seen.map (·.1)).Nodup) →
      (∀ (i : Nat) (ai di : Document), store[i]? = some ai →
        documents[i]? = some di → nonVersionFieldsEq ai di) →
      (∀ i : Nat, (∀ kv ∈ seen, kv.2 ≠ i) → store[i]? = documents[i]?) →
      (∀ kv ∈ seen, ∀ vid : String,
        (∃ v ∈ (store.getD kv.2 dDefault).versions, v.versionId = vid) ↔
          ∃ m, m < p ∧ ∃ dm : Document, documents[m]? = some dm ∧
            dm.documentKey = kv.1 ∧ ∃ v ∈ dm.versions, v.versionId = vid) →
      (((List.enumFrom p rest).foldl dedupDocsStep (seen, store)).2.length =
          documents.length ∧
        (∀ kv ∈ ((List.enumFrom p rest).foldl dedupDocsStep (seen, store)).1,
          kv.2 < documents.length ∧
            (∃ dj : Document, documents[kv.2]? = some dj ∧
              dj.documentKey = kv.1) ∧
          ∀ m, m < kv.2 → ∀ dm : Document, documents[m]? = some dm →
            dm.documentKey ≠ kv.1) ∧
        (∀ k,
          ((List.enumFrom p rest).foldl dedupDocsStep (seen, store)).1.lookup
              k = none →
          ∀ dm ∈ documents, dm.documentKey ≠ k) ∧
        ((((List.enumFrom p rest).foldl dedupDocsStep
            (seen, store)).1.map (·.1)).Nodup) ∧
        (∀ (i : Nat) (ai di : Document),
          ((List.enumFrom p rest).foldl dedupDocsStep (seen, store)).2[i]? =
            some ai →
          documents[i]? = some di → nonVersionFieldsEq ai di) ∧
        (∀ kv ∈ ((List.enumFrom p rest).foldl dedupDocsStep (seen, store)).1,
          ∀ vid : String,
          (∃ v ∈ (((List.enumFrom p rest).foldl dedupDocsStep
              (seen, store)).2.getD kv.2 dDefault).versions,
            v.versionId = vid) ↔
            ∃ dm ∈ documents, dm.documentKey = kv.1 ∧
              ∃ v ∈ dm.versions, v.versionId = vid)) := by
  intro rest
  induction rest with
  | nil =>
      intro p seen store hdrop hlen hFirst hNone hNd hFld hUn hVer
      have hple : documents.length ≤ p := List.drop_eq_nil_iff.mp hdrop
      have heq : (List.enumFrom p ([] : List Document)).foldl dedupDocsStep
          (seen, store) = (seen, store) := rfl
      rw [heq]
      have hfst : ((seen, store) :
          List (String × Nat) × List Document).1 = seen := rfl
      have hsnd : ((seen, store) :
          List (String × Nat) × List Document).2 = store := rfl
      rw [hfst, hsnd]
      refine ⟨hlen, ?_, ?_, hNd, hFld, ?_⟩
      · intro kv hkv
        obtain ⟨h1, h2, h3⟩ := hFirst kv hkv
        obtain ⟨dj, hdj, hdjk⟩ := h2
        obtain ⟨hlt, _⟩ := List.getElem?_eq_some_iff.mp hdj
        exact ⟨hlt, ⟨dj, hdj, hdjk⟩, h3⟩
      · intro k hnone dm hdm
        obtain ⟨m, hm⟩ := List.getElem?_of_mem hdm
        obtain ⟨hmlt, _⟩ := List.getElem?_eq_some_iff.mp hm
        exact hNone k hnone m (by omega) dm hm
      · intro kv hkv vid
        rw [hVer kv hkv vid]
        constructor
        · rintro ⟨m, hm, dm, hdm, hkey, hv⟩
          exact ⟨dm, List.getElem?_mem hdm, hkey, hv⟩
        · rintro ⟨dm, hdm, hkey, hv⟩
          obtain ⟨m, hm⟩ := List.getElem?_of_mem hdm
          obtain ⟨hmlt, _⟩ := List.getElem?_eq_some_iff.mp hm
          exact ⟨m, by omega, dm, hm, hkey, hv⟩
  | cons d rest ih =>
      intro p seen store hdrop hlen hFirst hNone hNd hFld hUn hVer
      have hplen : p < documents.length := by
        by_contra hge
        rw [List.drop_eq_nil_of_le (Nat.le_of_not_lt hge)] at hdrop
        exact absurd hdrop.symm (List.cons_ne_nil d rest)
      have hcons := List.drop_eq_getElem_cons hplen
      rw [hdrop] at hcons
      obtain ⟨hhead, htail⟩ := List.cons.inj hcons
      have hp : documents[p]? = some d := by
        rw [List.getElem?_eq_getElem hplen, ← hhead]
      have hdrop2 : documents.drop (p + 1) = rest := htail.symm
      rw [show List.enumFrom p (d :: rest) =
            (p, d) :: List.enumFrom (p + 1) rest from rfl,
        List.foldl_cons]
      cases hlook : seen.lookup d.documentKey with
      | none =>
          have hstep : dedupDocsStep (seen, store) (p, d) =
              (seen ++ [(d.documentKey, p)], store) := by
            simp only [dedupDocsStep]
            rw [hlook]
          rw [hstep]
          have hfreshKeys := lookup_eq_none_forall hlook
          refine ih (p + 1) _ _ hdrop2 hlen ?_ ?_ ?_ hFld ?_ ?_
          · intro kv hkv
            rcases List.mem_append.mp hkv with hmem | hmem
            · obtain ⟨h1, h2, h3⟩ := hFirst kv hmem
              exact ⟨Nat.lt_succ_of_lt h1, h2, h3⟩
            · have hkv2 : kv = (d.documentKey, p) := by simpa using hmem
              subst hkv2
              exact ⟨Nat.lt_succ_self p, ⟨d, hp, rfl⟩,
                fun m hm dm hdm => hNone d.documentKey hlook m hm dm hdm⟩
          · intro k hnone m hm dm hdm
            rw [lookup_append] at hnone
            have hseen_none : seen.lookup k = none := by
              cases h1 : seen.lookup k with
              | none => rfl
              | some w =>
                  rw [h1] at hnone
                  exact absurd hnone (by simp)
            rw [hseen_none] at hnone
            have hsing : ([(d.documentKey, p)].lookup k) = none := by
              simpa using hnone
            have hkne : k ≠ d.documentKey := by
              intro hcon
              subst hcon
              rw [List.lookup_cons] at hsing
              simp at hsing
            rcases Nat.lt_or_ge m p with hmp | hmp
            · exact hNone k hseen_none m hmp dm hdm
            · have hmeq : m = p := by omega
              subst hmeq
              rw [hp] at hdm
              have hdmd : dm = d := (Option.some.inj hdm).symm
              subst hdmd
              intro hcon
              exact hkne hcon.symm
          · rw [List.map_append, List.nodup_append]
            refine ⟨hNd, by simp, ?_⟩
            intro x hx hx2
            have hx3 : x = d.documentKey := by simpa using hx2
            subst hx3
            obtain ⟨kv, hkv, hkveq⟩ := List.mem_map.mp hx
            exact hfreshKeys kv hkv hkveq
          · intro i hi
            refine hUn i ?_
            intro kv hkv
            exact hi kv (List.mem_append_left _ hkv)
          · intro kv hkv vid
            rcases List.mem_append.mp hkv with hmem | hmem
            · rw [hVer kv hmem vid]
              constructor
              · rintro ⟨m, hm, dm, hdm, hkey, hv⟩
                exact ⟨m, by omega, dm, hdm, hkey, hv⟩
              · rintro ⟨m, hm, dm, hdm, hkey, hv⟩
                rcases Nat.lt_or_ge m p with hmp | hmp
                · exact ⟨m, hmp, dm, hdm, hkey, hv⟩
                · have hmeq : m = p := by omega
                  subst hmeq
                  rw [hp] at hdm
                  have hdmd : dm = d := (Option.some.inj hdm).symm
                  subst hdmd
                  exact absurd hkey.symm (hfreshKeys kv hmem)
            · have hkv1 : kv.1 = d.documentKey := by
                rw [show kv = (d.documentKey, p) from by simpa using hmem]
              have hkv2 : kv.2 = p := by
                rw [show kv = (d.documentKey, p) from by simpa using hmem]
              have hslot : store[p]? = documents[p]? := by
                refine hUn p ?_
                intro kv2 hkv2m
                have := (hFirst kv2 hkv2m).1
                omega
              rw [hp] at hslot
              have hgetD : store.getD p dDefault = d := by
                rw [List.getD_eq_getElem _ _ (by omega)]
                have h3 := List.getElem?_eq_getElem
                  (show p < store.length by omega)
                rw [hslot] at h3
                exact (Option.some.inj h3).symm
              rw [hkv2, hkv1, hgetD]
              constructor
              · intro hv
                exact ⟨p, Nat.lt_succ_self p, d, hp, rfl, hv⟩
              · rintro ⟨m, hm, dm, hdm, hkey, hv⟩
                rcases Nat.lt_or_ge m p with hmp | hmp
                · exact absurd hkey
                    (hNone d.documentKey hlook m hmp dm hdm)
                · have hmeq : m = p := by omega
                  subst hmeq
                  rw [hp] at hdm
                  have hdmd : dm = d := (Option.some.inj hdm).symm
                  subst hdmd
                  exact hv
      | some j =>
          have hstep : dedupDocsStep (seen, store) (p, d) =
              (seen,
               store.set j
                 { store.getD j d with
                   versions :=
                     mergeDocumentVersions (store.getD j d).versions
                       d.versions }) := by
            simp only [dedupDocsStep]
            rw [hlook]
          rw [hstep]
          have hmem := mem_of_lookup_eq_some hlook
          obtain ⟨hj, ⟨dj, hdj, hdjkey⟩, hjfirst⟩ := hFirst _ hmem
          have hjlen : j < store.length := by omega
          have hgetDj : store.getD j d = store.getD j dDefault :=
            getD_eq_getD_of_lt store j d dDefault hjlen
          have hstorej : store[j]? = some (store.getD j dDefault) := by
            rw [List.getD_eq_getElem _ _ hjlen]
            exact List.getElem?_eq_getElem hjlen
          refine ih (p + 1) _ _ hdrop2
            (by rw [List.length_set]; exact hlen) ?_ ?_ hNd ?_ ?_ ?_
          · intro kv hkv
            obtain ⟨h1, h2, h3⟩ := hFirst kv hkv
            exact ⟨Nat.lt_succ_of_lt h1, h2, h3⟩
          · intro k hnone m hm dm hdm
            have hkne : k ≠ d.documentKey := by
              intro hcon
              subst hcon
              rw [hlook] at hnone
              exact absurd hnone (by simp)
            rcases Nat.lt_or_ge m p with hmp | hmp
            · exact hNone k hnone m hmp dm hdm
            · have hmeq : m = p := by omega
              subst hmeq
              rw [hp] at hdm
              have hdmd : dm = d := (Option.some.inj hdm).symm
              subst hdmd
              intro hcon
              exact hkne hcon.symm
          · intro i ai di hai hdi
            by_cases hij : i = j
            · subst hij
              rw [List.getElem?_set_eq_of_lt _ hjlen] at hai
              have hai2 : ai =
                  { store.getD i d with
                    versions :=
                      mergeDocumentVersions (store.getD i d).versions
                        d.versions } := (Option.some.inj hai).symm
              rw [hgetDj] at hai2
              rw [hai2]
              exact hFld i (store.getD i dDefault) di hstorej hdi
            · rw [List.getElem?_set_ne (Ne.symm hij)] at hai
              exact hFld i ai di hai hdi
          · intro i hi
            have hij : j ≠ i := hi _ hmem
            rw [List.getElem?_set_ne hij]
            exact hUn i hi
          · intro kv hkv vid
            by_cases hkvd : kv = (d.documentKey, j)
            · have hk1 : kv.1 = d.documentKey := by rw [hkvd]
              have hk2 : kv.2 = j := by rw [hkvd]
              have hold := hVer kv hkv vid
              rw [hk1, hk2] at hold
              have hmerge := mergeDocumentVersions_ids
                (store.getD j dDefault).versions d.versions vid
              rw [hk2, hk1, getD_set_self_of_lt store j _ dDefault hjlen]
              constructor
              · intro hv
                have hv2 : ∃ v ∈ mergeDocumentVersions
                    (store.getD j d).versions d.versions,
                    v.versionId = vid := hv
                rw [hgetDj] at hv2
                rcases hmerge.mp hv2 with h | h
                · obtain ⟨m, hm, dm, hdm, hkey, hvv⟩ := hold.mp h
                  exact ⟨m, by omega, dm, hdm, hkey, hvv⟩
                · exact ⟨p, Nat.lt_succ_self p, d, hp, rfl, h⟩
              · rintro ⟨m, hm, dm, hdm, hkey, hvv⟩
                have hgoal : ∃ v ∈ mergeDocumentVersions
                    (store.getD j dDefault).versions d.versions,
                    v.versionId = vid := by
                  rw [hmerge]
                  rcases Nat.lt_or_ge m p with hmp | hmp
                  · exact Or.inl (hold.mpr ⟨m, hmp, dm, hdm, hkey, hvv⟩)
                  · have hmeq : m = p := by omega
                    subst hmeq
                    rw [hp] at hdm
                    have hdmd : dm = d := (Option.some.inj hdm).symm
                    subst hdmd
                    exact Or.inr hvv
                rw [← hgetDj] at hgoal
                exact hgoal
            · have hkeyne2 : kv.1 ≠ d.documentKey := by
                intro hcon
                exact hkvd (nodupKeys_eq_of_mem seen hNd hkv hmem hcon)
              have hkvne : kv.2 ≠ j := by
                intro hcon
                obtain ⟨_, ⟨dj2, hdj2, hdj2key⟩, _⟩ := hFirst kv hkv
                rw [hcon, hdj] at hdj2
                have hdd : dj = dj2 := Option.some.inj hdj2
                rw [← hdd] at hdj2key
                exact hkeyne2 (hdj2key.symm.trans hdjkey)
              have hkvlen : kv.2 < store.length := by
                have h1 := (hFirst kv hkv).1
                omega
              rw [getD_set_ne store j kv.2 _ dDefault
                  (fun hc => hkvne hc.symm) hkvlen]
              rw [hVer kv hkv vid]
              constructor
              · rintro ⟨m, hm, dm, hdm, hkey, hvv⟩
                exact ⟨m, by omega, dm, hdm, hkey, hvv⟩
              · rintro ⟨m, hm, dm, hdm, hkey, hvv⟩
                rcases Nat.lt_or_ge m p with hmp | hmp
                · exact ⟨m, hmp, dm, hdm, hkey, hvv⟩
                · have hmeq : m = p := by omega
                  subst hmeq
                  rw [hp] at hdm
                  have hdmd : dm = d := (Option.some.inj hdm).symm
                  subst hdmd
                  exact absurd hkey.symm hkeyne2
/-- Witness for the amended C9: in the duplicate ingestion
`[dDupFirst, dDupSecond]`, position 0 was mutated to `dDupFirstAfter`,
which keeps every non-version field of `dDupFirst`, and the mutation is
licensed by the duplicate at position 1. -/
theorem c9_dedup_mutates_only_duplicated_first_seen_witness :
    nonVersionFieldsEq dDupFirstAfter dDupFirst ∧
      (dDupFirstAfter ≠ dDupFirst →
        ∃ k dk, 0 < k ∧ [dDupFirst, dDupSecond][k]? = some dk ∧
          dk.documentKey = dDupFirst.documentKey) :=
  (c9_dedup_mutates_only_duplicated_first_seen [dDupFirst, dDupSecond]).2
    0 dDupFirstAfter dDupFirst (by decide) (by decide)

/-- C1: building the repository yields at most one entity per key (both
key lists are duplicate-free); the surviving record per `recordKey` is
exactly the first-seen input record, unchanged; and the surviving document
per `documentKey` keeps the first-seen document's non-version fields while
its version-id set is the union of the version-id sets of every ingested
document with that key. -/
theorem c1_repository_dedup (records : List RecordNode)
    (documents : List Document) :
    (((createDataRepository records documents).allRecords.map
        (fun r => r.recordKey)).Nodup ∧
      ((createDataRepository records documents).allDocuments.map
        (fun dd => dd.documentKey)).Nodup) ∧
    (∀ k, (createDataRepository records documents).allRecords.find?
        (fun r => r.recordKey == k) =
      records.find? (fun r => r.recordKey == k)) ∧
    (∀ k, ((createDataRepository records documents).allDocuments.find?
        (fun dd => dd.documentKey == k)).isSome ↔
      (documents.find? (fun dd => dd.documentKey == k)).isSome) ∧
    (∀ k d', (createDataRepository records documents).allDocuments.find?
        (fun dd => dd.documentKey == k) = some d' →
      (∃ dfirst, documents.find? (fun dd => dd.documentKey == k) =
          some dfirst ∧ nonVersionFieldsEq d' dfirst) ∧
      ∀ vid, (∃ v ∈ d'.versions, v.versionId = vid) ↔
        ∃ dm ∈ documents, dm.documentKey = k ∧
          ∃ v ∈ dm.versions, v.versionId = vid) := by
  have hrecEq : (createDataRepository records documents).allRecords =
      deduplicateRecords records := rfl
  have hdocEq : (createDataRepository records documents).allDocuments =
      deduplicateDocuments documents := rfl
  obtain ⟨hr1, hr2, hr3⟩ := dedupRecords_fold_invariant records []
    (fun kv hkv => absurd hkv (List.not_mem_nil kv)) (by simp)
  have hr1' : ∀ kv ∈ deduplicateRecordsSeen records,
      kv.2.recordKey = kv.1 := hr1
  have hr2' : ((deduplicateRecordsSeen records).map
      (fun kv => kv.1)).Nodup := hr2
  have hr3' : ∀ k, (deduplicateRecordsSeen records).lookup k =
      records.find? (fun r => r.recordKey == k) := fun k => hr3 k
  have hmapRec : (deduplicateRecords records).map (fun r => r.recordKey) =
      (deduplicateRecordsSeen records).map (fun kv => kv.1) := by
    show ((deduplicateRecordsSeen records).map (fun kv => kv.2)).map
        (fun r => r.recordKey) =
      (deduplicateRecordsSeen records).map (fun kv => kv.1)
    rw [List.map_map]
    exact List.map_congr_left hr1'
  have hfindRec : ∀ k,
      (deduplicateRecords records).find? (fun r => r.recordKey == k) =
        records.find? (fun r => r.recordKey == k) := by
    intro k
    have h4 := find?_map_assoc (fun r => r.recordKey) (fun kv => kv.2)
      (deduplicateRecordsSeen records) k hr1'
    calc (deduplicateRecords records).find? (fun r => r.recordKey == k)
        = ((deduplicateRecordsSeen records).find?
            (fun kv => kv.1 == k)).map (fun kv => kv.2) := h4
      _ = (deduplicateRecordsSeen records).lookup k :=
          (lookup_eq_find? (deduplicateRecordsSeen records) k).symm
      _ = records.find? (fun r => r.recordKey == k) := hr3' k
  obtain ⟨hd1, hd2, hd3, hd4, hd5, hd6⟩ :=
    dedupDocs_union_invariant documents documents 0 [] documents
      (List.drop_zero documents) rfl
      (fun kv hkv => absurd hkv (List.not_mem_nil kv))
      (fun k _ m hm => absurd hm (Nat.not_lt_zero m))
      (by simp)
      (by
        intro i ai di h1 h2
        rw [h1] at h2
        have h3 : ai = di := Option.some.inj h2
        subst h3
        exact ⟨rfl, rfl, rfl, rfl, rfl, rfl⟩)
      (fun i _ => rfl)
      (fun kv hkv => absurd hkv (List.not_mem_nil kv))
  have hloopEq : (List.enumFrom 0 documents).foldl dedupDocsStep
      ([], documents) = dedupDocsLoop documents := rfl
  rw [hloopEq] at hd1 hd2 hd3 hd4 hd5 hd6
  have hkeyD : ∀ kv ∈ (dedupDocsLoop documents).1,
      (((dedupDocsLoop documents).2.getD kv.2 dDefault)).documentKey =
        kv.1 := by
    intro kv hkv
    obtain ⟨hlt, ⟨dj, hdj, hdjk⟩, _⟩ := hd2 kv hkv
    have hlt2 : kv.2 < (dedupDocsLoop documents).2.length := by
      rw [hd1]; exact hlt
    have hslot : (dedupDocsLoop documents).2[kv.2]? =
        some ((dedupDocsLoop documents).2.getD kv.2 dDefault) := by
      rw [List.getD_eq_getElem _ _ hlt2]
      exact List.getElem?_eq_getElem hlt2
    have hnv := hd5 kv.2 _ dj hslot hdj
    exact hnv.1.trans hdjk
  have hmapDoc :
      (deduplicateDocuments documents).map (fun dd => dd.documentKey) =
        (dedupDocsLoop documents).1.map (fun kv => kv.1) := by
    show ((dedupDocsLoop documents).1.map
        (fun kv => (dedupDocsLoop documents).2.getD kv.2 dDefault)).map
          (fun dd => dd.documentKey) =
      (dedupDocsLoop documents).1.map (fun kv => kv.1)
    rw [List.map_map]
    exact List.map_congr_left hkeyD
  have hfindD : ∀ k,
      (deduplicateDocuments documents).find?
          (fun dd => dd.documentKey == k) =
        ((dedupDocsLoop documents).1.find? (fun kv => kv.1 == k)).map
          (fun kv => (dedupDocsLoop documents).2.getD kv.2 dDefault) :=
    fun k => find?_map_assoc (fun dd => dd.documentKey)
      (fun kv => (dedupDocsLoop documents).2.getD kv.2 dDefault)
      (dedupDocsLoop documents).1 k hkeyD
  refine ⟨⟨?_, ?_⟩, ?_, ?_, ?_⟩
  · rw [hrecEq, hmapRec]
    exact hr2'
  · rw [hdocEq, hmapDoc]
    exact hd4
  · intro k
    rw [hrecEq]
    exact hfindRec k
  · intro k
    rw [hdocEq, hfindD k]
    constructor
    · intro hs
      obtain ⟨y, hy⟩ := Option.isSome_iff_exists.mp hs
      obtain ⟨a, ha, _⟩ := Option.map_eq_some'.mp hy
      have hamem := List.mem_of_find?_eq_some ha
      have hab := List.find?_some ha
      have hak : a.1 = k := eq_of_beq hab
      obtain ⟨_, ⟨dj, hdj, hdjk⟩, _⟩ := hd2 a hamem
      rw [List.find?_isSome]
      exact ⟨dj, List.getElem?_mem hdj,
        beq_iff_eq.mpr (hdjk.trans hak)⟩
    · intro hs
      rw [List.find?_isSome] at hs
      obtain ⟨dm, hdm, hpk⟩ := hs
      have hkk : dm.documentKey = k := eq_of_beq hpk
      cases hfk : (dedupDocsLoop documents).1.lookup k with
      | some i =>
          rw [lookup_eq_find?] at hfk
          obtain ⟨a, ha, _⟩ := Option.map_eq_some'.mp hfk
          rw [ha]
          rfl
      | none => exact absurd hkk (hd3 k hfk dm hdm)
  · intro k d' hfind
    rw [hdocEq, hfindD k] at hfind
    obtain ⟨kv, hkvFind, hkvVal⟩ := Option.map_eq_some'.mp hfind
    have hkvmem : kv ∈ (dedupDocsLoop documents).1 :=
      List.mem_of_find?_eq_some hkvFind
    have hkvb := List.find?_some hkvFind
    have hkv1 : kv.1 = k := eq_of_beq hkvb
    obtain ⟨hlt, ⟨dj, hdj, hdjk⟩, hfirstm⟩ := hd2 kv hkvmem
    have hlt2 : kv.2 < (dedupDocsLoop documents).2.length := by
      rw [hd1]; exact hlt
    have hslot : (dedupDocsLoop documents).2[kv.2]? =
        some ((dedupDocsLoop documents).2.getD kv.2 dDefault) := by
      rw [List.getD_eq_getElem _ _ hlt2]
      exact List.getElem?_eq_getElem hlt2
    constructor
    · refine ⟨dj, ?_, ?_⟩
      · refine find?_eq_of_first (fun dd => dd.documentKey == k) documents
          kv.2 dj hdj (beq_iff_eq.mpr (hdjk.trans hkv1)) ?_
        intro m hm b hb
        exact beq_eq_false_iff_ne.mpr
          (fun hc => hfirstm m hm b hb (hc.trans hkv1.symm))
      · have hnv := hd5 kv.2 _ dj hslot hdj
        rw [← hkvVal]
        exact hnv
    · intro vid
      have h6 := hd6 kv hkvmem vid
      rw [hkv1] at h6
      rw [← hkvVal]
      exact h6

/-- Witness for C1 on the spec's own dedup example: for the duplicate
document ingestion `[dDupFirst, dDupSecond]` the surviving "D" document
keeps the first-seen entity's non-version fields. -/
theorem c1_repository_dedup_witness :
    ∃ dfirst, [dDupFirst, dDupSecond].find?
        (fun dd => dd.documentKey == "D") = some dfirst ∧
      nonVersionFieldsEq dDupFirstAfter dfirst :=
  ((c1_repository_dedup [r1first, r1second, r2other]
      [dDupFirst, dDupSecond]).2.2.2 "D" dDupFirstAfter (by decide)).1

/-- Uniform head/tail view of the `sortVersions` comparator loop: the
current segments (missing treated as `0`) decide, otherwise recurse. -/
theorem semverCmpParts_view (as_ bs : List Nat) :
    semverCmpParts as_ bs =
      if as_.headD 0 = bs.headD 0 then semverCmpParts as_.tail bs.tail
      else (bs.headD 0 : Int) - as_.headD 0 := by
  cases as_ with
  | nil =>
      cases bs with
      | nil =>
          rw [if_pos rfl]
          rfl
      | cons b bs' =>
          by_cases hb : b = 0
          · simp [semverCmpParts, semverCmpNil, hb]
          · simp [semverCmpParts, semverCmpNil, hb, Ne.symm hb]
  | cons a as' =>
      cases bs with
      | nil => by_cases ha : a = 0 <;> simp [semverCmpParts, ha]
      | cons b bs' => by_cases hab2 : a = b <;> simp [semverCmpParts, hab2]

/-- The comparator is antisymmetric. -/
theorem semverCmpParts_antisym :
    ∀ (n : Nat) (as_ bs : List Nat), as_.length + bs.length ≤ n →
      semverCmpParts as_ bs = - semverCmpParts bs as_ := by
  intro n
  induction n with
  | zero =>
      intro as_ bs hlen
      cases as_ with
      | cons a t => simp at hlen
      | nil =>
          cases bs with
          | cons b t => simp at hlen
          | nil => simp [semverCmpParts, semverCmpNil]
  | succ n ih =>
      intro as_ bs hlen
      rw [semverCmpParts_view as_ bs, semverCmpParts_view bs as_]
      by_cases hab : as_.headD 0 = bs.headD 0
      · rw [if_pos hab, if_pos hab.symm]
        refine ih as_.tail bs.tail ?_
        cases as_ <;> cases bs <;>
          simp only [List.tail_cons, List.tail_nil, List.length_cons,
            List.length_nil] at hlen ⊢ <;> omega
      · rw [if_neg hab, if_neg (fun hcon => hab hcon.symm)]
        omega

/-- `<0, ≤0 → <0` transitivity of the comparator. -/
theorem semverCmpParts_trans_lt :
    ∀ (n : Nat) (as_ bs cs : List Nat),
      as_.length + bs.length + cs.length ≤ n →
      semverCmpParts as_ bs < 0 → semverCmpParts bs cs ≤ 0 →
      semverCmpParts as_ cs < 0 := by
  intro n
  induction n with
  | zero =>
      intro as_ bs cs hlen h1 h2
      cases as_ with
      | cons a t => simp at hlen
      | nil =>
          cases bs with
          | cons b t => simp at hlen
          | nil =>
              cases cs with
              | cons c t => simp at hlen
              | nil => exact h1
  | succ n ih =>
      intro as_ bs cs hlen h1 h2
      rw [semverCmpParts_view] at h1 h2
      rw [semverCmpParts_view]
      by_cases hab : as_.headD 0 = bs.headD 0
      · rw [if_pos hab] at h1
        by_cases hbc : bs.headD 0 = cs.headD 0
        · rw [if_pos hbc] at h2
          rw [if_pos (hab.trans hbc)]
          refine ih as_.tail bs.tail cs.tail ?_ h1 h2
          cases as_ <;> cases bs <;> cases cs <;>
            simp only [List.tail_cons, List.tail_nil, List.length_cons,
              List.length_nil] at hlen ⊢ <;> omega
        · rw [if_neg hbc] at h2
          rw [if_neg (fun hcon => hbc (hab.symm.trans hcon))]
          omega
      · rw [if_neg hab] at h1
        by_cases hbc : bs.headD 0 = cs.headD 0
        · rw [if_neg (fun hcon => hab (hcon.trans hbc.symm))]
          omega
        · rw [if_neg hbc] at h2
          have hac : ¬(as_.headD 0 = cs.headD 0) := by omega
          rw [if_neg hac]
          omega

theorem charListLtb_irrefl : ∀ l : List Char, charListLtb l l = false := by
  intro l
  induction l with
  | nil => rfl
  | cons c cs ih => simp [charListLtb, lt_irrefl, ih]

theorem charListLtb_asymm : ∀ l1 l2 : List Char,
    charListLtb l1 l2 = true → charListLtb l2 l1 = false := by
  intro l1
  induction l1 with
  | nil =>
      intro l2 h
      cases l2 with
      | nil => exact absurd h (by simp [charListLtb])
      | cons d ds => rfl
  | cons c cs ih =>
      intro l2 h
      cases l2 with
      | nil => exact absurd h (by simp [charListLtb])
      | cons d ds =>
          rcases lt_trichotomy c d with hcd | hcd | hcd
          · have h1 : ¬ d < c := lt_asymm hcd
            simp [charListLtb, h1, hcd]
          · subst hcd
            simp only [charListLtb, lt_irrefl, if_false] at h ⊢
            exact ih ds h
          · have h1 : ¬ c < d := lt_asymm hcd
            simp [charListLtb, h1, hcd] at h

theorem charListLtb_total : ∀ l1 l2 : List Char, l1 ≠ l2 →
    charListLtb l1 l2 = false → charListLtb l2 l1 = true := by
  intro l1
  induction l1 with
  | nil =>
      intro l2 hne h
      cases l2 with
      | nil => exact absurd rfl hne
      | cons d ds => exact absurd h (by simp [charListLtb])
  | cons c cs ih =>
      intro l2 hne h
      cases l2 with
      | nil => rfl
      | cons d ds =>
          rcases lt_trichotomy c d with hcd | hcd | hcd
          · exact absurd h (by simp [charListLtb, hcd])
          · subst hcd
            have hne2 : cs ≠ ds := fun hcon => hne (by rw [hcon])
            simp only [charListLtb, lt_irrefl, if_false] at h ⊢
            exact ih ds hne2 h
          · simp [charListLtb, hcd]

theorem charListLtb_trans : ∀ l1 l2 l3 : List Char,
    charListLtb l1 l2 = true → charListLtb l2 l3 = true →
    charListLtb l1 l3 = true := by
  intro l1
  induction l1 with
  | nil =>
      intro l2 l3 h1 h2
      cases l2 with
      | nil => exact absurd h1 (by simp [charListLtb])
      | cons d ds =>
          cases l3 with
          | nil => exact absurd h2 (by simp [charListLtb])
          | cons e es => rfl
  | cons c cs ih =>
      intro l2 l3 h1 h2
      cases l2 with
      | nil => exact absurd h1 (by simp [charListLtb])
      | cons d ds =>
          cases l3 with
          | nil => exact absurd h2 (by simp [charListLtb])
          | cons e es =>
              rcases lt_trichotomy c d with hcd | hcd | hcd
              · rcases lt_trichotomy d e with hde | hde | hde
                · simp [charListLtb, lt_trans hcd hde]
                · subst hde
                  simp [charListLtb, hcd]
                · have h3 : ¬ d < e := lt_asymm hde
                  simp [charListLtb, h3, hde] at h2
              · subst hcd
                rcases lt_trichotomy c e with hce | hce | hce
                · simp [charListLtb, hce]
                · subst hce
                  simp only [charListLtb, lt_irrefl, if_false] at h1 h2 ⊢
                  exact ih ds es h1 h2
                · have h3 : ¬ c < e := lt_asymm hce
                  simp [charListLtb, h3, hce] at h2
              · have h3 : ¬ c < d := lt_asymm hcd
                simp [charListLtb, h3, hcd] at h1

theorem jsLocaleCompare_lt_zero (s t : String) :
    jsLocaleCompare s t < 0 ↔ charListLtb s.toList t.toList = true := by
  unfold jsLocaleCompare
  by_cases h1 : charListLtb s.toList t.toList = true
  · rw [if_pos h1]
    exact ⟨fun _ => h1, fun _ => by decide⟩
  · rw [if_neg h1]
    by_cases h2 : s = t
    · rw [if_pos h2]
      exact ⟨fun hh => absurd hh (by decide), fun hh => absurd hh h1⟩
    · rw [if_neg h2]
      exact ⟨fun hh => absurd hh (by decide), fun hh => absurd hh h1⟩

theorem jsLocaleCompare_le_zero (s t : String) :
    jsLocaleCompare s t ≤ 0 ↔
      (charListLtb s.toList t.toList = true ∨ s = t) := by
  unfold jsLocaleCompare
  by_cases h1 : charListLtb s.toList t.toList = true
  · rw [if_pos h1]
    exact ⟨fun _ => Or.inl h1, fun _ => by decide⟩
  · rw [if_neg h1]
    by_cases h2 : s = t
    · rw [if_pos h2]
      exact ⟨fun _ => Or.inr h2, fun _ => le_refl 0⟩
    · rw [if_neg h2]
      refine ⟨fun hh => absurd hh (by decide), ?_⟩
      rintro (hl | he)
      · exact absurd hl h1
      · exact absurd he h2

theorem jsLocaleCompare_eq_zero (s t : String) :
    jsLocaleCompare s t = 0 ↔ s = t := by
  unfold jsLocaleCompare
  by_cases h1 : charListLtb s.toList t.toList = true
  · rw [if_pos h1]
    refine ⟨fun hh => absurd hh (by decide), ?_⟩
    intro hh
    subst hh
    rw [charListLtb_irrefl] at h1
    exact absurd h1 (by simp)
  · rw [if_neg h1]
    by_cases h2 : s = t
    · rw [if_pos h2]
      exact ⟨fun _ => h2, fun _ => rfl⟩
    · rw [if_neg h2]
      exact ⟨fun hh => absurd hh (by decide), fun hh => absurd hh h2⟩

theorem jsLocaleCompare_antisym (s t : String) :
    jsLocaleCompare s t = - jsLocaleCompare t s := by
  by_cases h1 : charListLtb s.toList t.toList = true
  · have h2 : charListLtb t.toList s.toList = false :=
      charListLtb_asymm _ _ h1
    have h3 : ¬(t = s) := by
      intro hcon
      subst hcon
      rw [charListLtb_irrefl] at h1
      exact absurd h1 (by simp)
    unfold jsLocaleCompare
    rw [if_pos h1, if_neg (by rw [h2]; simp), if_neg h3]
  · by_cases h2 : s = t
    · subst h2
      unfold jsLocaleCompare
      rw [if_neg h1, if_pos rfl]
      decide
    · have h3 : charListLtb t.toList s.toList = true := by
        refine charListLtb_total s.toList t.toList ?_ ?_
        · intro hcon
          exact h2 (String.ext hcon)
        · cases h : charListLtb s.toList t.toList with
          | false => rfl
          | true => exact absurd h h1
      have h4 : ¬(t = s) := fun hcon => h2 hcon.symm
      unfold jsLocaleCompare
      rw [if_neg h1, if_neg h2, if_pos h3]
      decide

/-- Stable insertion preserves pairwise order under placement conditions. -/
theorem insertCmp_pairwise {α : Type} (cmp : α → α → Int) (R : α → α → Prop)
    (x : α) :
    ∀ acc : List α, acc.Pairwise R →
      (∀ y ∈ acc, cmp y x ≤ 0 → R y x) →
      (∀ z ∈ acc, ¬(cmp z x ≤ 0) → R x z) →
      (∀ z ∈ acc, ∀ w ∈ acc, ¬(cmp z x ≤ 0) → R z w → R x w) →
      (insertCmp cmp x acc).Pairwise R := by
  intro acc
  induction acc with
  | nil => intro _ _ _ _; exact List.pairwise_singleton R x
  | cons y ys ih =>
      intro hpw hyx hxz hxw
      rw [List.pairwise_cons] at hpw
      show (if cmp y x ≤ 0 then y :: insertCmp cmp x ys
        else x :: y :: ys).Pairwise R
      by_cases hc : cmp y x ≤ 0
      · rw [if_pos hc, List.pairwise_cons]
        constructor
        · intro w hw
          have hw2 : w ∈ x :: ys := (insertCmp_perm cmp x ys).mem_iff.mp hw
          rcases List.mem_cons.mp hw2 with heq | hw3
          · rw [heq]
            exact hyx y (List.mem_cons_self y ys) hc
          · exact hpw.1 w hw3
        · refine ih hpw.2 ?_ ?_ ?_
          · intro y2 hy2 hle
            exact hyx y2 (List.mem_cons_of_mem y hy2) hle
          · intro z hz hnle
            exact hxz z (List.mem_cons_of_mem y hz) hnle
          · intro z hz w hw hnle hr
            exact hxw z (List.mem_cons_of_mem y hz) w
              (List.mem_cons_of_mem y hw) hnle hr
      · rw [if_neg hc, List.pairwise_cons]
        constructor
        · intro w hw
          rcases List.mem_cons.mp hw with heq | hw2
          · rw [heq]
            exact hxz y (List.mem_cons_self y ys) hc
          · exact hxw y (List.mem_cons_self y ys) w
              (List.mem_cons_of_mem y hw2) hc (hpw.1 w hw2)
        · rw [List.pairwise_cons]
          exact ⟨hpw.1, hpw.2⟩

theorem pairwise_trivial {α : Type} :
    ∀ l : List α, l.Pairwise (fun _ _ => True) := by
  intro l
  induction l with
  | nil => exact List.Pairwise.nil
  | cons a t iht => exact List.Pairwise.cons (fun _ _ => trivial) iht

/-- The ES2019 stable sort of a list already pairwise-ordered by a
secondary relation `S` is pairwise-ordered lexicographically: strictly by
the comparator, with comparator ties keeping the input's `S` order. -/
theorem jsSortStable_pairwise_lex {α : Type} (cmp : α → α → Int)
    (S : α → α → Prop)
    (hanti : ∀ a b, cmp a b = - cmp b a)
    (hstr : ∀ a b c, cmp a b < 0 → cmp b c ≤ 0 → cmp a c < 0) :
    ∀ (l acc : List α),
      acc.Pairwise (fun a b => cmp a b < 0 ∨ (cmp a b = 0 ∧ S a b)) →
      l.Pairwise S →
      (∀ y ∈ acc, ∀ x ∈ l, S y x) →
      ((l.foldl (fun acc x => insertCmp cmp x acc) acc).Pairwise
        (fun a b => cmp a b < 0 ∨ (cmp a b = 0 ∧ S a b))) := by
  intro l
  induction l with
  | nil => intro acc hacc _ _; exact hacc
  | cons x xs ih =>
      intro acc hacc hlpw hSacc
      rw [List.foldl_cons]
      rw [List.pairwise_cons] at hlpw
      refine ih (insertCmp cmp x acc) ?_ hlpw.2 ?_
      · refine insertCmp_pairwise cmp _ x acc hacc ?_ ?_ ?_
        · intro y hy hle
          rcases lt_or_eq_of_le hle with hlt | heq
          · exact Or.inl hlt
          · exact Or.inr ⟨heq, hSacc y hy x (List.mem_cons_self x xs)⟩
        · intro z hz hnle
          left
          have h2 : cmp x z = - cmp z x := hanti x z
          have h3 : 0 < cmp z x := not_le.mp hnle
          omega
        · intro z hz w hw hnle hr
          left
          have h1 : cmp x z < 0 := by
            have h2 : cmp x z = - cmp z x := hanti x z
            have h3 : 0 < cmp z x := not_le.mp hnle
            omega
          have h4 : cmp z w ≤ 0 := by
            rcases hr with h | h
            · exact le_of_lt h
            · exact le_of_eq h.1
          exact hstr x z w h1 h4
      · intro y hy x' hx'
        have hy2 : y ∈ x :: acc := (insertCmp_perm cmp x acc).mem_iff.mp hy
        rcases List.mem_cons.mp hy2 with rfl | hy3
        · exact hlpw.1 x' hx'
        · exact hSacc y hy3 x' (List.mem_cons_of_mem x hx')

/-- C6 counterexample: `dTie` is ingested once, so its stored version list
is never passed through `mergeDocumentVersions`; its two versions tie
semantically and stay in ascending-`createdAt` input order on the exposed
node, violating the descending-`createdAt` tie-break the spec asserts for
every exposed document. -/
theorem c6_counterexample :
    c6exposed = [vTieOld, vTieNew] ∧
      ¬ List.Pairwise specVersionOrder c6exposed := by decide

/-- C6 amended: every exposed version list (`sortVersions` output) is
sorted by descending semantic order; the full spec ordering — semantic
ties additionally broken by descending `createdAt` — holds for the version
list of a document produced by merging duplicate ingestions, since
`mergeDocumentVersions` pre-sorts by descending `createdAt` and the
ES2019 sort is stable. -/
theorem c6_version_ordering_amended :
    (∀ vs : List DocumentVersion,
      (sortVersions vs).Pairwise (fun a b => semverCmp a b ≤ 0)) ∧
    ∀ v1 v2 : List DocumentVersion,
      (sortVersions (mergeDocumentVersions v1 v2)).Pairwise
        specVersionOrder := by
  have hanti : ∀ a b : DocumentVersion, semverCmp a b = - semverCmp b a :=
    fun a b =>
      semverCmpParts_antisym
        ((parseVersion a.versionNumber).length +
          (parseVersion b.versionNumber).length) _ _ (le_refl _)
  have hstr : ∀ a b c : DocumentVersion, semverCmp a b < 0 →
      semverCmp b c ≤ 0 → semverCmp a c < 0 :=
    fun a b c h1 h2 =>
      semverCmpParts_trans_lt
        ((parseVersion a.versionNumber).length +
          (parseVersion b.versionNumber).length +
          (parseVersion c.versionNumber).length) _ _ _ (le_refl _) h1 h2
  constructor
  · intro vs
    have h := jsSortStable_pairwise_lex semverCmp (fun _ _ => True)
      hanti hstr vs [] List.Pairwise.nil (pairwise_trivial vs)
      (fun y hy => absurd hy (List.not_mem_nil y))
    refine List.Pairwise.imp ?_ h
    intro a b hab
    rcases hab with h1 | h1
    · exact le_of_lt h1
    · exact le_of_eq h1.1
  · intro v1 v2
    have hantiC : ∀ a b : DocumentVersion,
        jsLocaleCompare b.createdAt a.createdAt =
          - jsLocaleCompare a.createdAt b.createdAt :=
      fun a b => jsLocaleCompare_antisym _ _
    have hstrC : ∀ a b c : DocumentVersion,
        jsLocaleCompare b.createdAt a.createdAt < 0 →
        jsLocaleCompare c.createdAt b.createdAt ≤ 0 →
        jsLocaleCompare c.createdAt a.createdAt < 0 := by
      intro a b c h1 h2
      have hltb1 := (jsLocaleCompare_lt_zero _ _).mp h1
      have h2' := (jsLocaleCompare_le_zero _ _).mp h2
      refine (jsLocaleCompare_lt_zero _ _).mpr ?_
      rcases h2' with h3 | h3
      · exact charListLtb_trans _ _ _ h3 hltb1
      · rw [h3]
        exact hltb1
    have hmergePW : (mergeDocumentVersions v1 v2).Pairwise
        (fun a b =>
          charListLtb a.createdAt.toList b.createdAt.toList = false) := by
      have hA := jsSortStable_pairwise_lex
        (fun a b : DocumentVersion =>
          jsLocaleCompare b.createdAt a.createdAt)
        (fun _ _ => True) hantiC hstrC
        (((v1 ++ v2).foldl
            (fun m version =>
              if (m.lookup version.versionId).isSome then m
              else m ++ [(version.versionId, version)]) []).map (·.2))
        [] List.Pairwise.nil (pairwise_trivial _)
        (fun y hy => absurd hy (List.not_mem_nil y))
      refine List.Pairwise.imp ?_ hA
      intro a b hab
      rcases hab with h | h
      · exact charListLtb_asymm _ _ ((jsLocaleCompare_lt_zero _ _).mp h)
      · have h2 := (jsLocaleCompare_eq_zero _ _).mp h.1
        have h3 : a.createdAt.toList = b.createdAt.toList := by rw [h2]
        rw [h3, charListLtb_irrefl]
    have hmain := jsSortStable_pairwise_lex semverCmp
      (fun a b => charListLtb a.createdAt.toList b.createdAt.toList = false)
      hanti hstr (mergeDocumentVersions v1 v2) [] List.Pairwise.nil
      hmergePW (fun y hy => absurd hy (List.not_mem_nil y))
    exact hmain

/-- Every level the child loop of the DFS records is a traversal depth
from `start`, provided the visit callback has that property. -/
theorem dfsChildren_levels_reach (adj : String → List String)
    (start : String) (f : String → Nat → DfsState → Option DfsState)
    (hf : ∀ (c : String) (level : Nat) (st st' : DfsState),
      ReachN adj start c level →
      (∀ kv ∈ st.levels, ReachN adj start kv.1 kv.2) →
      f c level st = some st' →
      ∀ kv ∈ st'.levels, ReachN adj start kv.1 kv.2) :
    ∀ (cs : List String) (level : Nat) (st st' : DfsState),
      (∀ c ∈ cs, ReachN adj start c level) →
      (∀ kv ∈ st.levels, ReachN adj start kv.1 kv.2) →
      dfsChildren f cs level st = some st' →
      ∀ kv ∈ st'.levels, ReachN adj start kv.1 kv.2 := by
  intro cs
  induction cs with
  | nil =>
      intro level st st' _ hst hrun
      have h := Option.some.inj hrun
      subst h
      exact hst
  | cons c cs ihc =>
      intro level st st' hcs hst hrun
      rw [show dfsChildren f (c :: cs) level st =
            (match f c level st with
              | none => none
              | some st2 => dfsChildren f cs level st2) from rfl] at hrun
      cases hf2 : f c level st with
      | none =>
          rw [hf2] at hrun
          have hrun2 : (none : Option DfsState) = some st' := hrun
          exact absurd hrun2 (by simp)
      | some st2 =>
          rw [hf2] at hrun
          refine ihc level st2 st'
            (fun c2 hc2 => hcs c2 (List.mem_cons_of_mem c hc2)) ?_ hrun
          exact hf c level st st2 (hcs c (List.mem_cons_self c cs)) hst hf2

/-- Every level the guarded DFS records is a traversal depth from
`start`. -/
theorem dfsVisit_levels_reach (adj : String → List String)
    (start : String) :
    ∀ (fuel : Nat) (id : String) (level : Nat) (st st' : DfsState),
      ReachN adj start id level →
      (∀ kv ∈ st.levels, ReachN adj start kv.1 kv.2) →
      dfsVisit adj fuel id level st = some st' →
      ∀ kv ∈ st'.levels, ReachN adj start kv.1 kv.2 := by
  intro fuel
  induction fuel with
  | zero =>
      intro id level st st' _ _ hrun
      have hrun2 : (none : Option DfsState) = some st' := hrun
      exact absurd hrun2 (by simp)
  | succ fuel1 ih =>
      intro id level st st' hid hst hrun
      have hrun2 : (if st.visited.contains id then some st
          else dfsChildren (dfsVisit adj fuel1) (adj id) (level + 1)
            ⟨st.visited ++ [id], st.levels ++ [(id, level)]⟩) =
            some st' := hrun
      by_cases hv : st.visited.contains id = true
      · rw [if_pos hv] at hrun2
        have h := Option.some.inj hrun2
        subst h
        exact hst
      · rw [if_neg hv] at hrun2
        refine dfsChildren_levels_reach adj start (dfsVisit adj fuel1) ih
          (adj id) (level + 1) _ _ ?_ ?_ hrun2
        · intro c hc
          exact ReachN.step hid hc
        · intro kv hkv
          rcases List.mem_append.mp hkv with h | h
          · exact hst kv h
          · have hkv2 : kv = (id, level) := by simpa using h
            subst hkv2
            exact hid

/-- Every binding the level-defaulting pass adds is level `0`. -/
theorem defaults_fold_mem :
    ∀ (ns : List FlowNode) (acc : List (String × Nat))
      (kv : String × Nat),
      kv ∈ ns.foldl
        (fun levels node =>
          if (levels.lookup node.id).isSome then levels
          else levels ++ [(node.id, 0)]) acc →
      kv ∈ acc ∨ kv.2 = 0 := by
  intro ns
  induction ns with
  | nil => intro acc kv h; exact Or.inl h
  | cons n ns ihn =>
      intro acc kv h
      rw [List.foldl_cons] at h
      by_cases hc : (acc.lookup n.id).isSome = true
      · rw [if_pos hc] at h
        exact ihn acc kv h
      · rw [if_neg hc] at h
        rcases ihn (acc ++ [(n.id, 0)]) kv h with hin | hz
        · rcases List.mem_append.mp hin with h1 | h1
          · exact Or.inl h1
          · have hkv2 : kv = (n.id, 0) := by simpa using h1
            right
            rw [hkv2]
        · exact Or.inr hz

theorem contains_true_of_mem {l : List String} {a : String} (h : a ∈ l) :
    l.contains a = true :=
  List.elem_iff.mpr h

theorem mem_of_contains_true {l : List String} {a : String}
    (h : l.contains a = true) : a ∈ l :=
  List.elem_iff.mp h

/-- A filter by a pointwise-stronger predicate is no longer. -/
theorem filter_length_mono {α : Type} (p q : α → Bool)
    (himp : ∀ x, q x = true → p x = true) (U : List α) :
    (U.filter q).length ≤ (U.filter p).length := by
  rw [← List.countP_eq_length_filter, ← List.countP_eq_length_filter]
  exact List.countP_mono_left (fun x _ h => himp x h)

/-- A filter by a pointwise-stronger predicate that also loses a witness
is strictly shorter. -/
theorem filter_length_lt {α : Type} (p q : α → Bool)
    (himp : ∀ x, q x = true → p x = true) :
    ∀ (U : List α) (a : α), a ∈ U → p a = true → q a = false →
      (U.filter q).length < (U.filter p).length := by
  intro U
  induction U with
  | nil => intro a ha; exact absurd ha (List.not_mem_nil a)
  | cons u U ih =>
      intro a ha hpa hqa
      rw [List.filter_cons, List.filter_cons]
      rcases List.mem_cons.mp ha with rfl | hmem
      · rw [hpa, hqa, if_pos rfl, if_neg Bool.false_ne_true,
          List.length_cons]
        exact Nat.lt_succ_of_le (filter_length_mono p q himp U)
      · cases hqu : q u with
        | true =>
            rw [himp u hqu, if_pos rfl, if_pos rfl, List.length_cons,
              List.length_cons]
            exact Nat.succ_lt_succ (ih a hmem hpa hqa)
        | false =>
            rw [if_neg Bool.false_ne_true]
            cases hpu : p u with
            | true =>
                rw [if_pos rfl, List.length_cons]
                exact Nat.lt_succ_of_lt (ih a hmem hpa hqa)
            | false =>
                rw [if_neg Bool.false_ne_true]
                exact ih a hmem hpa hqa

/-- Spec bundle of the child loop: the visited set grows, every listed
child ends up visited, and every node visited during the loop has all its
adjacency children visited. -/
theorem dfsChildren_spec (adj : String → List String)
    (f : String → Nat → DfsState → Option DfsState)
    (hf : ∀ (c : String) (level : Nat) (st st' : DfsState),
      f c level st = some st' →
      (∀ x ∈ st.visited, x ∈ st'.visited) ∧ c ∈ st'.visited ∧
        (∀ v ∈ st'.visited, v ∉ st.visited → ∀ c2 ∈ adj v,
          c2 ∈ st'.visited)) :
    ∀ (cs : List String) (level : Nat) (st st' : DfsState),
      dfsChildren f cs level st = some st' →
      (∀ x ∈ st.visited, x ∈ st'.visited) ∧
        (∀ c ∈ cs, c ∈ st'.visited) ∧
        (∀ v ∈ st'.visited, v ∉ st.visited → ∀ c2 ∈ adj v,
          c2 ∈ st'.visited) := by
  intro cs
  induction cs with
  | nil =>
      intro level st st' hrun
      have h := Option.some.inj hrun
      subst h
      exact ⟨fun x hx => hx, fun c hc => absurd hc (List.not_mem_nil c),
        fun v hv1 hv2 => absurd hv1 hv2⟩
  | cons c cs ih =>
      intro level st st' hrun
      rw [show dfsChildren f (c :: cs) level st =
        (match f c level st with
          | none => none
          | some st2 => dfsChildren f cs level st2) from rfl] at hrun
      cases hfc : f c level st with
      | none =>
          rw [hfc] at hrun
          exact absurd (show (none : Option DfsState) = some st'
            from hrun) (by simp)
      | some st2 =>
          rw [hfc] at hrun
          obtain ⟨hm1, hc1, hn1⟩ := hf c level st st2 hfc
          obtain ⟨hm2, hc2, hn2⟩ := ih level st2 st' hrun
          refine ⟨fun x hx => hm2 x (hm1 x hx), ?_, ?_⟩
          · intro c3 hc3
            rcases List.mem_cons.mp hc3 with heq | hmem
            · rw [heq]
              exact hm2 c hc1
            · exact hc2 c3 hmem
          · intro v hv1 hv2 c2 hc2x
            by_cases hvs : v ∈ st2.visited
            · exact hm2 c2 (hn1 v hvs hv2 c2 hc2x)
            · exact hn2 v hv1 hvs c2 hc2x

/-- Spec bundle of the guarded DFS: the visited set grows, the visited
id ends up visited, and every newly visited node has all its adjacency
children visited. -/
theorem dfsVisit_spec (adj : String → List String) :
    ∀ (fuel : Nat) (id : String) (level : Nat) (st st' : DfsState),
      dfsVisit adj fuel id level st = some st' →
      (∀ x ∈ st.visited, x ∈ st'.visited) ∧ id ∈ st'.visited ∧
        (∀ v ∈ st'.visited, v ∉ st.visited → ∀ c2 ∈ adj v,
          c2 ∈ st'.visited) := by
  intro fuel
  induction fuel with
  | zero =>
      intro id level st st' hrun
      exact absurd (show (none : Option DfsState) = some st' from hrun)
        (by simp)
  | succ fuel1 ih =>
      intro id level st st' hrun
      have hrun2 : (if st.visited.contains id then some st
          else dfsChildren (dfsVisit adj fuel1) (adj id) (level + 1)
            ⟨st.visited ++ [id], st.levels ++ [(id, level)]⟩) =
          some st' := hrun
      by_cases hv : st.visited.contains id = true
      · rw [if_pos hv] at hrun2
        have h := Option.some.inj hrun2
        subst h
        exact ⟨fun x hx => hx, mem_of_contains_true hv,
          fun v hv1 hv2 => absurd hv1 hv2⟩
      · rw [if_neg hv] at hrun2
        obtain ⟨hm, hcs, hncl⟩ := dfsChildren_spec adj
          (dfsVisit adj fuel1) ih (adj id) (level + 1)
          ⟨st.visited ++ [id], st.levels ++ [(id, level)]⟩ st' hrun2
        refine ⟨?_, ?_, ?_⟩
        · intro x hx
          exact hm x (List.mem_append_left _ hx)
        · exact hm id (List.mem_append_right _ (by simp))
        · intro v hv1 hv2 c2 hc2
          by_cases hvid : v = id
          · rw [hvid] at hc2
            exact hcs c2 hc2
          · refine hncl v hv1 ?_ c2 hc2
            intro hmem
            have hmem2 : v ∈ st.visited ++ [id] := hmem
            rcases List.mem_append.mp hmem2 with h1 | h1
            · exact hv2 h1
            · exact hvid (by simpa using h1)

/-- Every node reachable from the root is visited by the completed DFS
run (the visited guard never loses reachable nodes). -/
theorem dfsVisit_complete (adj : String → List String) (fuel : Nat)
    (st' : DfsState) :
    ∀ (root k : String) (m : Nat), ReachN adj root k m →
      dfsVisit adj fuel root 0 ⟨[], []⟩ = some st' →
      k ∈ st'.visited := by
  intro root k m hreach
  induction hreach with
  | refl =>
      intro hrun
      exact (dfsVisit_spec adj fuel _ 0 ⟨[], []⟩ st' hrun).2.1
  | step hab hc ih =>
      intro hrun
      refine (dfsVisit_spec adj fuel _ 0 ⟨[], []⟩ st' hrun).2.2 _
        (ih hrun) (fun hmem => absurd hmem (List.not_mem_nil _)) _ hc

/-- The child loop preserves "every visited node has a level". -/
theorem dfsChildren_bound (f : String → Nat → DfsState → Option DfsState)
    (hf : ∀ (c : String) (level : Nat) (st st' : DfsState),
      f c level st = some st' →
      (∀ x ∈ st.visited, (st.levels.lookup x).isSome = true) →
      ∀ x ∈ st'.visited, (st'.levels.lookup x).isSome = true) :
    ∀ (cs : List String) (level : Nat) (st st' : DfsState),
      dfsChildren f cs level st = some st' →
      (∀ x ∈ st.visited, (st.levels.lookup x).isSome = true) →
      ∀ x ∈ st'.visited, (st'.levels.lookup x).isSome = true := by
  intro cs
  induction cs with
  | nil =>
      intro level st st' hrun hst
      have h := Option.some.inj hrun
      subst h
      exact hst
  | cons c cs ih =>
      intro level st st' hrun hst
      rw [show dfsChildren f (c :: cs) level st =
        (match f c level st with
          | none => none
          | some st2 => dfsChildren f cs level st2) from rfl] at hrun
      cases hfc : f c level st with
      | none =>
          rw [hfc] at hrun
          exact absurd (show (none : Option DfsState) = some st'
            from hrun) (by simp)
      | some st2 =>
          rw [hfc] at hrun
          exact ih level st2 st' hrun (hf c level st st2 hfc hst)

/-- Every node the DFS has visited carries a binding in its levels map. -/
theorem dfsVisit_bound (adj : String → List String) :
    ∀ (fuel : Nat) (id : String) (level : Nat) (st st' : DfsState),
      dfsVisit adj fuel id level st = some st' →
      (∀ x ∈ st.visited, (st.levels.lookup x).isSome = true) →
      ∀ x ∈ st'.visited, (st'.levels.lookup x).isSome = true := by
  intro fuel
  induction fuel with
  | zero =>
      intro id level st st' hrun
      exact absurd (show (none : Option DfsState) = some st' from hrun)
        (by simp)
  | succ fuel1 ih =>
      intro id level st st' hrun hst
      have hrun2 : (if st.visited.contains id then some st
          else dfsChildren (dfsVisit adj fuel1) (adj id) (level + 1)
            ⟨st.visited ++ [id], st.levels ++ [(id, level)]⟩) =
          some st' := hrun
      by_cases hv : st.visited.contains id = true
      · rw [if_pos hv] at hrun2
        have h := Option.some.inj hrun2
        subst h
        exact hst
      · rw [if_neg hv] at hrun2
        refine dfsChildren_bound (dfsVisit adj fuel1) ih (adj id)
          (level + 1) _ st' hrun2 ?_
        intro x hx
        have hx2 : x ∈ st.visited ++ [id] := hx
        show ((st.levels ++ [(id, level)]).lookup x).isSome = true
        rw [lookup_append]
        rcases List.mem_append.mp hx2 with h1 | h1
        · obtain ⟨w, hw⟩ := Option.isSome_iff_exists.mp (hst x h1)
          rw [hw]
          rfl
        · have hx3 : x = id := by simpa using h1
          rw [hx3]
          rw [show ([(id, level)] : List (String × Nat)).lookup id =
            some level from by simp [List.lookup]]
          cases st.levels.lookup id with
          | some w => rfl
          | none => rfl

/-- The child loop returns when each visit call returns on in-universe
ids with enough fuel for the remaining unvisited universe. -/
theorem dfsChildren_isSome (U : List String)
    (f : String → Nat → DfsState → Option DfsState) (fuel : Nat)
    (hf_some : ∀ (c : String) (level : Nat) (st : DfsState), c ∈ U →
      (U.filter (fun x => ! st.visited.contains x)).length < fuel →
      (f c level st).isSome = true)
    (hf_mono : ∀ (c : String) (level : Nat) (st st' : DfsState),
      f c level st = some st' → ∀ x ∈ st.visited, x ∈ st'.visited) :
    ∀ (cs : List String) (level : Nat) (st : DfsState),
      (∀ c ∈ cs, c ∈ U) →
      (U.filter (fun x => ! st.visited.contains x)).length < fuel →
      (dfsChildren f cs level st).isSome = true := by
  intro cs
  induction cs with
  | nil => intro level st _ _; rfl
  | cons c cs ih =>
      intro level st hcs hfuel
      have hs := hf_some c level st (hcs c (List.mem_cons_self c cs))
        hfuel
      cases hfc : f c level st with
      | none =>
          rw [hfc] at hs
          exact absurd hs (by simp)
      | some st2 =>
          rw [show dfsChildren f (c :: cs) level st =
            (match f c level st with
              | none => none
              | some st2 => dfsChildren f cs level st2) from rfl, hfc]
          refine ih level st2
            (fun c2 hc2 => hcs c2 (List.mem_cons_of_mem c hc2)) ?_
          refine Nat.lt_of_le_of_lt ?_ hfuel
          refine filter_length_mono _ _ ?_ U
          intro x hx
          cases hcx : st.visited.contains x with
          | false => rfl
          | true =>
              have hx2 : st2.visited.contains x = true :=
                contains_true_of_mem
                  (hf_mono c level st st2 hfc x
                    (mem_of_contains_true hcx))
              rw [hx2] at hx
              exact absurd hx (by simp)

/-- Fuel sufficiency of the DFS: with strictly more fuel than unvisited
universe elements, the traversal returns (the `none` branch of
`calculateLevels` is unreachable). -/
theorem dfsVisit_isSome (adj : String → List String) (U : List String)
    (hadj : ∀ v c, c ∈ adj v → c ∈ U) :
    ∀ (fuel : Nat) (id : String) (level : Nat) (st : DfsState),
      id ∈ U →
      (U.filter (fun x => ! st.visited.contains x)).length < fuel →
      (dfsVisit adj fuel id level st).isSome = true := by
  intro fuel
  induction fuel with
  | zero =>
      intro id level st _ hfuel
      exact absurd hfuel (Nat.not_lt_zero _)
  | succ fuel1 ih =>
      intro id level st hid hfuel
      show (if st.visited.contains id then some st
        else dfsChildren (dfsVisit adj fuel1) (adj id) (level + 1)
          ⟨st.visited ++ [id], st.levels ++ [(id, level)]⟩).isSome = true
      by_cases hv : st.visited.contains id = true
      · rw [if_pos hv]
        rfl
      · rw [Bool.not_eq_true] at hv
        rw [hv, if_neg Bool.false_ne_true]
        refine dfsChildren_isSome U (dfsVisit adj fuel1) fuel1
          (fun c level2 st2 hc hfuel2 => ih c level2 st2 hc hfuel2)
          (fun c level2 st2 st2' h x hx =>
            (dfsVisit_spec adj fuel1 c level2 st2 st2' h).1 x hx)
          (adj id) (level + 1)
          ⟨st.visited ++ [id], st.levels ++ [(id, level)]⟩
          (fun c hc => hadj id c hc) ?_
        show (U.filter
          (fun x => ! (st.visited ++ [id]).contains x)).length < fuel1
        refine Nat.lt_of_lt_of_le ?_ (Nat.lt_succ_iff.mp hfuel)
        refine filter_length_lt _ _ ?_ U id hid ?_ ?_
        · intro x hx
          cases hcx : st.visited.contains x with
          | false => rfl
          | true =>
              have hx2 : (st.visited ++ [id]).contains x = true :=
                contains_true_of_mem
                  (List.mem_append_left _ (mem_of_contains_true hcx))
              rw [hx2] at hx
              exact absurd hx (by simp)
        · show (! st.visited.contains id) = true
          rw [hv]
          rfl
        · show (! (st.visited ++ [id]).contains id) = false
          rw [contains_true_of_mem
            (List.mem_append_right _ (by simp))]
          rfl

/-- C8 counterexample: in the working set `[B, A]` with the single edge
A→B, the spec's default root (the first node with no incoming edge) is A,
from which B has traversal depth 1 — but the code roots the traversal at
`nodes[0]` (B itself), so the default layout assigns B level 0. -/
theorem c8_counterexample :
    specFirstNoIncomingRoot c8nodes c8edges = some "A" ∧
      (calculateLevels c8nodes c8edges none).lookup "B" = some 0 ∧
      (calculateLevels c8nodes c8edges (some "A")).lookup "B" = some 1 := by
  decide


/-- Lookup after a JS-Map set. -/
theorem jsMapSet_lookup {α : Type} :
    ∀ (m : List (String × α)) (k k' : String) (v : α),
      (jsMapSet m k v).lookup k' =
        if k' = k then some v else m.lookup k' := by
  intro m
  induction m with
  | nil =>
      intro k k' v
      show ([(k, v)].lookup k') = _
      rw [List.lookup_cons]
      by_cases h : k' = k
      · rw [if_pos h, show (k' == k) = true from beq_iff_eq.mpr h]
      · rw [if_neg h, show (k' == k) = false from beq_eq_false_iff_ne.mpr h]
  | cons a rest ih =>
      intro k k' v
      show (if a.1 = k then (k, v) :: rest
        else a :: jsMapSet rest k v).lookup k' = _
      by_cases ha : a.1 = k
      · rw [if_pos ha, List.lookup_cons]
        by_cases h : k' = k
        · rw [if_pos h, show (k' == k) = true from beq_iff_eq.mpr h]
        · rw [if_neg h, show (k' == k) = false from beq_eq_false_iff_ne.mpr h,
            List.lookup_cons,
            show (k' == a.1) = false from
              beq_eq_false_iff_ne.mpr (fun hc => h (hc.trans ha))]
      · rw [if_neg ha, List.lookup_cons]
        by_cases h2 : k' = a.1
        · rw [show (k' == a.1) = true from beq_iff_eq.mpr h2,
            if_neg (fun hc => ha (h2.symm.trans hc)), List.lookup_cons,
            show (k' == a.1) = true from beq_iff_eq.mpr h2]
        · rw [show (k' == a.1) = false from beq_eq_false_iff_ne.mpr h2, ih]
          by_cases h : k' = k
          · rw [if_pos h, if_pos h]
          · rw [if_neg h, if_neg h, List.lookup_cons,
              show (k' == a.1) = false from beq_eq_false_iff_ne.mpr h2]

/-- Lookup after a JS-Map set (`Nat` keys). -/
theorem jsMapSetNat_lookup {α : Type} :
    ∀ (m : List (Nat × α)) (k k' : Nat) (v : α),
      (jsMapSetNat m k v).lookup k' =
        if k' = k then some v else m.lookup k' := by
  intro m
  induction m with
  | nil =>
      intro k k' v
      show ([(k, v)].lookup k') = _
      rw [List.lookup_cons]
      by_cases h : k' = k
      · rw [if_pos h, show (k' == k) = true from beq_iff_eq.mpr h]
      · rw [if_neg h, show (k' == k) = false from beq_eq_false_iff_ne.mpr h]
  | cons a rest ih =>
      intro k k' v
      show (if a.1 = k then (k, v) :: rest
        else a :: jsMapSetNat rest k v).lookup k' = _
      by_cases ha : a.1 = k
      · rw [if_pos ha, List.lookup_cons]
        by_cases h : k' = k
        · rw [if_pos h, show (k' == k) = true from beq_iff_eq.mpr h]
        · rw [if_neg h, show (k' == k) = false from beq_eq_false_iff_ne.mpr h,
            List.lookup_cons,
            show (k' == a.1) = false from
              beq_eq_false_iff_ne.mpr (fun hc => h (hc.trans ha))]
      · rw [if_neg ha, List.lookup_cons]
        by_cases h2 : k' = a.1
        · rw [show (k' == a.1) = true from beq_iff_eq.mpr h2,
            if_neg (fun hc => ha (h2.symm.trans hc)), List.lookup_cons,
            show (k' == a.1) = true from beq_iff_eq.mpr h2]
        · rw [show (k' == a.1) = false from beq_eq_false_iff_ne.mpr h2, ih]
          by_cases h : k' = k
          · rw [if_pos h, if_pos h]
          · rw [if_neg h, if_neg h, List.lookup_cons,
              show (k' == a.1) = false from beq_eq_false_iff_ne.mpr h2]

/-- Lookup in the node-initialisation fold of `buildAdjacencyList`. -/
theorem adjInit_lookup :
    ∀ (ns : List FlowNode) (acc : List (String × List String)) (k : String),
      (ns.foldl (fun adjacency node => jsMapSet adjacency node.id [])
        acc).lookup k =
        if ns.any (fun n => n.id == k) then some [] else acc.lookup k := by
  intro ns
  induction ns with
  | nil => intro acc k; simp
  | cons n ns ih =>
      intro acc k
      rw [List.foldl_cons, ih, jsMapSet_lookup]
      by_cases hk : k = n.id
      · have hb : (n.id == k) = true := beq_iff_eq.mpr hk.symm
        by_cases hns : ns.any (fun n2 => n2.id == k) = true
        · simp [List.any_cons, hb, hns, hk]
        · rw [Bool.not_eq_true] at hns
          simp [List.any_cons, hb, hns, hk]
      · have hb : (n.id == k) = false :=
          beq_eq_false_iff_ne.mpr (fun hc => hk hc.symm)
        by_cases hns : ns.any (fun n2 => n2.id == k) = true
        · simp [List.any_cons, hb, hns, hk]
        · rw [Bool.not_eq_true] at hns
          simp [List.any_cons, hb, hns, hk]

/-- The edge fold of `buildAdjacencyList` preserves pointwise-equal maps. -/
theorem adjEdges_lookup_congr :
    ∀ (es : List FlowEdge) (m1 m2 : List (String × List String)),
      (∀ k, m1.lookup k = m2.lookup k) →
      ∀ k,
        (es.foldl
          (fun adjacency edge =>
            jsMapSet adjacency edge.source
              (((adjacency.lookup edge.source).getD []) ++ [edge.target]))
          m1).lookup k =
        (es.foldl
          (fun adjacency edge =>
            jsMapSet adjacency edge.source
              (((adjacency.lookup edge.source).getD []) ++ [edge.target]))
          m2).lookup k := by
  intro es
  induction es with
  | nil => intro m1 m2 h k; exact h k
  | cons e es ih =>
      intro m1 m2 h k
      rw [List.foldl_cons, List.foldl_cons]
      refine ih _ _ ?_ k
      intro k2
      rw [jsMapSet_lookup, jsMapSet_lookup, h e.source]
      by_cases h2 : k2 = e.source
      · rw [if_pos h2, if_pos h2]
      · rw [if_neg h2, if_neg h2]
        exact h k2

/-- Two node sets with the same ids give the same adjacency function. -/
theorem buildAdjacencyList_lookup_congr (ns1 ns2 : List FlowNode)
    (es : List FlowEdge)
    (hids : ∀ k, ns1.any (fun n => n.id == k) =
      ns2.any (fun n => n.id == k)) :
    ∀ k, (buildAdjacencyList ns1 es).lookup k =
      (buildAdjacencyList ns2 es).lookup k := by
  intro k
  show (es.foldl _
      (ns1.foldl (fun adjacency node => jsMapSet adjacency node.id [])
        [])).lookup k = _
  refine adjEdges_lookup_congr es _ _ ?_ k
  intro k2
  rw [adjInit_lookup, adjInit_lookup, hids k2]

/-- Lookup through the level-defaulting pass of `calculateLevels`. -/
theorem defaults_lookup :
    ∀ (ns : List FlowNode) (acc : List (String × Nat)) (k : String),
      (ns.foldl
        (fun levels node =>
          if (levels.lookup node.id).isSome then levels
          else levels ++ [(node.id, 0)]) acc).lookup k =
        (acc.lookup k).or
          (if ns.any (fun n => n.id == k) then some 0 else none) := by
  intro ns
  induction ns with
  | nil =>
      intro acc k
      show acc.lookup k = (acc.lookup k).or _
      rw [show (([] : List FlowNode).any (fun n => n.id == k)) = false
        from rfl]
      cases acc.lookup k <;> rfl
  | cons n ns ih =>
      intro acc k
      rw [List.foldl_cons]
      by_cases hb : (acc.lookup n.id).isSome = true
      · rw [if_pos hb, ih]
        by_cases hk : n.id = k
        · subst hk
          obtain ⟨w, hw⟩ := Option.isSome_iff_exists.mp hb
          rw [hw]
          rfl
        · have hbf : (n.id == k) = false := beq_eq_false_iff_ne.mpr hk
          rw [List.any_cons, hbf]
          rfl
      · rw [if_neg hb, ih, lookup_append]
        have hnone : acc.lookup n.id = none := by
          cases h : acc.lookup n.id with
          | none => rfl
          | some w => rw [h] at hb; exact absurd rfl hb
        by_cases hk : n.id = k
        · subst hk
          rw [hnone,
            show ([(n.id, 0)].lookup n.id) = some 0 from by
              rw [List.lookup_cons, show (n.id == n.id) = true from
                beq_iff_eq.mpr rfl],
            List.any_cons, show (n.id == n.id) = true from
              beq_iff_eq.mpr rfl]
          rfl
        · rw [show ([(n.id, 0)].lookup k) = none from by
              rw [List.lookup_cons, show (k == n.id) = false from
                beq_eq_false_iff_ne.mpr (fun hc => hk hc.symm)]
              rfl,
            List.any_cons, show (n.id == k) = false from
              beq_eq_false_iff_ne.mpr hk]
          cases acc.lookup k <;> rfl

/-- `calculateLevels` with an explicit non-falsy root, unfolded. -/
theorem calculateLevels_some_root (ns : List FlowNode) (es : List FlowEdge)
    (root : String) (hroot : root ≠ "") :
    calculateLevels ns es (some root) =
      match dfsVisit
          (fun id => ((buildAdjacencyList ns es).lookup id).getD [])
          ((root :: (ns.map (·.id) ++ es.map (·.target))).length + 1)
          root 0 ⟨[], []⟩ with
      | none => []
      | some st =>
          ns.foldl
            (fun levels node =>
              if (levels.lookup node.id).isSome then levels
              else levels ++ [(node.id, 0)])
            st.levels := by
  have h1 : jsOrOptOpt (some root) ((ns.head?).map (·.id)) = some root := by
    show (if root = "" then (ns.head?).map (·.id) else some root) =
      some root
    rw [if_neg hroot]
  simp only [calculateLevels]
  rw [h1]
  show (if root = "" then ([] : List (String × Nat)) else _) = _
  rw [if_neg hroot]

/-- The level lookup of `calculateLevels` is invariant under replacing the
node list by one with the same ids and length. -/
theorem calculateLevels_lookup_congr (ns1 ns2 : List FlowNode)
    (es : List FlowEdge) (root : String) (hroot : root ≠ "")
    (hids : ∀ k, ns1.any (fun n => n.id == k) =
      ns2.any (fun n => n.id == k))
    (hlen : ns1.length = ns2.length) (k : String) :
    (calculateLevels ns1 es (some root)).lookup k =
      (calculateLevels ns2 es (some root)).lookup k := by
  rw [calculateLevels_some_root ns1 es root hroot,
    calculateLevels_some_root ns2 es root hroot]
  have hadjF : (fun id => ((buildAdjacencyList ns1 es).lookup id).getD []) =
      (fun id => ((buildAdjacencyList ns2 es).lookup id).getD []) := by
    funext id
    rw [buildAdjacencyList_lookup_congr ns1 ns2 es hids id]
  have hfuel : (root :: (ns1.map (·.id) ++ es.map (·.target))).length + 1 =
      (root :: (ns2.map (·.id) ++ es.map (·.target))).length + 1 := by
    simp [hlen]
  rw [hadjF, hfuel]
  cases hdfs : dfsVisit
      (fun id => ((buildAdjacencyList ns2 es).lookup id).getD [])
      ((root :: (ns2.map (·.id) ++ es.map (·.target))).length + 1)
      root 0 ⟨[], []⟩ with
  | none => rfl
  | some st =>
      rw [defaults_lookup ns1 st.levels k, defaults_lookup ns2 st.levels k,
        hids k]

/-- Every child in the built adjacency list is an edge target. -/
theorem adjEdges_values_sub :
    ∀ (es : List FlowEdge) (acc : List (String × List String))
      (T : List String),
      (∀ e ∈ es, e.target ∈ T) →
      (∀ v c, c ∈ ((acc.lookup v).getD []) → c ∈ T) →
      ∀ v c, c ∈ (((es.foldl
        (fun adjacency edge =>
          jsMapSet adjacency edge.source
            (((adjacency.lookup edge.source).getD []) ++ [edge.target]))
        acc).lookup v).getD []) → c ∈ T := by
  intro es
  induction es with
  | nil => intro acc T _ hacc v c hc; exact hacc v c hc
  | cons e es ih =>
      intro acc T hes hacc v c hc
      rw [List.foldl_cons] at hc
      refine ih _ T (fun e2 he2 => hes e2 (List.mem_cons_of_mem e he2))
        ?_ v c hc
      intro v2 c2 hc2
      rw [jsMapSet_lookup] at hc2
      by_cases hv2 : v2 = e.source
      · rw [if_pos hv2] at hc2
        have hc3 : c2 ∈ ((acc.lookup e.source).getD []) ++ [e.target] :=
          hc2
        rcases List.mem_append.mp hc3 with h1 | h1
        · exact hacc e.source c2 h1
        · have hc4 : c2 = e.target := by simpa using h1
          rw [hc4]
          exact hes e (List.mem_cons_self e es)
      · rw [if_neg hv2] at hc2
        exact hacc v2 c2 hc2

theorem buildAdjacency_values_sub (nodes : List FlowNode)
    (edges : List FlowEdge) :
    ∀ v c, c ∈ (((buildAdjacencyList nodes edges).lookup v).getD []) →
      c ∈ edges.map (·.target) := by
  intro v c hc
  have hc2 : c ∈ (((edges.foldl
      (fun adjacency edge =>
        jsMapSet adjacency edge.source
          (((adjacency.lookup edge.source).getD []) ++ [edge.target]))
      (nodes.foldl (fun adjacency node => jsMapSet adjacency node.id [])
        [])).lookup v).getD []) := hc
  refine adjEdges_values_sub edges
    (nodes.foldl (fun adjacency node => jsMapSet adjacency node.id []) [])
    (edges.map (·.target))
    (fun e he => List.mem_map_of_mem _ he) ?_ v c hc2
  intro v2 c2 hc3
  rw [adjInit_lookup] at hc3
  by_cases hany : nodes.any (fun n => n.id == v2) = true
  · rw [if_pos hany] at hc3
    exact absurd (show c2 ∈ ([] : List String) from hc3)
      (List.not_mem_nil c2)
  · rw [Bool.not_eq_true] at hany
    rw [hany, if_neg Bool.false_ne_true] at hc3
    have hc4 : c2 ∈
        ((([] : List (String × List String)).lookup v2).getD []) := hc3
    exact absurd (show c2 ∈ ([] : List String) from hc4)
      (List.not_mem_nil c2)

/-- A member's id makes the presence test succeed. -/
theorem any_id_of_mem (l : List FlowNode) (n : FlowNode) (hn : n ∈ l) :
    l.any (fun m => m.id == n.id) = true :=
  List.any_eq_true.mpr ⟨n, hn, beq_iff_eq.mpr rfl⟩

/-- C8 (amended): the layout is deterministic; the default root — used
when no explicit root id is supplied — is `nodes[0]` (not the first node
with no incoming edge); every node of the working set receives a level;
and each assigned level is realized by the traversal: a binding `(k, l)`
either witnesses a root-to-`k` walk of exactly `l` edges, or `k` is
unreachable from the root at every depth and was defaulted to level 0. -/
theorem c8_layout_levels_amended :
    (∀ (nodes : List FlowNode) (edges : List FlowEdge),
      calculateLevels nodes edges none =
        calculateLevels nodes edges ((nodes.head?).map (·.id))) ∧
    ∀ (nodes : List FlowNode) (edges : List FlowEdge) (root : String),
      root ≠ "" →
      (∀ n ∈ nodes, ∃ l,
        (calculateLevels nodes edges (some root)).lookup n.id = some l) ∧
      ∀ (k : String) (l : Nat),
        (calculateLevels nodes edges (some root)).lookup k = some l →
        ReachN
          (fun id => ((buildAdjacencyList nodes edges).lookup id).getD [])
          root k l ∨
        (l = 0 ∧ ∀ m, ¬ ReachN
          (fun id => ((buildAdjacencyList nodes edges).lookup id).getD [])
          root k m) := by
  constructor
  · intro nodes edges
    have hOr : jsOrOptOpt ((nodes.head?).map (·.id))
        ((nodes.head?).map (·.id)) =
        jsOrOptOpt none ((nodes.head?).map (·.id)) := by
      cases (nodes.head?).map (·.id) with
      | none => rfl
      | some s =>
          show jsOrOptOpt (some s) (some s) = some s
          by_cases hs : s = ""
          · simp [jsOrOptOpt, hs]
          · simp [jsOrOptOpt, hs]
    simp only [calculateLevels]
    rw [hOr]
  · intro nodes edges root hroot
    rw [calculateLevels_some_root nodes edges root hroot]
    have hadj : ∀ v c, c ∈ (fun id =>
        ((buildAdjacencyList nodes edges).lookup id).getD []) v →
        c ∈ root :: (nodes.map (·.id) ++ edges.map (·.target)) := by
      intro v c hc
      exact List.mem_cons_of_mem root (List.mem_append_right _
        (buildAdjacency_values_sub nodes edges v c hc))
    have hfuel0 : ((root :: (nodes.map (·.id) ++
        edges.map (·.target))).filter
        (fun x => ! (([] : List String).contains x))).length <
        (root :: (nodes.map (·.id) ++ edges.map (·.target))).length + 1 :=
      Nat.lt_succ_of_le (List.length_filter_le _ _)
    have hsome := dfsVisit_isSome
      (fun id => ((buildAdjacencyList nodes edges).lookup id).getD [])
      (root :: (nodes.map (·.id) ++ edges.map (·.target))) hadj
      ((root :: (nodes.map (·.id) ++ edges.map (·.target))).length + 1)
      root 0 ⟨[], []⟩ (List.mem_cons_self root _) hfuel0
    obtain ⟨st, hdfs⟩ := Option.isSome_iff_exists.mp hsome
    rw [hdfs]
    constructor
    · intro n hn
      show ∃ l, (nodes.foldl
          (fun levels node =>
            if (levels.lookup node.id).isSome then levels
            else levels ++ [(node.id, 0)]) st.levels).lookup n.id =
        some l
      rw [defaults_lookup nodes st.levels n.id]
      cases hl : st.levels.lookup n.id with
      | some l0 =>
          refine ⟨l0, ?_⟩
          rfl
      | none =>
          refine ⟨0, ?_⟩
          rw [any_id_of_mem nodes n hn]
          rfl
    · intro k l hlk
      have hlk2 : (nodes.foldl
          (fun levels node =>
            if (levels.lookup node.id).isSome then levels
            else levels ++ [(node.id, 0)]) st.levels).lookup k =
          some l := hlk
      rw [defaults_lookup nodes st.levels k] at hlk2
      cases hl : st.levels.lookup k with
      | some l0 =>
          rw [hl] at hlk2
          have hinj : some l0 = some l := hlk2
          have hl0 : l0 = l := Option.some.inj hinj
          left
          have hre := dfsVisit_levels_reach
            (fun id => ((buildAdjacencyList nodes edges).lookup id).getD
              [])
            root
            ((root :: (nodes.map (·.id) ++
              edges.map (·.target))).length + 1)
            root 0 ⟨[], []⟩ st (ReachN.refl root)
            (fun kv hkv => absurd hkv (List.not_mem_nil kv)) hdfs
            (k, l0) (mem_of_lookup_eq_some hl)
          rw [hl0] at hre
          exact hre
      | none =>
          rw [hl] at hlk2
          by_cases hany : nodes.any (fun n => n.id == k) = true
          · rw [hany] at hlk2
            have hinj : some (0 : Nat) = some l := hlk2
            right
            refine ⟨(Option.some.inj hinj).symm, ?_⟩
            intro m hm
            have hvst := dfsVisit_complete
              (fun id => ((buildAdjacencyList nodes edges).lookup
                id).getD [])
              ((root :: (nodes.map (·.id) ++
                edges.map (·.target))).length + 1)
              st root k m hm hdfs
            have hbound := dfsVisit_bound
              (fun id => ((buildAdjacencyList nodes edges).lookup
                id).getD [])
              ((root :: (nodes.map (·.id) ++
                edges.map (·.target))).length + 1)
              root 0 ⟨[], []⟩ st hdfs
              (fun x hx => absurd hx (List.not_mem_nil x)) k hvst
            rw [hl] at hbound
            exact absurd hbound (by simp)
          · rw [Bool.not_eq_true] at hany
            rw [hany] at hlk2
            exact absurd (show (none : Option Nat) = some l from hlk2)
              (by simp)

/-- Witness for the amended C8 on the `[B, A]` fixture with explicit root
"A": the working-set nodes all receive levels, and the level recorded for
B is realized by the walk A→B of length 1. -/
theorem c8_layout_levels_amended_witness :
    ("A" : String) ≠ "" ∧
    (∃ l, (calculateLevels c8nodes c8edges (some "A")).lookup nodeB.id =
      some l) ∧
    (ReachN
        (fun id => ((buildAdjacencyList c8nodes c8edges).lookup id).getD
          [])
        "A" "B" 1 ∨
      (1 = 0 ∧ ∀ m, ¬ ReachN
        (fun id => ((buildAdjacencyList c8nodes c8edges).lookup id).getD
          [])
        "A" "B" m)) :=
  ⟨by decide,
   (c8_layout_levels_amended.2 c8nodes c8edges "A" (by decide)).1 nodeB
     (by decide),
   (c8_layout_levels_amended.2 c8nodes c8edges "A" (by decide)).2 "B" 1
     (by decide)⟩

/-- Setting an absent key appends the binding. -/
theorem jsMapSetNat_absent {α : Type} :
    ∀ (m : List (Nat × α)) (k : Nat) (v : α), m.lookup k = none →
      jsMapSetNat m k v = m ++ [(k, v)] := by
  intro m
  induction m with
  | nil => intro k v _; rfl
  | cons a rest ih =>
      intro k v h
      show (if a.1 = k then (k, v) :: rest
        else a :: jsMapSetNat rest k v) = _
      rw [List.lookup_cons] at h
      by_cases hk : k = a.1
      · rw [show (k == a.1) = true from beq_iff_eq.mpr hk] at h
        exact absurd h (by simp)
      · rw [show (k == a.1) = false from beq_eq_false_iff_ne.mpr hk] at h
        rw [if_neg (fun hc => hk hc.symm), ih k v h]
        rfl

/-- Overwriting a key twice keeps only the second value. -/
theorem jsMapSetNat_set_set {α : Type} :
    ∀ (m : List (Nat × α)) (k : Nat) (v w : α),
      jsMapSetNat (jsMapSetNat m k v) k w = jsMapSetNat m k w := by
  intro m
  induction m with
  | nil =>
      intro k v w
      show (if k = k then ((k, w) : Nat × α) :: [] else _) = [(k, w)]
      rw [if_pos rfl]
  | cons a rest ih =>
      intro k v w
      by_cases ha : a.1 = k
      · show jsMapSetNat (if a.1 = k then (k, v) :: rest
            else a :: jsMapSetNat rest k v) k w =
          (if a.1 = k then (k, w) :: rest else a :: jsMapSetNat rest k w)
        rw [if_pos ha, if_pos ha]
        show (if k = k then ((k, w) : Nat × α) :: rest else _) = _
        rw [if_pos rfl]
      · show jsMapSetNat (if a.1 = k then (k, v) :: rest
            else a :: jsMapSetNat rest k v) k w =
          (if a.1 = k then (k, w) :: rest else a :: jsMapSetNat rest k w)
        rw [if_neg ha, if_neg ha]
        show (if a.1 = k then (k, w) :: jsMapSetNat rest k v
          else a :: jsMapSetNat (jsMapSetNat rest k v) k w) = _
        rw [if_neg ha, ih]

/-- Grouping a non-empty uniform-level block appends it to that level's
group. -/
theorem grpFold_block (levels : List (String × Nat)) :
    ∀ (B : List FlowNode) (k : Nat) (acc : List (Nat × List FlowNode)),
      B ≠ [] → (∀ n ∈ B, (levels.lookup n.id).getD 0 = k) →
      B.foldl
        (fun groups node =>
          jsMapSetNat groups ((levels.lookup node.id).getD 0)
            (((groups.lookup ((levels.lookup node.id).getD 0)).getD []) ++
              [node])) acc =
        jsMapSetNat acc k (((acc.lookup k).getD []) ++ B) := by
  intro B
  induction B with
  | nil => intro k acc h; exact absurd rfl h
  | cons b B ihB =>
      intro k acc _ hlv
      have hb : (levels.lookup b.id).getD 0 = k :=
        hlv b (List.mem_cons_self b B)
      rw [List.foldl_cons]
      show B.foldl _ (jsMapSetNat acc ((levels.lookup b.id).getD 0)
        (((acc.lookup ((levels.lookup b.id).getD 0)).getD []) ++ [b])) = _
      rw [hb]
      cases B with
      | nil =>
          show jsMapSetNat acc k _ = _
          rfl
      | cons b2 B2 =>
          rw [ihB k (jsMapSetNat acc k (((acc.lookup k).getD []) ++ [b]))
            (by simp)
            (fun n hn => hlv n (List.mem_cons_of_mem b hn))]
          rw [jsMapSetNat_lookup]
          rw [if_pos rfl, jsMapSetNat_set_set]
          rw [show ((some (((acc.lookup k).getD []) ++ [b])).getD []) =
            ((acc.lookup k).getD []) ++ [b] from rfl]
          rw [List.append_assoc]
          rfl

/-- `lookup` distributes over append (`Nat` keys). -/
theorem lookup_append_nat {α : Type} :
    ∀ (l1 l2 : List (Nat × α)) (k : Nat),
      (l1 ++ l2).lookup k = (l1.lookup k).or (l2.lookup k) := by
  intro l1
  induction l1 with
  | nil => intro l2 k; rfl
  | cons a l1 ih =>
      intro l2 k
      rw [List.cons_append, List.lookup_cons, List.lookup_cons]
      by_cases h : (k == a.1) = true
      · rw [h]
        rfl
      · rw [Bool.not_eq_true] at h
        rw [h]
        exact ih l2 k

/-- Grouping a concatenation of non-empty uniform-level blocks with fresh
distinct levels appends one binding per block, in block order. -/
theorem grp_of_join (levels : List (String × Nat)) :
    ∀ (ks : List Nat) (g : Nat → List FlowNode)
      (acc : List (Nat × List FlowNode)),
      ks.Nodup →
      (∀ k ∈ ks, g k ≠ [] ∧ ∀ n ∈ g k, (levels.lookup n.id).getD 0 = k) →
      (∀ k ∈ ks, acc.lookup k = none) →
      ((ks.map g).flatten).foldl
        (fun groups node =>
          jsMapSetNat groups ((levels.lookup node.id).getD 0)
            (((groups.lookup ((levels.lookup node.id).getD 0)).getD []) ++
              [node])) acc =
        acc ++ ks.map (fun k => (k, g k)) := by
  intro ks
  induction ks with
  | nil => intro g acc _ _ _; simp
  | cons k ks ihk =>
      intro g acc hnd hg hacc
      rw [List.map_cons, List.flatten_cons, List.foldl_append]
      rw [grpFold_block levels (g k) k acc
        (hg k (List.mem_cons_self k ks)).1
        (hg k (List.mem_cons_self k ks)).2]
      rw [hacc k (List.mem_cons_self k ks)]
      rw [show ((none : Option (List FlowNode)).getD []) = [] from rfl]
      rw [show ([] : List FlowNode) ++ g k = g k from by simp]
      rw [jsMapSetNat_absent acc k (g k) (hacc k (List.mem_cons_self k ks))]
      rw [List.nodup_cons] at hnd
      rw [ihk g (acc ++ [(k, g k)]) hnd.2
        (fun k2 hk2 => hg k2 (List.mem_cons_of_mem k hk2))
        ?_]
      · rw [List.map_cons, List.append_assoc]
        rfl
      · intro k2 hk2
        rw [lookup_append_nat]
        rw [hacc k2 (List.mem_cons_of_mem k hk2)]
        rw [show ([((k : Nat), g k)].lookup k2) = none from by
          rw [List.lookup_cons, show (k2 == k) = false from
            beq_eq_false_iff_ne.mpr (fun hc => (hnd.1 (hc ▸ hk2)))]
          rfl]
        rfl

/-- A member of an association list binding (`Nat` keys). -/
theorem mem_of_lookup_eq_some_nat {α : Type} :
    ∀ {l : List (Nat × α)} {k : Nat} {v : α},
      l.lookup k = some v → (k, v) ∈ l := by
  intro l
  induction l with
  | nil => intro k v h; exact absurd h (by simp [List.lookup])
  | cons a l ih =>
      intro k v h
      rw [List.lookup_cons] at h
      by_cases hk : (k == a.1) = true
      · rw [hk] at h
        have hv : a.2 = v := by injection h
        have hk2 : k = a.1 := eq_of_beq hk
        rw [hk2, ← hv]
        exact List.mem_cons_self a l
      · rw [Bool.not_eq_true] at hk
        rw [hk] at h
        exact List.mem_cons_of_mem a (ih h)

/-- An absent key has no binding (`Nat` keys). -/
theorem lookup_eq_none_forall_nat {α : Type} :
    ∀ {l : List (Nat × α)} {k : Nat},
      l.lookup k = none → ∀ kv ∈ l, kv.1 ≠ k := by
  intro l
  induction l with
  | nil => intro k _ kv hkv; exact absurd hkv (List.not_mem_nil kv)
  | cons a rest ih =>
      intro k h kv hkv
      rw [List.lookup_cons] at h
      by_cases ha : (k == a.1) = true
      · rw [ha] at h
        exact absurd h (by simp)
      · rw [Bool.not_eq_true] at ha
        rw [ha] at h
        rcases List.mem_cons.mp hkv with rfl | hmem
        · rw [beq_eq_false_iff_ne] at ha
          exact Ne.symm ha
        · exact ih h kv hmem

/-- Membership in a JS-Map after a set (`Nat` keys). -/
theorem jsMapSetNat_mem {α : Type} :
    ∀ (m : List (Nat × α)) (k : Nat) (v : α) (kv : Nat × α),
      kv ∈ jsMapSetNat m k v → kv = (k, v) ∨ kv ∈ m := by
  intro m
  induction m with
  | nil =>
      intro k v kv h
      exact Or.inl (by simpa [jsMapSetNat] using h)
  | cons a rest ih =>
      intro k v kv h
      by_cases ha : a.1 = k
      · rw [show jsMapSetNat (a :: rest) k v = (k, v) :: rest from by
          show (if a.1 = k then (k, v) :: rest else _) = _
          rw [if_pos ha]] at h
        rcases List.mem_cons.mp h with rfl | hm
        · exact Or.inl rfl
        · exact Or.inr (List.mem_cons_of_mem a hm)
      · rw [show jsMapSetNat (a :: rest) k v = a :: jsMapSetNat rest k v
          from by
            show (if a.1 = k then (k, v) :: rest else _) = _
            rw [if_neg ha]] at h
        rcases List.mem_cons.mp h with rfl | hm
        · exact Or.inr (List.mem_cons_self kv rest)
        · rcases ih k v kv hm with h2 | h2
          · exact Or.inl h2
          · exact Or.inr (List.mem_cons_of_mem a h2)

/-- The keys after a JS-Map set (`Nat` keys). -/
theorem jsMapSetNat_keys {α : Type} :
    ∀ (m : List (Nat × α)) (k : Nat) (v : α),
      (jsMapSetNat m k v).map (·.1) =
        if (m.lookup k).isSome then m.map (·.1) else m.map (·.1) ++ [k] := by
  intro m
  induction m with
  | nil => intro k v; rfl
  | cons a rest ih =>
      intro k v
      by_cases ha : a.1 = k
      · have hlk : (a :: rest).lookup k = some a.2 := by
          rw [List.lookup_cons, show (k == a.1) = true from
            beq_iff_eq.mpr ha.symm]
        rw [show jsMapSetNat (a :: rest) k v = (k, v) :: rest from by
            show (if a.1 = k then (k, v) :: rest else _) = _
            rw [if_pos ha],
          hlk]
        simp [ha]
      · have hlk : (a :: rest).lookup k = rest.lookup k := by
          rw [List.lookup_cons, show (k == a.1) = false from
            beq_eq_false_iff_ne.mpr (fun hc => ha hc.symm)]
        rw [show jsMapSetNat (a :: rest) k v = a :: jsMapSetNat rest k v
            from by
              show (if a.1 = k then (k, v) :: rest else _) = _
              rw [if_neg ha],
          hlk, List.map_cons, ih]
        by_cases hb : (rest.lookup k).isSome = true
        · rw [if_pos hb, List.map_cons, if_pos hb]
        · rw [Bool.not_eq_true] at hb
          rw [hb, if_neg Bool.false_ne_true, List.map_cons,
            if_neg Bool.false_ne_true]
          rfl

/-- Flattened group values after one grouping step: the new node lands at
the end, up to permutation. -/
theorem jsMapSetNat_flatten_perm :
    ∀ (m : List (Nat × List FlowNode)) (k : Nat) (x : FlowNode),
      List.Perm
        (((jsMapSetNat m k (((m.lookup k).getD []) ++ [x])).map
          (·.2)).flatten)
        (((m.map (·.2)).flatten) ++ [x]) := by
  intro m
  induction m with
  | nil =>
      intro k x
      simp [jsMapSetNat]
  | cons a rest ih =>
      intro k x
      by_cases ha : a.1 = k
      · rw [show jsMapSetNat (a :: rest) k
            ((((a :: rest).lookup k).getD []) ++ [x]) =
            (k, (((a :: rest).lookup k).getD []) ++ [x]) :: rest from by
          show (if a.1 = k then _ else _) = _
          rw [if_pos ha]]
        rw [List.lookup_cons, show (k == a.1) = true from
          beq_iff_eq.mpr ha.symm]
        rw [show ((some a.2).getD ([] : List FlowNode)) = a.2 from rfl]
        rw [List.map_cons, List.map_cons, List.flatten_cons,
          List.flatten_cons]
        rw [List.append_assoc, List.append_assoc]
        refine List.Perm.append_left a.2 ?_
        exact List.perm_append_comm
      · rw [show jsMapSetNat (a :: rest) k
            ((((a :: rest).lookup k).getD []) ++ [x]) =
            a :: jsMapSetNat rest k
              ((((a :: rest).lookup k).getD []) ++ [x]) from by
          show (if a.1 = k then _ else _) = _
          rw [if_neg ha]]
        rw [List.lookup_cons, show (k == a.1) = false from
          beq_eq_false_iff_ne.mpr (fun hc => ha hc.symm)]
        rw [List.map_cons, List.flatten_cons, List.map_cons,
          List.flatten_cons, List.append_assoc]
        refine List.Perm.append_left a.2 ?_
        exact ih k x

/-- The grouped nodes are a permutation of the input. -/
theorem grp_flatten_perm (levels : List (String × Nat)) :
    ∀ (ns : List FlowNode) (acc : List (Nat × List FlowNode)),
      List.Perm
        (((ns.foldl
          (fun groups node =>
            jsMapSetNat groups ((levels.lookup node.id).getD 0)
              (((groups.lookup ((levels.lookup node.id).getD 0)).getD []) ++
                [node])) acc).map (·.2)).flatten)
        (((acc.map (·.2)).flatten) ++ ns) := by
  intro ns
  induction ns with
  | nil => intro acc; simp
  | cons n ns ih =>
      intro acc
      rw [List.foldl_cons]
      refine List.Perm.trans (ih _) ?_
      refine List.Perm.trans
        (List.Perm.append_right ns (jsMapSetNat_flatten_perm acc
          ((levels.lookup n.id).getD 0) n)) ?_
      rw [List.append_assoc]
      exact List.Perm.refl _

/-- Every binding of the level grouping holds nodes of its own level. -/
theorem grp_member_level (levels : List (String × Nat)) :
    ∀ (ns : List FlowNode) (acc : List (Nat × List FlowNode)),
      (∀ kv ∈ acc, ∀ n ∈ kv.2, (levels.lookup n.id).getD 0 = kv.1) →
      ∀ kv ∈ ns.foldl
        (fun groups node =>
          jsMapSetNat groups ((levels.lookup node.id).getD 0)
            (((groups.lookup ((levels.lookup node.id).getD 0)).getD []) ++
              [node])) acc,
        ∀ n ∈ kv.2, (levels.lookup n.id).getD 0 = kv.1 := by
  intro ns
  induction ns with
  | nil => intro acc hacc; exact hacc
  | cons n ns ih =>
      intro acc hacc
      rw [List.foldl_cons]
      refine ih _ ?_
      intro kv hkv n2 hn2
      rcases jsMapSetNat_mem acc ((levels.lookup n.id).getD 0) _ kv hkv
        with rfl | hm
      · rcases List.mem_append.mp hn2 with h1 | h1
        · cases hlook : acc.lookup ((levels.lookup n.id).getD 0) with
          | none =>
              rw [hlook] at h1
              exact absurd h1 (by simp)
          | some w =>
              rw [hlook] at h1
              have hmem := mem_of_lookup_eq_some_nat hlook
              exact hacc _ hmem n2 h1
        · have hn3 : n2 = n := by simpa using h1
          subst hn3
          rfl
      · exact hacc kv hm n2 hn2

/-- Every group of the level grouping is non-empty. -/
theorem grp_nonempty (levels : List (String × Nat)) :
    ∀ (ns : List FlowNode) (acc : List (Nat × List FlowNode)),
      (∀ kv ∈ acc, kv.2 ≠ []) →
      ∀ kv ∈ ns.foldl
        (fun groups node =>
          jsMapSetNat groups ((levels.lookup node.id).getD 0)
            (((groups.lookup ((levels.lookup node.id).getD 0)).getD []) ++
              [node])) acc,
        kv.2 ≠ [] := by
  intro ns
  induction ns with
  | nil => intro acc hacc; exact hacc
  | cons n ns ih =>
      intro acc hacc
      rw [List.foldl_cons]
      refine ih _ ?_
      intro kv hkv
      rcases jsMapSetNat_mem acc ((levels.lookup n.id).getD 0) _ kv hkv
        with rfl | hm
      · simp
      · exact hacc kv hm

/-- The level-grouping keys are distinct. -/
theorem grp_keys_nodup (levels : List (String × Nat)) :
    ∀ (ns : List FlowNode) (acc : List (Nat × List FlowNode)),
      ((acc.map (·.1)).Nodup) →
      ((ns.foldl
        (fun groups node =>
          jsMapSetNat groups ((levels.lookup node.id).getD 0)
            (((groups.lookup ((levels.lookup node.id).getD 0)).getD []) ++
              [node])) acc).map (·.1)).Nodup := by
  intro ns
  induction ns with
  | nil => intro acc hacc; exact hacc
  | cons n ns ih =>
      intro acc hacc
      rw [List.foldl_cons]
      refine ih _ ?_
      rw [jsMapSetNat_keys]
      by_cases hb : (acc.lookup ((levels.lookup n.id).getD 0)).isSome = true
      · rw [if_pos hb]
        exact hacc
      · rw [Bool.not_eq_true] at hb
        rw [hb, if_neg Bool.false_ne_true]
        rw [List.nodup_append]
        refine ⟨hacc, by simp, ?_⟩
        intro x hx hx2
        have hx3 : x = (levels.lookup n.id).getD 0 := by simpa using hx2
        subst hx3
        obtain ⟨kv, hkv, hkveq⟩ := List.mem_map.mp hx
        have hb2 : acc.lookup ((levels.lookup n.id).getD 0) = none := by
          cases h : acc.lookup ((levels.lookup n.id).getD 0) with
          | none => rfl
          | some w =>
              rw [h] at hb
              simp at hb
        exact lookup_eq_none_forall_nat hb2 kv hkv hkveq

/-- Lookup in a key-value list built from a function. -/
theorem lookup_map_pair {α : Type} (g : Nat → α) :
    ∀ (ks : List Nat) (k : Nat),
      (ks.map (fun k2 => (k2, g k2))).lookup k =
        if k ∈ ks then some (g k) else none := by
  intro ks
  induction ks with
  | nil => intro k; simp
  | cons k2 ks ih =>
      intro k
      rw [List.map_cons, List.lookup_cons]
      by_cases hk : k = k2
      · subst hk
        rw [show (k == k) = true from beq_iff_eq.mpr rfl,
          if_pos (List.mem_cons_self k ks)]
      · rw [show (k == k2) = false from beq_eq_false_iff_ne.mpr hk, ih]
        by_cases hm : k ∈ ks
        · rw [if_pos hm, if_pos (List.mem_cons_of_mem k2 hm)]
        · rw [if_neg hm, if_neg (by
            intro hc
            rcases List.mem_cons.mp hc with h | h
            · exact hk h
            · exact hm h)]

/-- Grouping is unchanged when the level lists agree on every node id. -/
theorem levelGroupsOf_congr (levels1 levels2 : List (String × Nat)) :
    ∀ (ns : List FlowNode) (acc : List (Nat × List FlowNode)),
      (∀ n ∈ ns, (levels2.lookup n.id).getD 0 =
        (levels1.lookup n.id).getD 0) →
      ns.foldl
        (fun groups node =>
          jsMapSetNat groups ((levels2.lookup node.id).getD 0)
            (((groups.lookup ((levels2.lookup node.id).getD 0)).getD []) ++
              [node])) acc =
      ns.foldl
        (fun groups node =>
          jsMapSetNat groups ((levels1.lookup node.id).getD 0)
            (((groups.lookup ((levels1.lookup node.id).getD 0)).getD []) ++
              [node])) acc := by
  intro ns
  induction ns with
  | nil => intro acc _; rfl
  | cons n ns ih =>
      intro acc h
      rw [List.foldl_cons, List.foldl_cons]
      rw [show ((levels2.lookup n.id).getD 0) =
        ((levels1.lookup n.id).getD 0) from h n (List.mem_cons_self n ns)]
      exact ih _ (fun n2 hn2 => h n2 (List.mem_cons_of_mem n hn2))

/-- Inserting an element the comparator puts after everything appends. -/
theorem insertCmp_append {α : Type} (cmp : α → α → Int) (x : α) :
    ∀ acc : List α, (∀ y ∈ acc, cmp y x ≤ 0) →
      insertCmp cmp x acc = acc ++ [x] := by
  intro acc
  induction acc with
  | nil => intro _; rfl
  | cons y ys ih =>
      intro h
      show (if cmp y x ≤ 0 then y :: insertCmp cmp x ys else _) = _
      rw [if_pos (h y (List.mem_cons_self y ys)),
        ih (fun y2 hy2 => h y2 (List.mem_cons_of_mem y hy2))]
      rfl

/-- The stable sort leaves an already-sorted list unchanged. -/
theorem jsSortStable_eq_self_of_sorted {α : Type} (cmp : α → α → Int) :
    ∀ l : List α, l.Pairwise (fun a b => cmp a b ≤ 0) →
      jsSortStable cmp l = l := by
  have hgen : ∀ (l acc : List α),
      l.Pairwise (fun a b => cmp a b ≤ 0) →
      (∀ y ∈ acc, ∀ x ∈ l, cmp y x ≤ 0) →
      l.foldl (fun acc x => insertCmp cmp x acc) acc = acc ++ l := by
    intro l
    induction l with
    | nil => intro acc _ _; simp
    | cons x xs ih =>
        intro acc hpw hacc
        rw [List.foldl_cons]
        rw [List.pairwise_cons] at hpw
        rw [insertCmp_append cmp x acc
          (fun y hy => hacc y hy x (List.mem_cons_self x xs))]
        rw [ih (acc ++ [x]) hpw.2 ?_]
        · rw [List.append_assoc]
          rfl
        · intro y hy x2 hx2
          rcases List.mem_append.mp hy with h | h
          · exact hacc y h x2 (List.mem_cons_of_mem x hx2)
          · have hyx : y = x := by simpa using h
            subst hyx
            exact hpw.1 x2 hx2
  intro l hl
  have h := hgen l [] hl (fun y hy => absurd hy (List.not_mem_nil y))
  rw [show jsSortStable cmp l =
    l.foldl (fun acc x => insertCmp cmp x acc) [] from rfl, h]
  rfl

/-- The stable sort's output is pairwise non-positive under the
comparator, given antisymmetry and strict transitivity. -/
theorem jsSortStable_pairwise_le {α : Type} (cmp : α → α → Int)
    (hanti : ∀ a b, cmp a b = - cmp b a)
    (hstr : ∀ a b c, cmp a b < 0 → cmp b c ≤ 0 → cmp a c < 0)
    (l : List α) :
    (jsSortStable cmp l).Pairwise (fun a b => cmp a b ≤ 0) := by
  have h := jsSortStable_pairwise_lex cmp (fun _ _ => True) hanti hstr l []
    List.Pairwise.nil (pairwise_trivial l)
    (fun y hy => absurd hy (List.not_mem_nil y))
  refine List.Pairwise.imp ?_ h
  intro a b hab
  rcases hab with h1 | h1
  · exact le_of_lt h1
  · exact le_of_eq h1.1

theorem blockV_idem (o : LayoutOpts) (x : JsNum) :
    ∀ (ms : List FlowNode) (y : JsNum),
      blockV o x y (blockV o x y ms) = blockV o x y ms := by
  intro ms
  induction ms with
  | nil => intro y; rfl
  | cons n ms ih =>
      intro y
      show { n with position := ⟨x, y⟩ } ::
        blockV o x (y + o.nodeHeight + o.nodeGap)
          (blockV o x (y + o.nodeHeight + o.nodeGap) ms) =
        blockV o x y (n :: ms)
      rw [ih]
      rfl

theorem blockH_idem (o : LayoutOpts) (y : JsNum) :
    ∀ (ms : List FlowNode) (x : JsNum),
      blockH o y x (blockH o y x ms) = blockH o y x ms := by
  intro ms
  induction ms with
  | nil => intro x; rfl
  | cons n ms ih =>
      intro x
      show { n with position := ⟨x, y⟩ } ::
        blockH o y (x + o.nodeWidth + o.nodeGap)
          (blockH o y (x + o.nodeWidth + o.nodeGap) ms) =
        blockH o y x (n :: ms)
      rw [ih]
      rfl

theorem blockV_length (o : LayoutOpts) (x : JsNum) :
    ∀ (ms : List FlowNode) (y : JsNum),
      (blockV o x y ms).length = ms.length := by
  intro ms
  induction ms with
  | nil => intro y; rfl
  | cons n ms ih =>
      intro y
      show ({ n with position := ⟨x, y⟩ } :: blockV o x _ ms).length = _
      rw [List.length_cons, List.length_cons, ih]

theorem blockH_length (o : LayoutOpts) (y : JsNum) :
    ∀ (ms : List FlowNode) (x : JsNum),
      (blockH o y x ms).length = ms.length := by
  intro ms
  induction ms with
  | nil => intro x; rfl
  | cons n ms ih =>
      intro x
      show ({ n with position := ⟨x, y⟩ } :: blockH o y _ ms).length = _
      rw [List.length_cons, List.length_cons, ih]

theorem blockV_ids (o : LayoutOpts) (x : JsNum) :
    ∀ (ms : List FlowNode) (y : JsNum),
      (blockV o x y ms).map (·.id) = ms.map (·.id) := by
  intro ms
  induction ms with
  | nil => intro y; rfl
  | cons n ms ih =>
      intro y
      show ({ n with position := ⟨x, y⟩ } :: blockV o x _ ms).map (·.id) = _
      rw [List.map_cons, List.map_cons, ih]

theorem blockH_ids (o : LayoutOpts) (y : JsNum) :
    ∀ (ms : List FlowNode) (x : JsNum),
      (blockH o y x ms).map (·.id) = ms.map (·.id) := by
  intro ms
  induction ms with
  | nil => intro x; rfl
  | cons n ms ih =>
      intro x
      show ({ n with position := ⟨x, y⟩ } :: blockH o y _ ms).map (·.id) = _
      rw [List.map_cons, List.map_cons, ih]

theorem blockV_ne_nil (o : LayoutOpts) (x y : JsNum) (ms : List FlowNode)
    (h : ms ≠ []) : blockV o x y ms ≠ [] := by
  cases ms with
  | nil => exact absurd rfl h
  | cons n ms =>
      show ({ n with position := ⟨x, y⟩ } :: blockV o x _ ms) ≠ []
      simp

theorem blockH_ne_nil (o : LayoutOpts) (y x : JsNum) (ms : List FlowNode)
    (h : ms ≠ []) : blockH o y x ms ≠ [] := by
  cases ms with
  | nil => exact absurd rfl h
  | cons n ms =>
      show ({ n with position := ⟨x, y⟩ } :: blockH o y _ ms) ≠ []
      simp

theorem blockV_mem (o : LayoutOpts) (x : JsNum) :
    ∀ (ms : List FlowNode) (y : JsNum), ∀ n2 ∈ blockV o x y ms,
      ∃ m ∈ ms, ∃ p, n2 = { m with position := p } := by
  intro ms
  induction ms with
  | nil => intro y n2 h; exact absurd h (List.not_mem_nil n2)
  | cons n ms ih =>
      intro y n2 h
      have h2 : n2 ∈ { n with position := ⟨x, y⟩ } ::
          blockV o x (y + o.nodeHeight + o.nodeGap) ms := h
      rcases List.mem_cons.mp h2 with rfl | hm
      · exact ⟨n, List.mem_cons_self n ms, ⟨x, y⟩, rfl⟩
      · obtain ⟨m, hm2, p, hp⟩ := ih _ n2 hm
        exact ⟨m, List.mem_cons_of_mem n hm2, p, hp⟩

theorem blockH_mem (o : LayoutOpts) (y : JsNum) :
    ∀ (ms : List FlowNode) (x : JsNum), ∀ n2 ∈ blockH o y x ms,
      ∃ m ∈ ms, ∃ p, n2 = { m with position := p } := by
  intro ms
  induction ms with
  | nil => intro x n2 h; exact absurd h (List.not_mem_nil n2)
  | cons n ms ih =>
      intro x n2 h
      have h2 : n2 ∈ { n with position := ⟨x, y⟩ } ::
          blockH o y (x + o.nodeWidth + o.nodeGap) ms := h
      rcases List.mem_cons.mp h2 with rfl | hm
      · exact ⟨n, List.mem_cons_self n ms, ⟨x, y⟩, rfl⟩
      · obtain ⟨m, hm2, p, hp⟩ := ih _ n2 hm
        exact ⟨m, List.mem_cons_of_mem n hm2, p, hp⟩

/-- The inner fold of a `posWalkH` level emits a `blockV` column. -/
theorem posInnerH_eq (o : LayoutOpts) (X : JsNum) :
    ∀ (ms : List FlowNode) (y : JsNum) (acc : List FlowNode),
      (ms.foldl
        (fun st2 node =>
          (st2.1 + o.nodeHeight + o.nodeGap,
           st2.2 ++ [{ node with position := ⟨X, st2.1⟩ }]))
        (y, acc)).2 = acc ++ blockV o X y ms := by
  intro ms
  induction ms with
  | nil => intro y acc; simp [blockV]
  | cons n ms ih =>
      intro y acc
      rw [List.foldl_cons]
      show (ms.foldl _
        (y + o.nodeHeight + o.nodeGap,
         acc ++ [{ n with position := ⟨X, y⟩ }])).2 = _
      rw [ih, List.append_assoc]
      rfl

/-- The inner fold of a `posWalkV` level emits a `blockH` row. -/
theorem posInnerV_eq (o : LayoutOpts) (Y : JsNum) :
    ∀ (ms : List FlowNode) (x : JsNum) (acc : List FlowNode),
      (ms.foldl
        (fun st2 node =>
          (st2.1 + o.nodeWidth + o.nodeGap,
           st2.2 ++ [{ node with position := ⟨st2.1, Y⟩ }]))
        (x, acc)).2 = acc ++ blockH o Y x ms := by
  intro ms
  induction ms with
  | nil => intro x acc; simp [blockH]
  | cons n ms ih =>
      intro x acc
      rw [List.foldl_cons]
      show (ms.foldl _
        (x + o.nodeWidth + o.nodeGap,
         acc ++ [{ n with position := ⟨x, Y⟩ }])).2 = _
      rw [ih, List.append_assoc]
      rfl

/-- `posWalkH` is the concatenation of its per-level columns. -/
theorem posWalkH_eq (o : LayoutOpts) (lg : List (Nat × List FlowNode)) :
    ∀ (ks : List Nat) (x : JsNum),
      posWalkH o lg ks x = ((walkColsBlocks o lg ks x).map (·.2)).flatten := by
  have hgen : ∀ (ks : List Nat) (x : JsNum) (acc : List FlowNode),
      (ks.foldl
        (fun st level =>
          let nodesAtLevel := (lg.lookup level).getD []
          let totalHeight :=
            (nodesAtLevel.length : JsNum) * (o.nodeHeight + o.nodeGap)
          let inner :=
            nodesAtLevel.foldl
              (fun st2 node =>
                (st2.1 + o.nodeHeight + o.nodeGap,
                 st2.2 ++ [{ node with position := ⟨st.1, st2.1⟩ }]))
              (-totalHeight / 2, st.2)
          (st.1 + o.nodeWidth + o.levelGap, inner.2))
        (x, acc)).2 =
      acc ++ ((walkColsBlocks o lg ks x).map (·.2)).flatten := by
    intro ks
    induction ks with
    | nil => intro x acc; simp [walkColsBlocks]
    | cons k ks ih =>
        intro x acc
        rw [List.foldl_cons]
        show (ks.foldl _
          (x + o.nodeWidth + o.levelGap,
           (((lg.lookup k).getD []).foldl
             (fun st2 node =>
               (st2.1 + o.nodeHeight + o.nodeGap,
                st2.2 ++ [{ node with position := ⟨x, st2.1⟩ }]))
             (-((((lg.lookup k).getD []).length : JsNum) *
               (o.nodeHeight + o.nodeGap)) / 2, acc)).2)).2 = _
        rw [posInnerH_eq o x ((lg.lookup k).getD [])]
        rw [ih]
        rw [show walkColsBlocks o lg (k :: ks) x =
          (k, blockV o x
            (-((((lg.lookup k).getD []).length : JsNum) *
              (o.nodeHeight + o.nodeGap)) / 2) ((lg.lookup k).getD [])) ::
            walkColsBlocks o lg ks (x + o.nodeWidth + o.levelGap) from rfl]
        rw [List.map_cons, List.flatten_cons, List.append_assoc]
  intro ks x
  show (ks.foldl _ (x, ([] : List FlowNode))).2 = _
  rw [hgen ks x []]
  rfl

/-- `posWalkV` is the concatenation of its per-level rows. -/
theorem posWalkV_eq (o : LayoutOpts) (lg : List (Nat × List FlowNode)) :
    ∀ (ks : List Nat) (y : JsNum),
      posWalkV o lg ks y = ((walkRowsBlocks o lg ks y).map (·.2)).flatten := by
  have hgen : ∀ (ks : List Nat) (y : JsNum) (acc : List FlowNode),
      (ks.foldl
        (fun st level =>
          let nodesAtLevel := (lg.lookup level).getD []
          let totalWidth :=
            (nodesAtLevel.length : JsNum) * (o.nodeWidth + o.nodeGap)
          let inner :=
            nodesAtLevel.foldl
              (fun st2 node =>
                (st2.1 + o.nodeWidth + o.nodeGap,
                 st2.2 ++ [{ node with position := ⟨st2.1, st.1⟩ }]))
              (-totalWidth / 2, st.2)
          (st.1 + o.nodeHeight + o.levelGap, inner.2))
        (y, acc)).2 =
      acc ++ ((walkRowsBlocks o lg ks y).map (·.2)).flatten := by
    intro ks
    induction ks with
    | nil => intro y acc; simp [walkRowsBlocks]
    | cons k ks ih =>
        intro y acc
        rw [List.foldl_cons]
        show (ks.foldl _
          (y + o.nodeHeight + o.levelGap,
           (((lg.lookup k).getD []).foldl
             (fun st2 node =>
               (st2.1 + o.nodeWidth + o.nodeGap,
                st2.2 ++ [{ node with position := ⟨st2.1, y⟩ }]))
             (-((((lg.lookup k).getD []).length : JsNum) *
               (o.nodeWidth + o.nodeGap)) / 2, acc)).2)).2 = _
        rw [posInnerV_eq o y ((lg.lookup k).getD [])]
        rw [ih]
        rw [show walkRowsBlocks o lg (k :: ks) y =
          (k, blockH o y
            (-((((lg.lookup k).getD []).length : JsNum) *
              (o.nodeWidth + o.nodeGap)) / 2) ((lg.lookup k).getD [])) ::
            walkRowsBlocks o lg ks (y + o.nodeHeight + o.levelGap) from rfl]
        rw [List.map_cons, List.flatten_cons, List.append_assoc]
  intro ks y
  show (ks.foldl _ (y, ([] : List FlowNode))).2 = _
  rw [hgen ks y []]
  rfl

theorem walkColsBlocks_keys (o : LayoutOpts)
    (lg : List (Nat × List FlowNode)) :
    ∀ (ks : List Nat) (x : JsNum),
      (walkColsBlocks o lg ks x).map (·.1) = ks := by
  intro ks
  induction ks with
  | nil => intro x; rfl
  | cons k ks ih =>
      intro x
      show (k :: _ : List Nat) = _
      rw [ih]

theorem walkRowsBlocks_keys (o : LayoutOpts)
    (lg : List (Nat × List FlowNode)) :
    ∀ (ks : List Nat) (y : JsNum),
      (walkRowsBlocks o lg ks y).map (·.1) = ks := by
  intro ks
  induction ks with
  | nil => intro y; rfl
  | cons k ks ih =>
      intro y
      show (k :: _ : List Nat) = _
      rw [ih]

theorem walkColsBlocks_congr (o : LayoutOpts)
    (lg1 lg2 : List (Nat × List FlowNode)) :
    ∀ (ks : List Nat) (x : JsNum),
      (∀ k ∈ ks, lg1.lookup k = lg2.lookup k) →
      walkColsBlocks o lg1 ks x = walkColsBlocks o lg2 ks x := by
  intro ks
  induction ks with
  | nil => intro x _; rfl
  | cons k ks ih =>
      intro x h
      show (k, blockV o x _ ((lg1.lookup k).getD [])) :: _ = _
      rw [h k (List.mem_cons_self k ks),
        ih _ (fun k2 hk2 => h k2 (List.mem_cons_of_mem k hk2))]
      rfl

theorem walkRowsBlocks_congr (o : LayoutOpts)
    (lg1 lg2 : List (Nat × List FlowNode)) :
    ∀ (ks : List Nat) (y : JsNum),
      (∀ k ∈ ks, lg1.lookup k = lg2.lookup k) →
      walkRowsBlocks o lg1 ks y = walkRowsBlocks o lg2 ks y := by
  intro ks
  induction ks with
  | nil => intro y _; rfl
  | cons k ks ih =>
      intro y h
      show (k, blockH o y _ ((lg1.lookup k).getD [])) :: _ = _
      rw [h k (List.mem_cons_self k ks),
        ih _ (fun k2 hk2 => h k2 (List.mem_cons_of_mem k hk2))]
      rfl

/-- Re-walking the emitted columns from the same start reproduces them. -/
theorem walkColsBlocks_idem (o : LayoutOpts)
    (lg : List (Nat × List FlowNode)) :
    ∀ (ks : List Nat) (x : JsNum), ks.Nodup →
      walkColsBlocks o (walkColsBlocks o lg ks x) ks x =
        walkColsBlocks o lg ks x := by
  intro ks
  induction ks with
  | nil => intro x _; rfl
  | cons k ks ih =>
      intro x hnd
      rw [List.nodup_cons] at hnd
      have hlook : (walkColsBlocks o lg (k :: ks) x).lookup k =
          some (blockV o x
            (-((((lg.lookup k).getD []).length : JsNum) *
              (o.nodeHeight + o.nodeGap)) / 2) ((lg.lookup k).getD [])) := by
        show ((k, _) :: _ : List (Nat × List FlowNode)).lookup k = _
        rw [List.lookup_cons, show (k == k) = true from beq_iff_eq.mpr rfl]
      show (k, blockV o x
        (-((((walkColsBlocks o lg (k :: ks) x).lookup k).getD []).length *
          (o.nodeHeight + o.nodeGap)) / 2)
        (((walkColsBlocks o lg (k :: ks) x).lookup k).getD [])) ::
        walkColsBlocks o (walkColsBlocks o lg (k :: ks) x) ks
          (x + o.nodeWidth + o.levelGap) = _
      rw [hlook]
      rw [show ((some (blockV o x
          (-((((lg.lookup k).getD []).length : JsNum) *
            (o.nodeHeight + o.nodeGap)) / 2)
          ((lg.lookup k).getD []))).getD []) =
        blockV o x
          (-((((lg.lookup k).getD []).length : JsNum) *
            (o.nodeHeight + o.nodeGap)) / 2)
          ((lg.lookup k).getD []) from rfl]
      rw [blockV_length o x ((lg.lookup k).getD [])]
      rw [blockV_idem o x ((lg.lookup k).getD [])]
      rw [walkColsBlocks_congr o (walkColsBlocks o lg (k :: ks) x)
        (walkColsBlocks o lg ks (x + o.nodeWidth + o.levelGap)) ks
        (x + o.nodeWidth + o.levelGap) ?_]
      · rw [ih _ hnd.2]
        rfl
      · intro k2 hk2
        show ((k, _) :: walkColsBlocks o lg ks
          (x + o.nodeWidth + o.levelGap)).lookup k2 = _
        rw [List.lookup_cons, show (k2 == k) = false from
          beq_eq_false_iff_ne.mpr (fun hc => hnd.1 (hc ▸ hk2))]

/-- Re-walking the emitted rows from the same start reproduces them. -/
theorem walkRowsBlocks_idem (o : LayoutOpts)
    (lg : List (Nat × List FlowNode)) :
    ∀ (ks : List Nat) (y : JsNum), ks.Nodup →
      walkRowsBlocks o (walkRowsBlocks o lg ks y) ks y =
        walkRowsBlocks o lg ks y := by
  intro ks
  induction ks with
  | nil => intro y _; rfl
  | cons k ks ih =>
      intro y hnd
      rw [List.nodup_cons] at hnd
      have hlook : (walkRowsBlocks o lg (k :: ks) y).lookup k =
          some (blockH o y
            (-((((lg.lookup k).getD []).length : JsNum) *
              (o.nodeWidth + o.nodeGap)) / 2) ((lg.lookup k).getD [])) := by
        show ((k, _) :: _ : List (Nat × List FlowNode)).lookup k = _
        rw [List.lookup_cons, show (k == k) = true from beq_iff_eq.mpr rfl]
      show (k, blockH o y
        (-((((walkRowsBlocks o lg (k :: ks) y).lookup k).getD []).length *
          (o.nodeWidth + o.nodeGap)) / 2)
        (((walkRowsBlocks o lg (k :: ks) y).lookup k).getD [])) ::
        walkRowsBlocks o (walkRowsBlocks o lg (k :: ks) y) ks
          (y + o.nodeHeight + o.levelGap) = _
      rw [hlook]
      rw [show ((some (blockH o y
          (-((((lg.lookup k).getD []).length : JsNum) *
            (o.nodeWidth + o.nodeGap)) / 2)
          ((lg.lookup k).getD []))).getD []) =
        blockH o y
          (-((((lg.lookup k).getD []).length : JsNum) *
            (o.nodeWidth + o.nodeGap)) / 2)
          ((lg.lookup k).getD []) from rfl]
      rw [blockH_length o y ((lg.lookup k).getD [])]
      rw [blockH_idem o y ((lg.lookup k).getD [])]
      rw [walkRowsBlocks_congr o (walkRowsBlocks o lg (k :: ks) y)
        (walkRowsBlocks o lg ks (y + o.nodeHeight + o.levelGap)) ks
        (y + o.nodeHeight + o.levelGap) ?_]
      · rw [ih _ hnd.2]
        rfl
      · intro k2 hk2
        show ((k, _) :: walkRowsBlocks o lg ks
          (y + o.nodeHeight + o.levelGap)).lookup k2 = _
        rw [List.lookup_cons, show (k2 == k) = false from
          beq_eq_false_iff_ne.mpr (fun hc => hnd.1 (hc ▸ hk2))]

/-- With distinct keys, every binding is found by lookup (`Nat` keys). -/
theorem lookup_of_mem_nodup_nat {α : Type} :
    ∀ (m : List (Nat × α)), ((m.map (·.1)).Nodup) →
      ∀ kv ∈ m, m.lookup kv.1 = some kv.2 := by
  intro m
  induction m with
  | nil => intro _ kv hkv; exact absurd hkv (List.not_mem_nil kv)
  | cons a rest ih =>
      intro hnd kv hkv
      rw [List.map_cons, List.nodup_cons] at hnd
      rcases List.mem_cons.mp hkv with rfl | hm
      · rw [List.lookup_cons, show (kv.1 == kv.1) = true from
          beq_iff_eq.mpr rfl]
      · rw [List.lookup_cons, show (kv.1 == a.1) = false from
          beq_eq_false_iff_ne.mpr (fun hc =>
            hnd.1 (hc ▸ List.mem_map_of_mem (·.1) hm))]
        exact ih hnd.2 kv hm

/-- Every emitted column is a `blockV` of its own level's group. -/
theorem walkColsBlocks_mem (o : LayoutOpts)
    (lg : List (Nat × List FlowNode)) :
    ∀ (ks : List Nat) (x : JsNum), ∀ kv ∈ walkColsBlocks o lg ks x,
      kv.1 ∈ ks ∧ ∃ x2 y2, kv.2 = blockV o x2 y2 ((lg.lookup kv.1).getD []) := by
  intro ks
  induction ks with
  | nil => intro x kv hkv; exact absurd hkv (List.not_mem_nil kv)
  | cons k ks ih =>
      intro x kv hkv
      have hkv2 : kv ∈ (k, blockV o x
          (-((((lg.lookup k).getD []).length : JsNum) *
            (o.nodeHeight + o.nodeGap)) / 2) ((lg.lookup k).getD [])) ::
          walkColsBlocks o lg ks (x + o.nodeWidth + o.levelGap) := hkv
      rcases List.mem_cons.mp hkv2 with rfl | hm
      · exact ⟨List.mem_cons_self _ ks, x,
          -((((lg.lookup k).getD []).length : JsNum) *
            (o.nodeHeight + o.nodeGap)) / 2, rfl⟩
      · obtain ⟨h1, h2⟩ := ih _ kv hm
        exact ⟨List.mem_cons_of_mem k h1, h2⟩

/-- Every emitted row is a `blockH` of its own level's group. -/
theorem walkRowsBlocks_mem (o : LayoutOpts)
    (lg : List (Nat × List FlowNode)) :
    ∀ (ks : List Nat) (y : JsNum), ∀ kv ∈ walkRowsBlocks o lg ks y,
      kv.1 ∈ ks ∧ ∃ y2 x2, kv.2 = blockH o y2 x2 ((lg.lookup kv.1).getD []) := by
  intro ks
  induction ks with
  | nil => intro y kv hkv; exact absurd hkv (List.not_mem_nil kv)
  | cons k ks ih =>
      intro y kv hkv
      have hkv2 : kv ∈ (k, blockH o y
          (-((((lg.lookup k).getD []).length : JsNum) *
            (o.nodeWidth + o.nodeGap)) / 2) ((lg.lookup k).getD [])) ::
          walkRowsBlocks o lg ks (y + o.nodeHeight + o.levelGap) := hkv
      rcases List.mem_cons.mp hkv2 with rfl | hm
      · exact ⟨List.mem_cons_self _ ks, y,
          -((((lg.lookup k).getD []).length : JsNum) *
            (o.nodeWidth + o.nodeGap)) / 2, rfl⟩
      · obtain ⟨h1, h2⟩ := ih _ kv hm
        exact ⟨List.mem_cons_of_mem k h1, h2⟩

/-- Grouping a concatenation of non-empty uniform-level blocks with
distinct levels recovers exactly the block association list. -/
theorem grp_of_blocks (levels : List (String × Nat)) :
    ∀ (bs : List (Nat × List FlowNode)) (acc : List (Nat × List FlowNode)),
      ((bs.map (·.1)).Nodup) →
      (∀ kv ∈ bs, kv.2 ≠ [] ∧
        ∀ n ∈ kv.2, (levels.lookup n.id).getD 0 = kv.1) →
      (∀ kv ∈ bs, acc.lookup kv.1 = none) →
      ((bs.map (·.2)).flatten).foldl
        (fun groups node =>
          jsMapSetNat groups ((levels.lookup node.id).getD 0)
            (((groups.lookup ((levels.lookup node.id).getD 0)).getD []) ++
              [node])) acc =
        acc ++ bs := by
  intro bs
  induction bs with
  | nil => intro acc _ _ _; simp
  | cons kv bs ih =>
      intro acc hnd hblocks hacc
      rw [List.map_cons, List.flatten_cons, List.foldl_append]
      rw [grpFold_block levels kv.2 kv.1 acc
        (hblocks kv (List.mem_cons_self kv bs)).1
        (hblocks kv (List.mem_cons_self kv bs)).2]
      rw [hacc kv (List.mem_cons_self kv bs)]
      rw [show ((none : Option (List FlowNode)).getD []) = [] from rfl]
      rw [show ([] : List FlowNode) ++ kv.2 = kv.2 from by simp]
      rw [jsMapSetNat_absent acc kv.1 kv.2
        (hacc kv (List.mem_cons_self kv bs))]
      rw [List.map_cons, List.nodup_cons] at hnd
      rw [ih (acc ++ [(kv.1, kv.2)]) hnd.2
        (fun kv2 h2 => hblocks kv2 (List.mem_cons_of_mem kv h2)) ?_]
      · rw [List.append_assoc]
        rfl
      · intro kv2 hkv2
        rw [lookup_append_nat, hacc kv2 (List.mem_cons_of_mem kv hkv2)]
        rw [show ([(kv.1, kv.2)].lookup kv2.1) = none from by
          rw [List.lookup_cons, show (kv2.1 == kv.1) = false from
            beq_eq_false_iff_ne.mpr (fun hc =>
              hnd.1 (hc ▸ List.mem_map_of_mem (·.1) hkv2))]
          rfl]
        rfl

/-- Regrouping the emitted columns recovers the block association list. -/
theorem walkCols_regroup (o : LayoutOpts) (levels : List (String × Nat))
    (lg : List (Nat × List FlowNode)) (sorted : List Nat) (x0 : JsNum)
    (hnd : sorted.Nodup)
    (hg : ∀ k ∈ sorted, (lg.lookup k).getD [] ≠ [] ∧
      ∀ n ∈ (lg.lookup k).getD [], (levels.lookup n.id).getD 0 = k) :
    levelGroupsOf levels
        (((walkColsBlocks o lg sorted x0).map (·.2)).flatten) =
      walkColsBlocks o lg sorted x0 := by
  have h := grp_of_blocks levels (walkColsBlocks o lg sorted x0) [] ?_ ?_
    (fun kv _ => rfl)
  · exact Eq.trans h (by simp)
  · rw [walkColsBlocks_keys]
    exact hnd
  · intro kv hkv
    obtain ⟨hks, x2, y2, hval⟩ := walkColsBlocks_mem o lg sorted x0 kv hkv
    constructor
    · rw [hval]
      exact blockV_ne_nil o x2 y2 _ (hg kv.1 hks).1
    · intro n hn
      rw [hval] at hn
      obtain ⟨m, hm, p, hp⟩ := blockV_mem o x2 _ _ n hn
      subst hp
      show (levels.lookup m.id).getD 0 = kv.1
      exact (hg kv.1 hks).2 m hm

/-- Regrouping the emitted rows recovers the block association list. -/
theorem walkRows_regroup (o : LayoutOpts) (levels : List (String × Nat))
    (lg : List (Nat × List FlowNode)) (sorted : List Nat) (y0 : JsNum)
    (hnd : sorted.Nodup)
    (hg : ∀ k ∈ sorted, (lg.lookup k).getD [] ≠ [] ∧
      ∀ n ∈ (lg.lookup k).getD [], (levels.lookup n.id).getD 0 = k) :
    levelGroupsOf levels
        (((walkRowsBlocks o lg sorted y0).map (·.2)).flatten) =
      walkRowsBlocks o lg sorted y0 := by
  have h := grp_of_blocks levels (walkRowsBlocks o lg sorted y0) [] ?_ ?_
    (fun kv _ => rfl)
  · exact Eq.trans h (by simp)
  · rw [walkRowsBlocks_keys]
    exact hnd
  · intro kv hkv
    obtain ⟨hks, y2, x2, hval⟩ := walkRowsBlocks_mem o lg sorted y0 kv hkv
    constructor
    · rw [hval]
      exact blockH_ne_nil o y2 x2 _ (hg kv.1 hks).1
    · intro n hn
      rw [hval] at hn
      obtain ⟨m, hm, p, hp⟩ := blockH_mem o y2 _ _ n hn
      subst hp
      show (levels.lookup m.id).getD 0 = kv.1
      exact (hg kv.1 hks).2 m hm

/-- Laying out the emitted columns again (same comparator, same start)
reproduces them. -/
theorem positionCols_idem (o : LayoutOpts)
    (levels levels2 : List (String × Nat)) (ns : List FlowNode)
    (cmp : Nat → Nat → Int)
    (hanti : ∀ a b, cmp a b = - cmp b a)
    (hstr : ∀ a b c, cmp a b < 0 → cmp b c ≤ 0 → cmp a c < 0)
    (x0 : JsNum)
    (hcongr : ∀ n ∈ posWalkH o (levelGroupsOf levels ns)
        (jsSortStable cmp ((levelGroupsOf levels ns).map (·.1))) x0,
      (levels2.lookup n.id).getD 0 = (levels.lookup n.id).getD 0) :
    posWalkH o
      (levelGroupsOf levels2
        (posWalkH o (levelGroupsOf levels ns)
          (jsSortStable cmp ((levelGroupsOf levels ns).map (·.1))) x0))
      (jsSortStable cmp
        ((levelGroupsOf levels2
          (posWalkH o (levelGroupsOf levels ns)
            (jsSortStable cmp
              ((levelGroupsOf levels ns).map (·.1))) x0)).map (·.1)))
      x0 =
    posWalkH o (levelGroupsOf levels ns)
      (jsSortStable cmp ((levelGroupsOf levels ns).map (·.1))) x0 := by
  have hkeysNodup : (((levelGroupsOf levels ns).map (·.1))).Nodup :=
    grp_keys_nodup levels ns [] (by simp)
  have hperm := jsSortStable_perm cmp ((levelGroupsOf levels ns).map (·.1))
  have hsortedNodup :
      (jsSortStable cmp ((levelGroupsOf levels ns).map (·.1))).Nodup :=
    hperm.nodup_iff.mpr hkeysNodup
  have hg : ∀ k ∈ jsSortStable cmp ((levelGroupsOf levels ns).map (·.1)),
      ((levelGroupsOf levels ns).lookup k).getD [] ≠ [] ∧
      ∀ n ∈ ((levelGroupsOf levels ns).lookup k).getD [],
        (levels.lookup n.id).getD 0 = k := by
    intro k hk
    have hk2 : k ∈ (levelGroupsOf levels ns).map (·.1) :=
      hperm.mem_iff.mp hk
    obtain ⟨kv, hkv, hkveq⟩ := List.mem_map.mp hk2
    have hlook : (levelGroupsOf levels ns).lookup k = some kv.2 := by
      rw [← hkveq]
      exact lookup_of_mem_nodup_nat (levelGroupsOf levels ns) hkeysNodup
        kv hkv
    rw [hlook]
    constructor
    · exact grp_nonempty levels ns []
        (fun kv2 h => absurd h (List.not_mem_nil kv2)) kv hkv
    · intro n hn
      have h2 := grp_member_level levels ns []
        (fun kv2 h => absurd h (List.not_mem_nil kv2)) kv hkv n hn
      exact h2.trans hkveq
  have hout := posWalkH_eq o (levelGroupsOf levels ns)
    (jsSortStable cmp ((levelGroupsOf levels ns).map (·.1))) x0
  rw [hout] at hcongr ⊢
  have hgrpcongr : levelGroupsOf levels2
      (((walkColsBlocks o (levelGroupsOf levels ns)
        (jsSortStable cmp ((levelGroupsOf levels ns).map (·.1)))
        x0).map (·.2)).flatten) =
      levelGroupsOf levels
        (((walkColsBlocks o (levelGroupsOf levels ns)
          (jsSortStable cmp ((levelGroupsOf levels ns).map (·.1)))
          x0).map (·.2)).flatten) :=
    levelGroupsOf_congr levels levels2 _ [] hcongr
  rw [hgrpcongr]
  rw [walkCols_regroup o levels (levelGroupsOf levels ns)
    (jsSortStable cmp ((levelGroupsOf levels ns).map (·.1))) x0
    hsortedNodup hg]
  rw [walkColsBlocks_keys]
  rw [jsSortStable_eq_self_of_sorted cmp
    (jsSortStable cmp ((levelGroupsOf levels ns).map (·.1)))
    (jsSortStable_pairwise_le cmp hanti hstr _)]
  rw [posWalkH_eq o (walkColsBlocks o (levelGroupsOf levels ns)
    (jsSortStable cmp ((levelGroupsOf levels ns).map (·.1))) x0)
    (jsSortStable cmp ((levelGroupsOf levels ns).map (·.1))) x0]
  rw [walkColsBlocks_idem o (levelGroupsOf levels ns)
    (jsSortStable cmp ((levelGroupsOf levels ns).map (·.1))) x0
    hsortedNodup]

/-- Laying out the emitted rows again reproduces them. -/
theorem positionRows_idem (o : LayoutOpts)
    (levels levels2 : List (String × Nat)) (ns : List FlowNode)
    (cmp : Nat → Nat → Int)
    (hanti : ∀ a b, cmp a b = - cmp b a)
    (hstr : ∀ a b c, cmp a b < 0 → cmp b c ≤ 0 → cmp a c < 0)
    (y0 : JsNum)
    (hcongr : ∀ n ∈ posWalkV o (levelGroupsOf levels ns)
        (jsSortStable cmp ((levelGroupsOf levels ns).map (·.1))) y0,
      (levels2.lookup n.id).getD 0 = (levels.lookup n.id).getD 0) :
    posWalkV o
      (levelGroupsOf levels2
        (posWalkV o (levelGroupsOf levels ns)
          (jsSortStable cmp ((levelGroupsOf levels ns).map (·.1))) y0))
      (jsSortStable cmp
        ((levelGroupsOf levels2
          (posWalkV o (levelGroupsOf levels ns)
            (jsSortStable cmp
              ((levelGroupsOf levels ns).map (·.1))) y0)).map (·.1)))
      y0 =
    posWalkV o (levelGroupsOf levels ns)
      (jsSortStable cmp ((levelGroupsOf levels ns).map (·.1))) y0 := by
  have hkeysNodup : (((levelGroupsOf levels ns).map (·.1))).Nodup :=
    grp_keys_nodup levels ns [] (by simp)
  have hperm := jsSortStable_perm cmp ((levelGroupsOf levels ns).map (·.1))
  have hsortedNodup :
      (jsSortStable cmp ((levelGroupsOf levels ns).map (·.1))).Nodup :=
    hperm.nodup_iff.mpr hkeysNodup
  have hg : ∀ k ∈ jsSortStable cmp ((levelGroupsOf levels ns).map (·.1)),
      ((levelGroupsOf levels ns).lookup k).getD [] ≠ [] ∧
      ∀ n ∈ ((levelGroupsOf levels ns).lookup k).getD [],
        (levels.lookup n.id).getD 0 = k := by
    intro k hk
    have hk2 : k ∈ (levelGroupsOf levels ns).map (·.1) :=
      hperm.mem_iff.mp hk
    obtain ⟨kv, hkv, hkveq⟩ := List.mem_map.mp hk2
    have hlook : (levelGroupsOf levels ns).lookup k = some kv.2 := by
      rw [← hkveq]
      exact lookup_of_mem_nodup_nat (levelGroupsOf levels ns) hkeysNodup
        kv hkv
    rw [hlook]
    constructor
    · exact grp_nonempty levels ns []
        (fun kv2 h => absurd h (List.not_mem_nil kv2)) kv hkv
    · intro n hn
      have h2 := grp_member_level levels ns []
        (fun kv2 h => absurd h (List.not_mem_nil kv2)) kv hkv n hn
      exact h2.trans hkveq
  have hout := posWalkV_eq o (levelGroupsOf levels ns)
    (jsSortStable cmp ((levelGroupsOf levels ns).map (·.1))) y0
  rw [hout] at hcongr ⊢
  have hgrpcongr : levelGroupsOf levels2
      (((walkRowsBlocks o (levelGroupsOf levels ns)
        (jsSortStable cmp ((levelGroupsOf levels ns).map (·.1)))
        y0).map (·.2)).flatten) =
      levelGroupsOf levels
        (((walkRowsBlocks o (levelGroupsOf levels ns)
          (jsSortStable cmp ((levelGroupsOf levels ns).map (·.1)))
          y0).map (·.2)).flatten) :=
    levelGroupsOf_congr levels levels2 _ [] hcongr
  rw [hgrpcongr]
  rw [walkRows_regroup o levels (levelGroupsOf levels ns)
    (jsSortStable cmp ((levelGroupsOf levels ns).map (·.1))) y0
    hsortedNodup hg]
  rw [walkRowsBlocks_keys]
  rw [jsSortStable_eq_self_of_sorted cmp
    (jsSortStable cmp ((levelGroupsOf levels ns).map (·.1)))
    (jsSortStable_pairwise_le cmp hanti hstr _)]
  rw [posWalkV_eq o (walkRowsBlocks o (levelGroupsOf levels ns)
    (jsSortStable cmp ((levelGroupsOf levels ns).map (·.1))) y0)
    (jsSortStable cmp ((levelGroupsOf levels ns).map (·.1))) y0]
  rw [walkRowsBlocks_idem o (levelGroupsOf levels ns)
    (jsSortStable cmp ((levelGroupsOf levels ns).map (·.1))) y0
    hsortedNodup]

/-- `positionNodes` is idempotent once the level lookups agree on the
repositioned nodes. -/
theorem positionNodes_idem (o : LayoutOpts) (ns : List FlowNode)
    (levels levels2 : List (String × Nat)) (dir : Dir)
    (hcongr : ∀ n ∈ positionNodes o ns levels dir,
      (levels2.lookup n.id).getD 0 = (levels.lookup n.id).getD 0) :
    positionNodes o (positionNodes o ns levels dir) levels2 dir =
      positionNodes o ns levels dir := by
  cases dir with
  | LR =>
      exact positionCols_idem o levels levels2 ns
        (fun a b => (a : Int) - b)
        (fun a b => by show (a : Int) - b = -((b : Int) - a); omega)
        (fun a b c h1 h2 => by
          have h1b : (a : Int) - b < 0 := h1
          have h2b : (b : Int) - c ≤ 0 := h2
          show (a : Int) - c < 0
          omega) 0 hcongr
  | RL =>
      exact positionCols_idem o levels levels2 ns
        (fun a b => (b : Int) - a)
        (fun a b => by show (b : Int) - a = -((a : Int) - b); omega)
        (fun a b c h1 h2 => by
          have h1b : (b : Int) - a < 0 := h1
          have h2b : (c : Int) - b ≤ 0 := h2
          show (c : Int) - a < 0
          omega) (-1000) hcongr
  | TB =>
      exact positionRows_idem o levels levels2 ns
        (fun a b => (a : Int) - b)
        (fun a b => by show (a : Int) - b = -((b : Int) - a); omega)
        (fun a b c h1 h2 => by
          have h1b : (a : Int) - b < 0 := h1
          have h2b : (b : Int) - c ≤ 0 := h2
          show (a : Int) - c < 0
          omega) 0 hcongr
  | BT =>
      exact positionRows_idem o levels levels2 ns
        (fun a b => (b : Int) - a)
        (fun a b => by show (b : Int) - a = -((a : Int) - b); omega)
        (fun a b c h1 h2 => by
          have h1b : (b : Int) - a < 0 := h1
          have h2b : (c : Int) - b ≤ 0 := h2
          show (c : Int) - a < 0
          omega) (-1000) hcongr

/-- Every node of every group of the level grouping comes from the input
list (given that the accumulator's members already do). -/
theorem grp_member_mem (levels : List (String × Nat)) :
    ∀ (ns L : List FlowNode) (acc : List (Nat × List FlowNode)),
      (∀ kv ∈ acc, ∀ n ∈ kv.2, n ∈ L) → (∀ n ∈ ns, n ∈ L) →
      ∀ kv ∈ ns.foldl
        (fun groups node =>
          jsMapSetNat groups ((levels.lookup node.id).getD 0)
            (((groups.lookup ((levels.lookup node.id).getD 0)).getD []) ++
              [node])) acc,
        ∀ n ∈ kv.2, n ∈ L := by
  intro ns
  induction ns with
  | nil => intro L acc hacc _; exact hacc
  | cons n ns ih =>
      intro L acc hacc hns
      rw [List.foldl_cons]
      refine ih L _ ?_ (fun a ha => hns a (List.mem_cons_of_mem n ha))
      intro kv hkv n2 hn2
      rcases jsMapSetNat_mem acc ((levels.lookup n.id).getD 0) _ kv hkv
        with rfl | hm
      · rcases List.mem_append.mp hn2 with h1 | h1
        · cases hlook : acc.lookup ((levels.lookup n.id).getD 0) with
          | none =>
              rw [hlook] at h1
              exact absurd h1 (by simp)
          | some w =>
              rw [hlook] at h1
              exact hacc _ (mem_of_lookup_eq_some_nat hlook) n2 h1
        · have hn3 : n2 = n := by simpa using h1
          subst hn3
          exact hns n2 (List.mem_cons_self n2 ns)
      · exact hacc kv hm n2 hn2

/-- The flattened ids of the emitted columns are the per-key group ids. -/
theorem walkColsBlocks_values_ids (o : LayoutOpts)
    (lg : List (Nat × List FlowNode)) :
    ∀ (ks : List Nat) (x : JsNum),
      (((walkColsBlocks o lg ks x).map (·.2)).flatten).map (·.id) =
        (ks.map (fun k => (((lg.lookup k).getD []).map (·.id)))).flatten := by
  intro ks
  induction ks with
  | nil => intro x; rfl
  | cons k ks ih =>
      intro x
      simp only [walkColsBlocks, List.map_cons, List.flatten_cons,
        List.map_append, blockV_ids, ih]

/-- The flattened ids of the emitted rows are the per-key group ids. -/
theorem walkRowsBlocks_values_ids (o : LayoutOpts)
    (lg : List (Nat × List FlowNode)) :
    ∀ (ks : List Nat) (y : JsNum),
      (((walkRowsBlocks o lg ks y).map (·.2)).flatten).map (·.id) =
        (ks.map (fun k => (((lg.lookup k).getD []).map (·.id)))).flatten := by
  intro ks
  induction ks with
  | nil => intro y; rfl
  | cons k ks ih =>
      intro y
      simp only [walkRowsBlocks, List.map_cons, List.flatten_cons,
        List.map_append, blockH_ids, ih]

/-- Mapping the group-of lookup over the grouping's own keys gives the
grouping's values (keys are distinct, so the lookup recovers each value). -/
theorem grp_keys_values_ids (levels : List (String × Nat))
    (ns : List FlowNode) :
    ((levelGroupsOf levels ns).map (·.1)).map
        (fun k => (((levelGroupsOf levels ns).lookup k).getD []).map (·.id)) =
      ((levelGroupsOf levels ns).map (·.2)).map (List.map (·.id)) := by
  rw [List.map_map, List.map_map]
  refine List.map_congr_left ?_
  intro kv hkv
  show (((levelGroupsOf levels ns).lookup kv.1).getD []).map (·.id) =
    kv.2.map (·.id)
  rw [lookup_of_mem_nodup_nat (levelGroupsOf levels ns)
    (grp_keys_nodup levels ns [] (by simp)) kv hkv]
  rfl

/-- The horizontal walk emits exactly the input nodes' ids (as a
permutation), whenever the walked key list is a permutation of the
grouping's keys. -/
theorem posWalkH_ids_perm (o : LayoutOpts) (levels : List (String × Nat))
    (ns : List FlowNode) (sorted : List Nat) (x0 : JsNum)
    (hperm : List.Perm sorted ((levelGroupsOf levels ns).map (·.1))) :
    List.Perm
      ((posWalkH o (levelGroupsOf levels ns) sorted x0).map (·.id))
      (ns.map (·.id)) := by
  rw [posWalkH_eq, walkColsBlocks_values_ids]
  refine List.Perm.trans (List.Perm.flatten (hperm.map _)) ?_
  rw [grp_keys_values_ids, ← List.map_flatten]
  exact (show List.Perm
    (((levelGroupsOf levels ns).map (·.2)).flatten) ns from
    grp_flatten_perm levels ns []).map (·.id)

/-- The vertical walk emits exactly the input nodes' ids (as a
permutation), whenever the walked key list is a permutation of the
grouping's keys. -/
theorem posWalkV_ids_perm (o : LayoutOpts) (levels : List (String × Nat))
    (ns : List FlowNode) (sorted : List Nat) (y0 : JsNum)
    (hperm : List.Perm sorted ((levelGroupsOf levels ns).map (·.1))) :
    List.Perm
      ((posWalkV o (levelGroupsOf levels ns) sorted y0).map (·.id))
      (ns.map (·.id)) := by
  rw [posWalkV_eq, walkRowsBlocks_values_ids]
  refine List.Perm.trans (List.Perm.flatten (hperm.map _)) ?_
  rw [grp_keys_values_ids, ← List.map_flatten]
  exact (show List.Perm
    (((levelGroupsOf levels ns).map (·.2)).flatten) ns from
    grp_flatten_perm levels ns []).map (·.id)

/-- `positionNodes` emits exactly the input nodes' ids, as a permutation. -/
theorem positionNodes_ids_perm (o : LayoutOpts) (ns : List FlowNode)
    (levels : List (String × Nat)) (dir : Dir) :
    List.Perm ((positionNodes o ns levels dir).map (·.id))
      (ns.map (·.id)) := by
  cases dir with
  | LR =>
      exact posWalkH_ids_perm o levels ns
        (jsSortStable (fun a b => (a : Int) - b)
          ((levelGroupsOf levels ns).map (·.1))) 0
        (jsSortStable_perm _ _)
  | RL =>
      exact posWalkH_ids_perm o levels ns
        (jsSortStable (fun a b => (b : Int) - a)
          ((levelGroupsOf levels ns).map (·.1))) (-1000)
        (jsSortStable_perm _ _)
  | TB =>
      exact posWalkV_ids_perm o levels ns
        (jsSortStable (fun a b => (a : Int) - b)
          ((levelGroupsOf levels ns).map (·.1))) 0
        (jsSortStable_perm _ _)
  | BT =>
      exact posWalkV_ids_perm o levels ns
        (jsSortStable (fun a b => (b : Int) - a)
          ((levelGroupsOf levels ns).map (·.1))) (-1000)
        (jsSortStable_perm _ _)

/-- `positionNodes` preserves the node count. -/
theorem positionNodes_length (o : LayoutOpts) (ns : List FlowNode)
    (levels : List (String × Nat)) (dir : Dir) :
    (positionNodes o ns levels dir).length = ns.length := by
  have h := (positionNodes_ids_perm o ns levels dir).length_eq
  rw [List.length_map, List.length_map] at h
  exact h

/-- Two node lists with permuted ids agree on every id-presence test. -/
theorem any_id_congr_of_ids_perm (l1 l2 : List FlowNode)
    (h : List.Perm (l1.map (·.id)) (l2.map (·.id))) (k : String) :
    l1.any (fun n => n.id == k) = l2.any (fun n => n.id == k) := by
  have hmem : ∀ (l : List FlowNode),
      l.any (fun n => n.id == k) = true ↔ k ∈ l.map (·.id) := by
    intro l
    rw [List.any_eq_true]
    constructor
    · rintro ⟨n, hn, hk⟩
      have hid : n.id = k := eq_of_beq hk
      rw [← hid]
      exact List.mem_map_of_mem (·.id) hn
    · intro hk
      obtain ⟨n, hn, hnk⟩ := List.mem_map.mp hk
      exact ⟨n, hn, beq_iff_eq.mpr hnk⟩
  cases h1 : l1.any (fun n => n.id == k) with
  | true => exact ((hmem l2).mpr (h.mem_iff.mp ((hmem l1).mp h1))).symm
  | false =>
      cases h2 : l2.any (fun n => n.id == k) with
      | false => rfl
      | true =>
          have h3 := (hmem l1).mpr (h.mem_iff.mpr ((hmem l2).mp h2))
          rw [h1] at h3
          exact absurd h3 Bool.false_ne_true

/-- Every node the horizontal walk emits is a position-override of an
input node. -/
theorem posWalkH_mem (o : LayoutOpts) (levels : List (String × Nat))
    (ns : List FlowNode) (sorted : List Nat) (x0 : JsNum) :
    ∀ n ∈ posWalkH o (levelGroupsOf levels ns) sorted x0,
      ∃ m ∈ ns, ∃ p, n = { m with position := p } := by
  intro n hn
  rw [posWalkH_eq] at hn
  obtain ⟨l, hl, hnl⟩ := List.mem_flatten.mp hn
  obtain ⟨kv, hkv, hkveq⟩ := List.mem_map.mp hl
  obtain ⟨_, x2, y2, heq⟩ :=
    walkColsBlocks_mem o (levelGroupsOf levels ns) sorted x0 kv hkv
  subst hkveq
  rw [heq] at hnl
  obtain ⟨m, hm, p, hmp⟩ := blockV_mem o x2
    (((levelGroupsOf levels ns).lookup kv.1).getD []) y2 n hnl
  refine ⟨m, ?_, p, hmp⟩
  cases hlook : (levelGroupsOf levels ns).lookup kv.1 with
  | none =>
      rw [hlook] at hm
      exact absurd hm (by simp)
  | some g =>
      rw [hlook] at hm
      exact grp_member_mem levels ns ns []
        (fun kv2 hkv2 => absurd hkv2 (List.not_mem_nil kv2))
        (fun a ha => ha) _ (mem_of_lookup_eq_some_nat hlook) m hm

/-- Every node the vertical walk emits is a position-override of an
input node. -/
theorem posWalkV_mem (o : LayoutOpts) (levels : List (String × Nat))
    (ns : List FlowNode) (sorted : List Nat) (y0 : JsNum) :
    ∀ n ∈ posWalkV o (levelGroupsOf levels ns) sorted y0,
      ∃ m ∈ ns, ∃ p, n = { m with position := p } := by
  intro n hn
  rw [posWalkV_eq] at hn
  obtain ⟨l, hl, hnl⟩ := List.mem_flatten.mp hn
  obtain ⟨kv, hkv, hkveq⟩ := List.mem_map.mp hl
  obtain ⟨_, y2, x2, heq⟩ :=
    walkRowsBlocks_mem o (levelGroupsOf levels ns) sorted y0 kv hkv
  subst hkveq
  rw [heq] at hnl
  obtain ⟨m, hm, p, hmp⟩ := blockH_mem o y2
    (((levelGroupsOf levels ns).lookup kv.1).getD []) x2 n hnl
  refine ⟨m, ?_, p, hmp⟩
  cases hlook : (levelGroupsOf levels ns).lookup kv.1 with
  | none =>
      rw [hlook] at hm
      exact absurd hm (by simp)
  | some g =>
      rw [hlook] at hm
      exact grp_member_mem levels ns ns []
        (fun kv2 hkv2 => absurd hkv2 (List.not_mem_nil kv2))
        (fun a ha => ha) _ (mem_of_lookup_eq_some_nat hlook) m hm

/-- Every node `positionNodes` emits is a position-override of an input
node. -/
theorem positionNodes_mem (o : LayoutOpts) (ns : List FlowNode)
    (levels : List (String × Nat)) (dir : Dir) :
    ∀ n ∈ positionNodes o ns levels dir,
      ∃ m ∈ ns, ∃ p, n = { m with position := p } := by
  cases dir with
  | LR => exact posWalkH_mem o levels ns _ 0
  | RL => exact posWalkH_mem o levels ns _ (-1000)
  | TB => exact posWalkV_mem o levels ns _ 0
  | BT => exact posWalkV_mem o levels ns _ (-1000)

/-- `calculateLayout` with an explicit non-empty root id, unfolded. -/
theorem calculateLayout_some_root (o : LayoutOpts) (ns : List FlowNode)
    (es : List FlowEdge) (dir : Dir) (nodeId : String)
    (hroot : nodeId ≠ "") :
    calculateLayout o ns es (some dir) (some nodeId) =
      if ns.length = 0 then []
      else positionNodes o ns (calculateLevels ns es (some nodeId)) dir := by
  have h1 : jsOrOptOpt (some nodeId) ((ns.head?).map (·.id)) =
      some nodeId := by
    show (if nodeId = "" then (ns.head?).map (·.id) else some nodeId) =
      some nodeId
    rw [if_neg hroot]
  simp only [calculateLayout]
  rw [h1]
  rfl

/-- Applying `calculateLayout` to its own output (same edges, same
explicit root, same direction) changes nothing: the second pass computes
the same levels, regroups the emitted columns, finds them already sorted,
and re-walks them onto the same positions. -/
theorem calculateLayout_idem (o : LayoutOpts) (ns : List FlowNode)
    (es : List FlowEdge) (dir : Dir) (nodeId : String)
    (hroot : nodeId ≠ "") :
    calculateLayout o (calculateLayout o ns es (some dir) (some nodeId)) es
        (some dir) (some nodeId) =
      calculateLayout o ns es (some dir) (some nodeId) := by
  rw [calculateLayout_some_root o ns es dir nodeId hroot]
  by_cases hlen : ns.length = 0
  · rw [if_pos hlen,
      calculateLayout_some_root o [] es dir nodeId hroot,
      if_pos (show ([] : List FlowNode).length = 0 from rfl)]
  · rw [if_neg hlen,
      calculateLayout_some_root o
        (positionNodes o ns (calculateLevels ns es (some nodeId)) dir)
        es dir nodeId hroot]
    have hidsperm := positionNodes_ids_perm o ns
      (calculateLevels ns es (some nodeId)) dir
    have hlenp : (positionNodes o ns
        (calculateLevels ns es (some nodeId)) dir).length = ns.length :=
      positionNodes_length o ns (calculateLevels ns es (some nodeId)) dir
    rw [if_neg (show ¬ (positionNodes o ns
        (calculateLevels ns es (some nodeId)) dir).length = 0 from by
      rw [hlenp]; exact hlen)]
    refine positionNodes_idem o ns (calculateLevels ns es (some nodeId))
      (calculateLevels (positionNodes o ns
        (calculateLevels ns es (some nodeId)) dir) es (some nodeId)) dir ?_
    intro n hn
    rw [calculateLevels_lookup_congr
      (positionNodes o ns (calculateLevels ns es (some nodeId)) dir) ns es
      nodeId hroot
      (fun k => any_id_congr_of_ids_perm _ _ hidsperm k)
      hlenp n.id]

/-- `calculateHierarchicalLayout` is idempotent for a non-empty explicit
root id. -/
theorem calculateHierarchicalLayout_idem (ns : List FlowNode)
    (es : List FlowEdge) (nodeId : String) (dir : Dir)
    (hroot : nodeId ≠ "") :
    calculateHierarchicalLayout
        (calculateHierarchicalLayout ns es (some nodeId) dir) es
        (some nodeId) dir =
      calculateHierarchicalLayout ns es (some nodeId) dir :=
  calculateLayout_idem hierarchicalOpts ns es dir nodeId hroot

/-- `calculateLayout` emits exactly the input nodes' ids, as a
permutation. -/
theorem calculateLayout_ids_perm (o : LayoutOpts) (ns : List FlowNode)
    (es : List FlowEdge) (dir : Dir) (nodeId : String)
    (hroot : nodeId ≠ "") :
    List.Perm
      ((calculateLayout o ns es (some dir) (some nodeId)).map (·.id))
      (ns.map (·.id)) := by
  rw [calculateLayout_some_root o ns es dir nodeId hroot]
  by_cases hlen : ns.length = 0
  · rw [if_pos hlen]
    have hnil : ns = [] := List.length_eq_zero.mp hlen
    rw [hnil]
  · rw [if_neg hlen]
    exact positionNodes_ids_perm o ns _ dir

/-- Every node `calculateLayout` emits is a position-override of an input
node. -/
theorem calculateLayout_mem (o : LayoutOpts) (ns : List FlowNode)
    (es : List FlowEdge) (dir : Dir) (nodeId : String)
    (hroot : nodeId ≠ "") :
    ∀ n ∈ calculateLayout o ns es (some dir) (some nodeId),
      ∃ m ∈ ns, ∃ p, n = { m with position := p } := by
  rw [calculateLayout_some_root o ns es dir nodeId hroot]
  by_cases hlen : ns.length = 0
  · rw [if_pos hlen]
    intro n hn
    exact absurd hn (List.not_mem_nil n)
  · rw [if_neg hlen]
    exact positionNodes_mem o ns _ dir

/-- A cached record key makes `getOrCreateRecordNode` a pure lookup. -/
theorem getOrCreateRecordNode_cached (index : NodeIndex) (r : RecordNode)
    (pos : Pos) (v : FlowNode)
    (h : index.recordsByKey.lookup r.recordKey = some v) :
    getOrCreateRecordNode index r pos = (v, index) := by
  simp [getOrCreateRecordNode, h]

theorem getOrCreateDocumentNode_cached (index : NodeIndex) (d : Document)
    (pos : Pos) (v : FlowNode)
    (h : index.documentsByKey.lookup d.documentKey = some v) :
    getOrCreateDocumentNode index d pos = (v, index) := by
  simp [getOrCreateDocumentNode, h]

theorem getOrCreateDocumentVersionNode_cached (index : NodeIndex)
    (dk : String) (ver : DocumentVersion) (pos : Pos) (v : FlowNode)
    (h : index.versionsById.lookup ver.versionId = some v) :
    getOrCreateDocumentVersionNode index dk ver pos = (v, index) := by
  simp [getOrCreateDocumentVersionNode, h]

/-- After `getOrCreateRecordNode` the record key is bound to the returned
node (whether it was cached or freshly created). -/
theorem getOrCreateRecordNode_binds (index : NodeIndex) (r : RecordNode)
    (pos : Pos) :
    (getOrCreateRecordNode index r pos).2.recordsByKey.lookup r.recordKey =
      some (getOrCreateRecordNode index r pos).1 := by
  cases h : index.recordsByKey.lookup r.recordKey with
  | some v => simp [getOrCreateRecordNode, h]
  | none => simp [getOrCreateRecordNode, h, indexRecordNode, jsMapSet_lookup]

theorem getOrCreateDocumentNode_binds (index : NodeIndex) (d : Document)
    (pos : Pos) :
    (getOrCreateDocumentNode index d pos).2.documentsByKey.lookup
        d.documentKey =
      some (getOrCreateDocumentNode index d pos).1 := by
  cases h : index.documentsByKey.lookup d.documentKey with
  | some v => simp [getOrCreateDocumentNode, h]
  | none =>
      simp [getOrCreateDocumentNode, h, indexDocumentNode, jsMapSet_lookup]

theorem getOrCreateDocumentVersionNode_binds (index : NodeIndex)
    (dk : String) (ver : DocumentVersion) (pos : Pos) :
    (getOrCreateDocumentVersionNode index dk ver pos).2.versionsById.lookup
        ver.versionId =
      some (getOrCreateDocumentVersionNode index dk ver pos).1 := by
  cases h : index.versionsById.lookup ver.versionId with
  | some v => simp [getOrCreateDocumentVersionNode, h]
  | none =>
      simp [getOrCreateDocumentVersionNode, h, indexDocumentVersionNode,
        jsMapSet_lookup]

theorem indexLe_refl (i : NodeIndex) : indexLe i i :=
  ⟨fun _ _ h => h, fun _ _ h => h, fun _ _ h => h⟩

theorem indexLe_trans {i1 i2 i3 : NodeIndex} (h1 : indexLe i1 i2)
    (h2 : indexLe i2 i3) : indexLe i1 i3 :=
  ⟨fun k v h => h2.1 k v (h1.1 k v h),
   fun k v h => h2.2.1 k v (h1.2.1 k v h),
   fun k v h => h2.2.2 k v (h1.2.2 k v h)⟩

/-- Setting a key absent from a map preserves every present binding. -/
theorem jsMapSet_keeps {α : Type} (m : List (String × α)) (key : String)
    (n : α) (habs : m.lookup key = none) :
    ∀ k v, m.lookup k = some v → (jsMapSet m key n).lookup k = some v := by
  intro k v hv
  rw [jsMapSet_lookup]
  by_cases hk : k = key
  · rw [hk] at hv
    rw [habs] at hv
    exact absurd hv (by simp)
  · rw [if_neg hk]
    exact hv

/-- `getOrCreateRecordNode` only grows the index. -/
theorem getOrCreateRecordNode_le (index : NodeIndex) (r : RecordNode)
    (pos : Pos) : indexLe index (getOrCreateRecordNode index r pos).2 := by
  cases h : index.recordsByKey.lookup r.recordKey with
  | some v =>
      rw [show (getOrCreateRecordNode index r pos).2 = index from by
        simp [getOrCreateRecordNode, h]]
      exact indexLe_refl index
  | none =>
      refine ⟨?_, ?_, ?_⟩
      · intro k v hv
        rw [show (getOrCreateRecordNode index r pos).2.recordsByKey =
            jsMapSet index.recordsByKey r.recordKey
              (getOrCreateRecordNode index r pos).1 from by
          simp [getOrCreateRecordNode, h, indexRecordNode]]
        exact jsMapSet_keeps index.recordsByKey r.recordKey _ h k v hv
      · intro k v hv
        rw [show (getOrCreateRecordNode index r pos).2.documentsByKey =
            index.documentsByKey from by
          simp [getOrCreateRecordNode, h, indexRecordNode]]
        exact hv
      · intro k v hv
        rw [show (getOrCreateRecordNode index r pos).2.versionsById =
            index.versionsById from by
          simp [getOrCreateRecordNode, h, indexRecordNode]]
        exact hv

theorem getOrCreateDocumentNode_le (index : NodeIndex) (d : Document)
    (pos : Pos) : indexLe index (getOrCreateDocumentNode index d pos).2 := by
  cases h : index.documentsByKey.lookup d.documentKey with
  | some v =>
      rw [show (getOrCreateDocumentNode index d pos).2 = index from by
        simp [getOrCreateDocumentNode, h]]
      exact indexLe_refl index
  | none =>
      refine ⟨?_, ?_, ?_⟩
      · intro k v hv
        rw [show (getOrCreateDocumentNode index d pos).2.recordsByKey =
            index.recordsByKey from by
          simp [getOrCreateDocumentNode, h, indexDocumentNode]]
        exact hv
      · intro k v hv
        rw [show (getOrCreateDocumentNode index d pos).2.documentsByKey =
            jsMapSet index.documentsByKey d.documentKey
              (getOrCreateDocumentNode index d pos).1 from by
          simp [getOrCreateDocumentNode, h, indexDocumentNode]]
        exact jsMapSet_keeps index.documentsByKey d.documentKey _ h k v hv
      · intro k v hv
        rw [show (getOrCreateDocumentNode index d pos).2.versionsById =
            index.versionsById from by
          simp [getOrCreateDocumentNode, h, indexDocumentNode]]
        exact hv

theorem getOrCreateDocumentVersionNode_le (index : NodeIndex) (dk : String)
    (ver : DocumentVersion) (pos : Pos) :
    indexLe index (getOrCreateDocumentVersionNode index dk ver pos).2 := by
  cases h : index.versionsById.lookup ver.versionId with
  | some v =>
      rw [show (getOrCreateDocumentVersionNode index dk ver pos).2 =
          index from by
        simp [getOrCreateDocumentVersionNode, h]]
      exact indexLe_refl index
  | none =>
      refine ⟨?_, ?_, ?_⟩
      · intro k v hv
        rw [show (getOrCreateDocumentVersionNode index dk ver
            pos).2.recordsByKey = index.recordsByKey from by
          simp [getOrCreateDocumentVersionNode, h, indexDocumentVersionNode]]
        exact hv
      · intro k v hv
        rw [show (getOrCreateDocumentVersionNode index dk ver
            pos).2.documentsByKey = index.documentsByKey from by
          simp [getOrCreateDocumentVersionNode, h, indexDocumentVersionNode]]
        exact hv
      · intro k v hv
        rw [show (getOrCreateDocumentVersionNode index dk ver
            pos).2.versionsById =
            jsMapSet index.versionsById ver.versionId
              (getOrCreateDocumentVersionNode index dk ver pos).1 from by
          simp [getOrCreateDocumentVersionNode, h, indexDocumentVersionNode]]
        exact jsMapSet_keeps index.versionsById ver.versionId _ h k v hv

/-- Pushing a node already present by id changes nothing. -/
theorem pushNodeUnlessPresent_present (nodes : List FlowNode) (c : FlowNode)
    (h : nodes.any (fun n => n.id == c.id) = true) :
    pushNodeUnlessPresent nodes c = nodes := by
  simp [pushNodeUnlessPresent, h]

/-- After the push, the node's id is present. -/
theorem pushNodeUnlessPresent_covers (nodes : List FlowNode)
    (c : FlowNode) :
    (pushNodeUnlessPresent nodes c).any (fun n => n.id == c.id) = true := by
  by_cases h : nodes.any (fun n => n.id == c.id) = true
  · rw [pushNodeUnlessPresent_present nodes c h]
    exact h
  · rw [Bool.not_eq_true] at h
    show (if nodes.any (fun n => n.id == c.id) then nodes
      else nodes ++ [c]).any (fun n => n.id == c.id) = true
    rw [h, if_neg Bool.false_ne_true, List.any_append]
    simp

/-- The push only appends. -/
theorem pushNodeUnlessPresent_append (nodes : List FlowNode)
    (c : FlowNode) : ∃ s, pushNodeUnlessPresent nodes c = nodes ++ s := by
  by_cases h : nodes.any (fun n => n.id == c.id) = true
  · exact ⟨[], by
      rw [pushNodeUnlessPresent_present nodes c h, List.append_nil]⟩
  · rw [Bool.not_eq_true] at h
    refine ⟨[c], ?_⟩
    show (if nodes.any (fun n => n.id == c.id) then nodes
      else nodes ++ [c]) = nodes ++ [c]
    rw [h, if_neg Bool.false_ne_true]

/-- The push preserves distinctness of ids. -/
theorem pushNodeUnlessPresent_nodup (nodes : List FlowNode) (c : FlowNode)
    (h : (nodes.map (·.id)).Nodup) :
    ((pushNodeUnlessPresent nodes c).map (·.id)).Nodup := by
  by_cases hp : nodes.any (fun n => n.id == c.id) = true
  · rw [pushNodeUnlessPresent_present nodes c hp]
    exact h
  · rw [Bool.not_eq_true] at hp
    rw [show pushNodeUnlessPresent nodes c = nodes ++ [c] from by
      show (if nodes.any (fun n => n.id == c.id) then nodes
        else nodes ++ [c]) = nodes ++ [c]
      rw [hp, if_neg Bool.false_ne_true]]
    rw [List.map_append, List.nodup_append]
    refine ⟨h, by simp, ?_⟩
    intro x hx hc2
    have hx2 : x = c.id := by simpa using hc2
    subst hx2
    obtain ⟨n, hn, hneq⟩ := List.mem_map.mp hx
    have hany : nodes.any (fun n => n.id == c.id) = true :=
      List.any_eq_true.mpr ⟨n, hn, beq_iff_eq.mpr hneq⟩
    rw [hp] at hany
    exact absurd hany Bool.false_ne_true

/-- A matched `any` survives appending. -/
theorem bnot_append_any_false {α : Type} (p : α → Bool) (l1 l2 : List α)
    (h : (! l1.any p) = false) : (! (l1 ++ l2).any p) = false := by
  cases hb : l1.any p with
  | true => rw [List.any_append, hb]; rfl
  | false =>
      rw [hb] at h
      exact absurd h (by simp)

/-- A match in the appended part decides the `any`. -/
theorem bnot_any_append_right {α : Type} (p : α → Bool) (l1 l2 : List α)
    (h : l2.any p = true) : (! (l1 ++ l2).any p) = false := by
  rw [List.any_append, h, Bool.or_true]
  rfl

/-- A present edge triple stays present when more edges are appended. -/
theorem isEdgeUnique_append_false (edges el : List FlowEdge)
    (s t lt : String) (h : isEdgeUnique edges s t lt = false) :
    isEdgeUnique (edges ++ el) s t lt = false :=
  bnot_append_any_false _ edges el h

/-- Pushing an already-present edge triple changes nothing. -/
theorem pushEdgeIfUnique_present (edges : List FlowEdge) (s t lt : String)
    (h : isEdgeUnique edges s t lt = false) :
    pushEdgeIfUnique edges s t lt = edges := by
  simp [pushEdgeIfUnique, h]

/-- After the push, the edge triple is present. -/
theorem pushEdgeIfUnique_covers (edges : List FlowEdge) (s t lt : String) :
    isEdgeUnique (pushEdgeIfUnique edges s t lt) s t lt = false := by
  by_cases h : isEdgeUnique edges s t lt = true
  · rw [show pushEdgeIfUnique edges s t lt =
        edges ++ [createEdge s t lt] from by
      simp [pushEdgeIfUnique, h]]
    refine bnot_any_append_right _ edges [createEdge s t lt] ?_
    simp [createEdge]
  · rw [Bool.not_eq_true] at h
    rw [show pushEdgeIfUnique edges s t lt = edges from by
      simp [pushEdgeIfUnique, h]]
    exact h

/-- The push only appends. -/
theorem pushEdgeIfUnique_append (edges : List FlowEdge) (s t lt : String) :
    ∃ s2, pushEdgeIfUnique edges s t lt = edges ++ s2 := by
  by_cases h : isEdgeUnique edges s t lt = true
  · exact ⟨[createEdge s t lt], by simp [pushEdgeIfUnique, h]⟩
  · rw [Bool.not_eq_true] at h
    exact ⟨[], by simp [pushEdgeIfUnique, h]⟩

/-- Marking does not change node ids. -/
theorem markExpanded_ids (nodeId : String) (l : List FlowNode) :
    (markExpanded nodeId l).map (·.id) = l.map (·.id) := by
  simp only [markExpanded, List.map_map]
  refine List.map_congr_left ?_
  intro n hn
  show (if n.id = nodeId then
    { n with data := { n.data with isExpanded := some true } } else n).id =
    n.id
  by_cases h : n.id = nodeId
  · rw [if_pos h]
  · rw [if_neg h]

/-- After marking, every node carrying the marked id is flagged
expanded. -/
theorem markExpanded_marks (nodeId : String) (l : List FlowNode) :
    ∀ m ∈ markExpanded nodeId l, m.id = nodeId →
      m.data.isExpanded = some true := by
  intro m hm hid
  obtain ⟨n, hn, heq⟩ := List.mem_map.mp hm
  have heq2 : (if n.id = nodeId then
      { n with data := { n.data with isExpanded := some true } } else n) =
      m := heq
  by_cases h : n.id = nodeId
  · rw [if_pos h] at heq2
    rw [← heq2]
  · rw [if_neg h] at heq2
    rw [← heq2] at hid
    exact absurd hid h

/-- Marking a list whose target nodes are already flagged is the
identity. -/
theorem markExpanded_noop (nodeId : String) (l : List FlowNode)
    (h : ∀ n ∈ l, n.id = nodeId → n.data.isExpanded = some true) :
    markExpanded nodeId l = l := by
  induction l with
  | nil => rfl
  | cons n l ih =>
      show (if n.id = nodeId then
        { n with data := { n.data with isExpanded := some true } } else n) ::
          markExpanded nodeId l = n :: l
      rw [ih (fun a ha hid => h a (List.mem_cons_of_mem n ha) hid)]
      by_cases hid : n.id = nodeId
      · rw [if_pos hid]
        have hexp := h n (List.mem_cons_self n l) hid
        have hd : { n.data with isExpanded := some true } = n.data := by
          rw [← hexp]
        rw [hd]
      · rw [if_neg hid]

theorem stExtends_refl (st : ExpSt) : stExtends st st :=
  ⟨indexLe_refl st.index, ⟨[], (List.append_nil _).symm⟩,
    ⟨[], (List.append_nil _).symm⟩⟩

theorem stExtends_trans {s1 s2 s3 : ExpSt} (h1 : stExtends s1 s2)
    (h2 : stExtends s2 s3) : stExtends s1 s3 := by
  obtain ⟨hi1, ⟨n1, hn1⟩, ⟨e1, he1⟩⟩ := h1
  obtain ⟨hi2, ⟨n2, hn2⟩, ⟨e2, he2⟩⟩ := h2
  exact ⟨indexLe_trans hi1 hi2,
    ⟨n1 ++ n2, by rw [hn2, hn1, List.append_assoc]⟩,
    ⟨e1 ++ e2, by rw [he2, he1, List.append_assoc]⟩⟩

/-- A saturation condition survives any extension of the state. -/
theorem satIn_mono (look : NodeIndex → List (String × FlowNode))
    (key srcId lt : String) {st st' : ExpSt}
    (hlook : ∀ k v, (look st.index).lookup k = some v →
      (look st'.index).lookup k = some v)
    (hext : stExtends st st') (h : satIn look key srcId lt st) :
    satIn look key srcId lt st' := by
  obtain ⟨v, h1, h2, h3⟩ := h
  obtain ⟨_, ⟨ns, hns⟩, ⟨es, hes⟩⟩ := hext
  refine ⟨v, hlook key v h1, ?_, ?_⟩
  · rw [hns, List.any_append, h2]
    rfl
  · rw [hes]
    exact isEdgeUnique_append_false _ es srcId v.id lt h3

/-- A state-level property preserved by each step is preserved by the
fold. -/
theorem expFold_pres {β : Type} (step : ExpSt → β → ExpSt)
    (Q : ExpSt → Prop) (h : ∀ st x, Q st → Q (step st x)) :
    ∀ (l : List β) (st : ExpSt), Q st → Q (l.foldl step st) := by
  intro l
  induction l with
  | nil => intro st hst; exact hst
  | cons x l ih =>
      intro st hst
      rw [List.foldl_cons]
      exact ih _ (h st x hst)

/-- A fold of extending steps extends. -/
theorem expFold_extends {β : Type} (step : ExpSt → β → ExpSt)
    (h : ∀ st x, stExtends st (step st x)) :
    ∀ (l : List β) (st : ExpSt), stExtends st (l.foldl step st) := by
  intro l
  induction l with
  | nil => intro st; exact stExtends_refl st
  | cons x l ih =>
      intro st
      rw [List.foldl_cons]
      exact stExtends_trans (h st x) (ih _)

/-- If each step establishes its own item's condition and every step
preserves every item's condition, the fold's final state satisfies the
condition for every item of the list. -/
theorem expFold_sat {β : Type} (step : ExpSt → β → ExpSt)
    (P : ExpSt → β → Prop)
    (hest : ∀ st x, P (step st x) x)
    (hmono : ∀ st x y, P st y → P (step st x) y) :
    ∀ (l : List β) (st : ExpSt), ∀ x ∈ l, P (l.foldl step st) x := by
  intro l
  induction l with
  | nil => intro st x hx; exact absurd hx (List.not_mem_nil x)
  | cons a l ih =>
      intro st x hx
      rw [List.foldl_cons]
      rcases List.mem_cons.mp hx with heq | hm
      · rw [heq]
        exact expFold_pres step (fun st2 => P st2 a)
          (fun st2 y h2 => hmono st2 y a h2) l (step st a) (hest st a)
      · exact ih _ x hm

/-- A fold whose steps keep index, nodes and edges fixed only moves the
`yOffset`. -/
theorem expFold_fixed {β : Type} (step : ExpSt → β → ExpSt)
    (i0 : NodeIndex) (n0 : List FlowNode) (e0 : List FlowEdge) :
    ∀ (l : List β),
      (∀ x ∈ l, ∀ st : ExpSt, st.index = i0 → st.nodes = n0 →
        st.edges = e0 → (step st x).index = i0 ∧ (step st x).nodes = n0 ∧
          (step st x).edges = e0) →
      ∀ y : JsNum, l.foldl step ⟨i0, n0, e0, y⟩ =
        ⟨i0, n0, e0, (l.foldl step ⟨i0, n0, e0, y⟩).yOffset⟩ := by
  intro l
  induction l with
  | nil => intro _ y; rfl
  | cons x l ih =>
      intro H y
      rw [List.foldl_cons]
      obtain ⟨h1, h2, h3⟩ :=
        H x (List.mem_cons_self x l) ⟨i0, n0, e0, y⟩ rfl rfl rfl
      have hst : step ⟨i0, n0, e0, y⟩ x =
          ⟨i0, n0, e0, (step ⟨i0, n0, e0, y⟩ x).yOffset⟩ := by
        cases hs : step ⟨i0, n0, e0, y⟩ x with
        | mk a b c d =>
            rw [hs] at h1 h2 h3
            have ha : a = i0 := h1
            have hb : b = n0 := h2
            have hc : c = e0 := h3
            rw [ha, hb, hc]
      rw [hst]
      exact ih (fun a ha => H a (List.mem_cons_of_mem x ha)) _

/-- Appending a guarded-fresh node keeps ids distinct. -/
theorem append_node_nodup (nodes : List FlowNode) (c : FlowNode)
    (h : (nodes.map (·.id)).Nodup)
    (hp : nodes.any (fun n => n.id == c.id) = false) :
    ((nodes ++ [c]).map (·.id)).Nodup := by
  rw [List.map_append, List.nodup_append]
  refine ⟨h, by simp, ?_⟩
  intro x hx hc2
  have hx2 : x = c.id := by simpa using hc2
  subst hx2
  obtain ⟨n, hn, hneq⟩ := List.mem_map.mp hx
  have hany : nodes.any (fun n => n.id == c.id) = true :=
    List.any_eq_true.mpr ⟨n, hn, beq_iff_eq.mpr hneq⟩
  rw [hp] at hany
  exact absurd hany Bool.false_ne_true

theorem expandRecRecStep_extends (nodeId : String) (bx : JsNum)
    (record : RecordNode) (st : ExpSt) (lr : RecordNode) :
    stExtends st (expandRecRecStep nodeId bx record st lr) := by
  obtain ⟨s1, hs1⟩ := pushNodeUnlessPresent_append st.nodes
    (getOrCreateRecordNode st.index lr ⟨bx, st.yOffset⟩).1
  obtain ⟨s2, hs2⟩ := pushEdgeIfUnique_append st.edges nodeId
    (getOrCreateRecordNode st.index lr ⟨bx, st.yOffset⟩).1.id
    (jsOrStrOpt
      (((record.linkedRecords.getD []).find?
        (fun l => l.recordKey == lr.recordKey)).map (·.linkType))
      "related_to")
  exact ⟨getOrCreateRecordNode_le st.index lr ⟨bx, st.yOffset⟩,
    ⟨s1, hs1⟩, ⟨s2, hs2⟩⟩

theorem expandRecDocStep_extends (nodeId : String) (bx : JsNum)
    (record : RecordNode) (st : ExpSt) (ld : Document) :
    stExtends st (expandRecDocStep nodeId bx record st ld) := by
  obtain ⟨s1, hs1⟩ := pushNodeUnlessPresent_append st.nodes
    (getOrCreateDocumentNode st.index ld ⟨bx, st.yOffset⟩).1
  obtain ⟨s2, hs2⟩ := pushEdgeIfUnique_append st.edges nodeId
    (getOrCreateDocumentNode st.index ld ⟨bx, st.yOffset⟩).1.id
    (jsOrStrOpt
      (((record.linkedDocuments.getD []).find?
        (fun l => l.documentKey == ld.documentKey)).map (·.linkType))
      "references")
  exact ⟨getOrCreateDocumentNode_le st.index ld ⟨bx, st.yOffset⟩,
    ⟨s1, hs1⟩, ⟨s2, hs2⟩⟩

theorem expandVersionStep_extends (nodeId : String) (bx : JsNum)
    (dk : String) (st : ExpSt) (ver : DocumentVersion) :
    stExtends st (expandVersionStep nodeId bx dk st ver) := by
  obtain ⟨s1, hs1⟩ := pushNodeUnlessPresent_append st.nodes
    (getOrCreateDocumentVersionNode st.index dk ver
      ⟨bx + 80, st.yOffset⟩).1
  obtain ⟨s2, hs2⟩ := pushEdgeIfUnique_append st.edges nodeId
    (getOrCreateDocumentVersionNode st.index dk ver
      ⟨bx + 80, st.yOffset⟩).1.id "is_parent_of"
  exact ⟨getOrCreateDocumentVersionNode_le st.index dk ver _,
    ⟨s1, hs1⟩, ⟨s2, hs2⟩⟩

theorem expandNodeDocDocStep_extends (repo : DataRepository)
    (nodeId : String) (bx : JsNum) (st : ExpSt) (lk : DocumentLink) :
    stExtends st (expandNodeDocDocStep repo nodeId bx st lk) := by
  cases h : getDocument repo lk.documentKey with
  | none =>
      rw [show expandNodeDocDocStep repo nodeId bx st lk = st from by
        simp [expandNodeDocDocStep, h]]
      exact stExtends_refl st
  | some ld =>
      obtain ⟨s1, hs1⟩ := pushNodeUnlessPresent_append st.nodes
        (getOrCreateDocumentNode st.index ld ⟨bx, st.yOffset⟩).1
      obtain ⟨s2, hs2⟩ := pushEdgeIfUnique_append st.edges nodeId
        (getOrCreateDocumentNode st.index ld ⟨bx, st.yOffset⟩).1.id
        (jsOrStr lk.linkType "references")
      rw [show expandNodeDocDocStep repo nodeId bx st lk =
          ⟨(getOrCreateDocumentNode st.index ld ⟨bx, st.yOffset⟩).2,
           pushNodeUnlessPresent st.nodes
             (getOrCreateDocumentNode st.index ld ⟨bx, st.yOffset⟩).1,
           pushEdgeIfUnique st.edges nodeId
             (getOrCreateDocumentNode st.index ld ⟨bx, st.yOffset⟩).1.id
             (jsOrStr lk.linkType "references"),
           st.yOffset + 140⟩ from by
        simp [expandNodeDocDocStep, h]]
      exact ⟨getOrCreateDocumentNode_le st.index ld ⟨bx, st.yOffset⟩,
        ⟨s1, hs1⟩, ⟨s2, hs2⟩⟩

/-- `expandNodeDocRecStep` written through `docRecAfterIf` when the linked
record resolves. -/
theorem expandNodeDocRecStep_eq (repo : DataRepository) (nodeId : String)
    (bx : JsNum) (document : Document) (st : ExpSt) (lk : RecordLink)
    (lr : RecordNode) (h : getRecord repo lk.recordKey = some lr) :
    expandNodeDocRecStep repo nodeId bx document st lk =
      ⟨(docRecAfterIf nodeId bx document st
          (getOrCreateRecordNode st.index lr ⟨bx, st.yOffset⟩).1
          (getOrCreateRecordNode st.index lr ⟨bx, st.yOffset⟩).2).index,
       (docRecAfterIf nodeId bx document st
          (getOrCreateRecordNode st.index lr ⟨bx, st.yOffset⟩).1
          (getOrCreateRecordNode st.index lr ⟨bx, st.yOffset⟩).2).nodes,
       pushEdgeIfUnique
         (docRecAfterIf nodeId bx document st
            (getOrCreateRecordNode st.index lr ⟨bx, st.yOffset⟩).1
            (getOrCreateRecordNode st.index lr ⟨bx, st.yOffset⟩).2).edges
         nodeId
         (getOrCreateRecordNode st.index lr ⟨bx, st.yOffset⟩).1.id
         (jsOrStr lk.linkType "references"),
       (docRecAfterIf nodeId bx document st
          (getOrCreateRecordNode st.index lr ⟨bx, st.yOffset⟩).1
          (getOrCreateRecordNode st.index lr ⟨bx, st.yOffset⟩).2).yOffset +
         120⟩ := by
  simp [expandNodeDocRecStep, h, docRecAfterIf]

/-- The guarded conditional of the document-record step only extends the
incoming state. -/
theorem docRecAfterIf_extends (nodeId : String) (bx : JsNum)
    (document : Document) (st : ExpSt) (lr : RecordNode) :
    stExtends st
      (docRecAfterIf nodeId bx document st
        (getOrCreateRecordNode st.index lr ⟨bx, st.yOffset⟩).1
        (getOrCreateRecordNode st.index lr ⟨bx, st.yOffset⟩).2) := by
  show stExtends st
    (if st.nodes.any (fun n => n.id ==
        (getOrCreateRecordNode st.index lr ⟨bx, st.yOffset⟩).1.id) then
      (⟨(getOrCreateRecordNode st.index lr ⟨bx, st.yOffset⟩).2,
        st.nodes, st.edges, st.yOffset⟩ : ExpSt)
    else
      document.versions.foldl
        (expandVersionStep nodeId bx document.documentKey)
        ⟨(getOrCreateRecordNode st.index lr ⟨bx, st.yOffset⟩).2,
         st.nodes ++
           [(getOrCreateRecordNode st.index lr ⟨bx, st.yOffset⟩).1],
         st.edges, st.yOffset⟩)
  by_cases hp : st.nodes.any (fun n => n.id ==
      (getOrCreateRecordNode st.index lr ⟨bx, st.yOffset⟩).1.id) = true
  · rw [hp, if_pos rfl]
    exact ⟨getOrCreateRecordNode_le st.index lr ⟨bx, st.yOffset⟩,
      ⟨[], (List.append_nil _).symm⟩, ⟨[], (List.append_nil _).symm⟩⟩
  · rw [Bool.not_eq_true] at hp
    rw [hp, if_neg Bool.false_ne_true]
    refine stExtends_trans
      (⟨getOrCreateRecordNode_le st.index lr ⟨bx, st.yOffset⟩,
        ⟨[(getOrCreateRecordNode st.index lr ⟨bx, st.yOffset⟩).1], rfl⟩,
        ⟨[], (List.append_nil _).symm⟩⟩ :
        stExtends st
          ⟨(getOrCreateRecordNode st.index lr ⟨bx, st.yOffset⟩).2,
           st.nodes ++
             [(getOrCreateRecordNode st.index lr ⟨bx, st.yOffset⟩).1],
           st.edges, st.yOffset⟩) ?_
    exact expFold_extends _
      (fun st2 x => expandVersionStep_extends nodeId bx
        document.documentKey st2 x) document.versions _

theorem expandNodeDocRecStep_extends (repo : DataRepository)
    (nodeId : String) (bx : JsNum) (document : Document) (st : ExpSt)
    (lk : RecordLink) :
    stExtends st (expandNodeDocRecStep repo nodeId bx document st lk) := by
  cases h : getRecord repo lk.recordKey with
  | none =>
      rw [show expandNodeDocRecStep repo nodeId bx document st lk = st
        from by simp [expandNodeDocRecStep, h]]
      exact stExtends_refl st
  | some lr =>
      rw [expandNodeDocRecStep_eq repo nodeId bx document st lk lr h]
      obtain ⟨hi, ⟨n1, hn1⟩, ⟨e1, he1⟩⟩ :=
        docRecAfterIf_extends nodeId bx document st lr
      obtain ⟨s2, hs2⟩ := pushEdgeIfUnique_append
        (docRecAfterIf nodeId bx document st
          (getOrCreateRecordNode st.index lr ⟨bx, st.yOffset⟩).1
          (getOrCreateRecordNode st.index lr ⟨bx, st.yOffset⟩).2).edges
        nodeId (getOrCreateRecordNode st.index lr ⟨bx, st.yOffset⟩).1.id
        (jsOrStr lk.linkType "references")
      refine ⟨hi, ⟨n1, hn1⟩, ⟨e1 ++ s2, ?_⟩⟩
      show pushEdgeIfUnique _ _ _ _ = st.edges ++ (e1 ++ s2)
      rw [hs2, he1, List.append_assoc]

theorem expandRecRecStep_nodup (nodeId : String) (bx : JsNum)
    (record : RecordNode) (st : ExpSt) (lr : RecordNode)
    (h : (st.nodes.map (·.id)).Nodup) :
    (((expandRecRecStep nodeId bx record st lr).nodes).map (·.id)).Nodup :=
  pushNodeUnlessPresent_nodup st.nodes _ h

theorem expandRecDocStep_nodup (nodeId : String) (bx : JsNum)
    (record : RecordNode) (st : ExpSt) (ld : Document)
    (h : (st.nodes.map (·.id)).Nodup) :
    (((expandRecDocStep nodeId bx record st ld).nodes).map (·.id)).Nodup :=
  pushNodeUnlessPresent_nodup st.nodes _ h

theorem expandVersionStep_nodup (nodeId : String) (bx : JsNum)
    (dk : String) (st : ExpSt) (ver : DocumentVersion)
    (h : (st.nodes.map (·.id)).Nodup) :
    (((expandVersionStep nodeId bx dk st ver).nodes).map (·.id)).Nodup :=
  pushNodeUnlessPresent_nodup st.nodes _ h

theorem expandNodeDocDocStep_nodup (repo : DataRepository)
    (nodeId : String) (bx : JsNum) (st : ExpSt) (lk : DocumentLink)
    (h : (st.nodes.map (·.id)).Nodup) :
    (((expandNodeDocDocStep repo nodeId bx st lk).nodes).map
      (·.id)).Nodup := by
  cases hres : getDocument repo lk.documentKey with
  | none =>
      rw [show expandNodeDocDocStep repo nodeId bx st lk = st from by
        simp [expandNodeDocDocStep, hres]]
      exact h
  | some ld =>
      rw [show (expandNodeDocDocStep repo nodeId bx st lk).nodes =
          pushNodeUnlessPresent st.nodes
            (getOrCreateDocumentNode st.index ld ⟨bx, st.yOffset⟩).1
          from by simp [expandNodeDocDocStep, hres]]
      exact pushNodeUnlessPresent_nodup st.nodes _ h

theorem docRecAfterIf_nodup (nodeId : String) (bx : JsNum)
    (document : Document) (st : ExpSt) (childNode : FlowNode)
    (idx2 : NodeIndex) (h : (st.nodes.map (·.id)).Nodup) :
    (((docRecAfterIf nodeId bx document st childNode idx2).nodes).map
      (·.id)).Nodup := by
  show (((if st.nodes.any (fun n => n.id == childNode.id) then
      (⟨idx2, st.nodes, st.edges, st.yOffset⟩ : ExpSt)
    else
      document.versions.foldl
        (expandVersionStep nodeId bx document.documentKey)
        ⟨idx2, st.nodes ++ [childNode], st.edges,
          st.yOffset⟩).nodes).map (·.id)).Nodup
  by_cases hp : st.nodes.any (fun n => n.id == childNode.id) = true
  · rw [hp, if_pos rfl]
    exact h
  · rw [Bool.not_eq_true] at hp
    rw [hp, if_neg Bool.false_ne_true]
    refine expFold_pres _ (fun st2 => ((st2.nodes.map (·.id)).Nodup))
      ?_ document.versions _ ?_
    · intro st2 x h2
      exact expandVersionStep_nodup nodeId bx document.documentKey st2 x h2
    · exact append_node_nodup st.nodes childNode h hp

theorem expandNodeDocRecStep_nodup (repo : DataRepository)
    (nodeId : String) (bx : JsNum) (document : Document) (st : ExpSt)
    (lk : RecordLink) (h : (st.nodes.map (·.id)).Nodup) :
    (((expandNodeDocRecStep repo nodeId bx document st lk).nodes).map
      (·.id)).Nodup := by
  cases hres : getRecord repo lk.recordKey with
  | none =>
      rw [show expandNodeDocRecStep repo nodeId bx document st lk = st
        from by simp [expandNodeDocRecStep, hres]]
      exact h
  | some lr =>
      rw [expandNodeDocRecStep_eq repo nodeId bx document st lk lr hres]
      exact docRecAfterIf_nodup nodeId bx document st _ _ h

theorem expandRecRecStep_sat (nodeId : String) (bx : JsNum)
    (record : RecordNode) (st : ExpSt) (lr : RecordNode) :
    satIn (fun i => i.recordsByKey) lr.recordKey nodeId
      (jsOrStrOpt
        (((record.linkedRecords.getD []).find?
          (fun l => l.recordKey == lr.recordKey)).map (·.linkType))
        "related_to")
      (expandRecRecStep nodeId bx record st lr) :=
  ⟨(getOrCreateRecordNode st.index lr ⟨bx, st.yOffset⟩).1,
   getOrCreateRecordNode_binds st.index lr ⟨bx, st.yOffset⟩,
   pushNodeUnlessPresent_covers st.nodes _,
   pushEdgeIfUnique_covers st.edges nodeId _ _⟩

theorem expandRecDocStep_sat (nodeId : String) (bx : JsNum)
    (record : RecordNode) (st : ExpSt) (ld : Document) :
    satIn (fun i => i.documentsByKey) ld.documentKey nodeId
      (jsOrStrOpt
        (((record.linkedDocuments.getD []).find?
          (fun l => l.documentKey == ld.documentKey)).map (·.linkType))
        "references")
      (expandRecDocStep nodeId bx record st ld) :=
  ⟨(getOrCreateDocumentNode st.index ld ⟨bx, st.yOffset⟩).1,
   getOrCreateDocumentNode_binds st.index ld ⟨bx, st.yOffset⟩,
   pushNodeUnlessPresent_covers st.nodes _,
   pushEdgeIfUnique_covers st.edges nodeId _ _⟩

theorem expandNodeDocDocStep_sat (repo : DataRepository) (nodeId : String)
    (bx : JsNum) (st : ExpSt) (lk : DocumentLink) :
    match getDocument repo lk.documentKey with
    | none => True
    | some ld =>
        satIn (fun i => i.documentsByKey) ld.documentKey nodeId
          (jsOrStr lk.linkType "references")
          (expandNodeDocDocStep repo nodeId bx st lk) := by
  cases hres : getDocument repo lk.documentKey with
  | none => trivial
  | some ld =>
      show satIn (fun i => i.documentsByKey) ld.documentKey nodeId
        (jsOrStr lk.linkType "references")
        (expandNodeDocDocStep repo nodeId bx st lk)
      rw [show expandNodeDocDocStep repo nodeId bx st lk =
          ⟨(getOrCreateDocumentNode st.index ld ⟨bx, st.yOffset⟩).2,
           pushNodeUnlessPresent st.nodes
             (getOrCreateDocumentNode st.index ld ⟨bx, st.yOffset⟩).1,
           pushEdgeIfUnique st.edges nodeId
             (getOrCreateDocumentNode st.index ld ⟨bx, st.yOffset⟩).1.id
             (jsOrStr lk.linkType "references"),
           st.yOffset + 140⟩ from by
        simp [expandNodeDocDocStep, hres]]
      exact ⟨(getOrCreateDocumentNode st.index ld ⟨bx, st.yOffset⟩).1,
        getOrCreateDocumentNode_binds st.index ld ⟨bx, st.yOffset⟩,
        pushNodeUnlessPresent_covers st.nodes _,
        pushEdgeIfUnique_covers st.edges nodeId _ _⟩

/-- The index after the document-record conditional retains every binding
of the index it starts from. -/
theorem docRecAfterIf_le_base (nodeId : String) (bx : JsNum)
    (document : Document) (st : ExpSt) (childNode : FlowNode)
    (idx2 : NodeIndex) :
    indexLe idx2
      (docRecAfterIf nodeId bx document st childNode idx2).index := by
  show indexLe idx2
    (if st.nodes.any (fun n => n.id == childNode.id) then
      (⟨idx2, st.nodes, st.edges, st.yOffset⟩ : ExpSt)
    else
      document.versions.foldl
        (expandVersionStep nodeId bx document.documentKey)
        ⟨idx2, st.nodes ++ [childNode], st.edges, st.yOffset⟩).index
  by_cases hp : st.nodes.any (fun n => n.id == childNode.id) = true
  · rw [hp, if_pos rfl]
    exact indexLe_refl idx2
  · rw [Bool.not_eq_true] at hp
    rw [hp, if_neg Bool.false_ne_true]
    exact (expFold_extends _
      (fun st2 x => expandVersionStep_extends nodeId bx
        document.documentKey st2 x) document.versions
      ⟨idx2, st.nodes ++ [childNode], st.edges, st.yOffset⟩).1

/-- After the document-record conditional, the child node's id is in the
node list. -/
theorem docRecAfterIf_covers (nodeId : String) (bx : JsNum)
    (document : Document) (st : ExpSt) (childNode : FlowNode)
    (idx2 : NodeIndex) :
    (docRecAfterIf nodeId bx document st childNode idx2).nodes.any
      (fun n => n.id == childNode.id) = true := by
  show (if st.nodes.any (fun n => n.id == childNode.id) then
      (⟨idx2, st.nodes, st.edges, st.yOffset⟩ : ExpSt)
    else
      document.versions.foldl
        (expandVersionStep nodeId bx document.documentKey)
        ⟨idx2, st.nodes ++ [childNode], st.edges,
          st.yOffset⟩).nodes.any (fun n => n.id == childNode.id) = true
  by_cases hp : st.nodes.any (fun n => n.id == childNode.id) = true
  · rw [hp, if_pos rfl]
    exact hp
  · rw [Bool.not_eq_true] at hp
    rw [hp, if_neg Bool.false_ne_true]
    obtain ⟨ns, hns⟩ := (expFold_extends _
      (fun st2 x => expandVersionStep_extends nodeId bx
        document.documentKey st2 x) document.versions
      ⟨idx2, st.nodes ++ [childNode], st.edges, st.yOffset⟩).2.1
    rw [hns]
    show ((st.nodes ++ [childNode]) ++ ns).any
      (fun n => n.id == childNode.id) = true
    rw [List.any_append, List.any_append]
    simp

theorem expandNodeDocRecStep_sat (repo : DataRepository) (nodeId : String)
    (bx : JsNum) (document : Document) (st : ExpSt) (lk : RecordLink) :
    match getRecord repo lk.recordKey with
    | none => True
    | some lr =>
        satIn (fun i => i.recordsByKey) lr.recordKey nodeId
          (jsOrStr lk.linkType "references")
          (expandNodeDocRecStep repo nodeId bx document st lk) := by
  cases hres : getRecord repo lk.recordKey with
  | none => trivial
  | some lr =>
      show satIn (fun i => i.recordsByKey) lr.recordKey nodeId
        (jsOrStr lk.linkType "references")
        (expandNodeDocRecStep repo nodeId bx document st lk)
      rw [expandNodeDocRecStep_eq repo nodeId bx document st lk lr hres]
      refine ⟨(getOrCreateRecordNode st.index lr ⟨bx, st.yOffset⟩).1,
        ?_, ?_, ?_⟩
      · exact (docRecAfterIf_le_base nodeId bx document st
          (getOrCreateRecordNode st.index lr ⟨bx, st.yOffset⟩).1
          (getOrCreateRecordNode st.index lr ⟨bx, st.yOffset⟩).2).1
          lr.recordKey
          (getOrCreateRecordNode st.index lr ⟨bx, st.yOffset⟩).1
          (getOrCreateRecordNode_binds st.index lr ⟨bx, st.yOffset⟩)
      · exact docRecAfterIf_covers nodeId bx document st _ _
      · exact pushEdgeIfUnique_covers _ nodeId _ _

theorem expandRecRecStep_noop (nodeId : String) (bx : JsNum)
    (record : RecordNode) (st : ExpSt) (lr : RecordNode)
    (h : satIn (fun i => i.recordsByKey) lr.recordKey nodeId
      (jsOrStrOpt
        (((record.linkedRecords.getD []).find?
          (fun l => l.recordKey == lr.recordKey)).map (·.linkType))
        "related_to") st) :
    (expandRecRecStep nodeId bx record st lr).index = st.index ∧
    (expandRecRecStep nodeId bx record st lr).nodes = st.nodes ∧
    (expandRecRecStep nodeId bx record st lr).edges = st.edges := by
  obtain ⟨v, h1, hany, hedge⟩ := h
  have hc : getOrCreateRecordNode st.index lr ⟨bx, st.yOffset⟩ =
      (v, st.index) := getOrCreateRecordNode_cached st.index lr _ v h1
  refine ⟨?_, ?_, ?_⟩
  · show (getOrCreateRecordNode st.index lr ⟨bx, st.yOffset⟩).2 = st.index
    rw [hc]
  · show pushNodeUnlessPresent st.nodes
      (getOrCreateRecordNode st.index lr ⟨bx, st.yOffset⟩).1 = st.nodes
    rw [hc]
    exact pushNodeUnlessPresent_present st.nodes v hany
  · show pushEdgeIfUnique st.edges nodeId
      (getOrCreateRecordNode st.index lr ⟨bx, st.yOffset⟩).1.id
      (jsOrStrOpt
        (((record.linkedRecords.getD []).find?
          (fun l => l.recordKey == lr.recordKey)).map (·.linkType))
        "related_to") = st.edges
    rw [hc]
    exact pushEdgeIfUnique_present st.edges nodeId v.id _ hedge

theorem expandRecDocStep_noop (nodeId : String) (bx : JsNum)
    (record : RecordNode) (st : ExpSt) (ld : Document)
    (h : satIn (fun i => i.documentsByKey) ld.documentKey nodeId
      (jsOrStrOpt
        (((record.linkedDocuments.getD []).find?
          (fun l => l.documentKey == ld.documentKey)).map (·.linkType))
        "references") st) :
    (expandRecDocStep nodeId bx record st ld).index = st.index ∧
    (expandRecDocStep nodeId bx record st ld).nodes = st.nodes ∧
    (expandRecDocStep nodeId bx record st ld).edges = st.edges := by
  obtain ⟨v, h1, hany, hedge⟩ := h
  have hc : getOrCreateDocumentNode st.index ld ⟨bx, st.yOffset⟩ =
      (v, st.index) := getOrCreateDocumentNode_cached st.index ld _ v h1
  refine ⟨?_, ?_, ?_⟩
  · show (getOrCreateDocumentNode st.index ld ⟨bx, st.yOffset⟩).2 =
      st.index
    rw [hc]
  · show pushNodeUnlessPresent st.nodes
      (getOrCreateDocumentNode st.index ld ⟨bx, st.yOffset⟩).1 = st.nodes
    rw [hc]
    exact pushNodeUnlessPresent_present st.nodes v hany
  · show pushEdgeIfUnique st.edges nodeId
      (getOrCreateDocumentNode st.index ld ⟨bx, st.yOffset⟩).1.id
      (jsOrStrOpt
        (((record.linkedDocuments.getD []).find?
          (fun l => l.documentKey == ld.documentKey)).map (·.linkType))
        "references") = st.edges
    rw [hc]
    exact pushEdgeIfUnique_present st.edges nodeId v.id _ hedge

theorem expandNodeDocDocStep_noop (repo : DataRepository)
    (nodeId : String) (bx : JsNum) (st : ExpSt) (lk : DocumentLink)
    (h : match getDocument repo lk.documentKey with
      | none => True
      | some ld => satIn (fun i => i.documentsByKey) ld.documentKey nodeId
          (jsOrStr lk.linkType "references") st) :
    (expandNodeDocDocStep repo nodeId bx st lk).index = st.index ∧
    (expandNodeDocDocStep repo nodeId bx st lk).nodes = st.nodes ∧
    (expandNodeDocDocStep repo nodeId bx st lk).edges = st.edges := by
  cases hres : getDocument repo lk.documentKey with
  | none =>
      rw [show expandNodeDocDocStep repo nodeId bx st lk = st from by
        simp [expandNodeDocDocStep, hres]]
      exact ⟨rfl, rfl, rfl⟩
  | some ld =>
      have h2 : satIn (fun i => i.documentsByKey) ld.documentKey nodeId
          (jsOrStr lk.linkType "references") st := by
        rw [hres] at h
        exact h
      obtain ⟨v, h1, hany, hedge⟩ := h2
      have hc : getOrCreateDocumentNode st.index ld ⟨bx, st.yOffset⟩ =
          (v, st.index) :=
        getOrCreateDocumentNode_cached st.index ld _ v h1
      rw [show expandNodeDocDocStep repo nodeId bx st lk =
          ⟨(getOrCreateDocumentNode st.index ld ⟨bx, st.yOffset⟩).2,
           pushNodeUnlessPresent st.nodes
             (getOrCreateDocumentNode st.index ld ⟨bx, st.yOffset⟩).1,
           pushEdgeIfUnique st.edges nodeId
             (getOrCreateDocumentNode st.index ld ⟨bx, st.yOffset⟩).1.id
             (jsOrStr lk.linkType "references"),
           st.yOffset + 140⟩ from by
        simp [expandNodeDocDocStep, hres], hc]
      exact ⟨rfl, pushNodeUnlessPresent_present st.nodes v hany,
        pushEdgeIfUnique_present st.edges nodeId v.id _ hedge⟩

theorem expandNodeDocRecStep_noop (repo : DataRepository)
    (nodeId : String) (bx : JsNum) (document : Document) (st : ExpSt)
    (lk : RecordLink)
    (h : match getRecord repo lk.recordKey with
      | none => True
      | some lr => satIn (fun i => i.recordsByKey) lr.recordKey nodeId
          (jsOrStr lk.linkType "references") st) :
    (expandNodeDocRecStep repo nodeId bx document st lk).index =
      st.index ∧
    (expandNodeDocRecStep repo nodeId bx document st lk).nodes =
      st.nodes ∧
    (expandNodeDocRecStep repo nodeId bx document st lk).edges =
      st.edges := by
  cases hres : getRecord repo lk.recordKey with
  | none =>
      rw [show expandNodeDocRecStep repo nodeId bx document st lk = st
        from by simp [expandNodeDocRecStep, hres]]
      exact ⟨rfl, rfl, rfl⟩
  | some lr =>
      have h2 : satIn (fun i => i.recordsByKey) lr.recordKey nodeId
          (jsOrStr lk.linkType "references") st := by
        rw [hres] at h
        exact h
      obtain ⟨v, h1, hany, hedge⟩ := h2
      have hc : getOrCreateRecordNode st.index lr ⟨bx, st.yOffset⟩ =
          (v, st.index) := getOrCreateRecordNode_cached st.index lr _ v h1
      have hA : docRecAfterIf nodeId bx document st (v, st.index).1
          (v, st.index).2 =
          ⟨st.index, st.nodes, st.edges, st.yOffset⟩ := by
        show (if st.nodes.any (fun n => n.id == v.id) then
            (⟨st.index, st.nodes, st.edges, st.yOffset⟩ : ExpSt)
          else
            document.versions.foldl
              (expandVersionStep nodeId bx document.documentKey)
              ⟨st.index, st.nodes ++ [v], st.edges, st.yOffset⟩) =
          ⟨st.index, st.nodes, st.edges, st.yOffset⟩
        rw [hany, if_pos rfl]
      rw [expandNodeDocRecStep_eq repo nodeId bx document st lk lr hres,
        hc, hA]
      exact ⟨rfl, rfl,
        pushEdgeIfUnique_present st.edges nodeId v.id _ hedge⟩

/-- Saturation only looks at the index, nodes and edges fields. -/
theorem satIn_of_fields (look : NodeIndex → List (String × FlowNode))
    (key srcId lt : String) (st : ExpSt) (i0 : NodeIndex)
    (n0 : List FlowNode) (e0 : List FlowEdge)
    (h1 : st.index = i0) (h2 : st.nodes = n0) (h3 : st.edges = e0)
    (h : satIn look key srcId lt ⟨i0, n0, e0, 0⟩) :
    satIn look key srcId lt st := by
  obtain ⟨v, ha, hb, hc⟩ := h
  exact ⟨v, by rw [h1]; exact ha, by rw [h2]; exact hb,
    by rw [h3]; exact hc⟩

/-- Saturation survives replacing the node list by one with the same
ids. -/
theorem satIn_retarget (look : NodeIndex → List (String × FlowNode))
    (key srcId lt : String) (st : ExpSt) (n2 : List FlowNode) (y2 : JsNum)
    (hperm : List.Perm (n2.map (·.id)) (st.nodes.map (·.id)))
    (h : satIn look key srcId lt st) :
    satIn look key srcId lt ⟨st.index, n2, st.edges, y2⟩ := by
  obtain ⟨v, h1, h2, h3⟩ := h
  refine ⟨v, h1, ?_, h3⟩
  show n2.any (fun n => n.id == v.id) = true
  rw [any_id_congr_of_ids_perm n2 st.nodes hperm v.id]
  exact h2

/-- Every marked node descends from an input node with the same id, type
and entity keys. -/
theorem markExpanded_mem_src (nodeId : String) (l : List FlowNode) :
    ∀ m ∈ markExpanded nodeId l, ∃ n ∈ l, m.id = n.id ∧
      m.type = n.type ∧ m.data.recordKey = n.data.recordKey ∧
      m.data.documentKey = n.data.documentKey := by
  intro m hm
  obtain ⟨n, hn, heq⟩ := List.mem_map.mp hm
  have heq2 : (if n.id = nodeId then
      { n with data := { n.data with isExpanded := some true } } else n) =
      m := heq
  refine ⟨n, hn, ?_⟩
  by_cases h : n.id = nodeId
  · rw [if_pos h] at heq2
    rw [← heq2]
    exact ⟨rfl, rfl, rfl, rfl⟩
  · rw [if_neg h] at heq2
    rw [← heq2]
    exact ⟨rfl, rfl, rfl, rfl⟩

/-- `expandNode` with an unresolved node id returns its inputs. -/
theorem expandNode_none (index : NodeIndex) (dirOpt : Option Dir)
    (nodeId : String) (nodes : List FlowNode) (edges : List FlowEdge)
    (repo : DataRepository)
    (h : nodes.find? (fun n => n.id == nodeId) = none) :
    expandNode index dirOpt nodeId nodes edges repo =
      (index, nodes, edges) := by
  simp [expandNode, h]

/-- `expandNode` on the fall-through paths: mark, then re-layout rooted at
the expanded node. -/
theorem expandNode_some_true (index : NodeIndex) (dirOpt : Option Dir)
    (nodeId : String) (nodes : List FlowNode) (edges : List FlowEdge)
    (repo : DataRepository) (s : FlowNode)
    (h : nodes.find? (fun n => n.id == nodeId) = some s)
    (hb : (expandNodeBody index nodeId nodes edges repo s).2 = true) :
    expandNode index dirOpt nodeId nodes edges repo =
      ((expandNodeBody index nodeId nodes edges repo s).1.1,
       calculateHierarchicalLayout
         (markExpanded nodeId
           (expandNodeBody index nodeId nodes edges repo s).1.2.1)
         (expandNodeBody index nodeId nodes edges repo s).1.2.2
         (some nodeId) (dirOpt.getD Dir.TB),
       (expandNodeBody index nodeId nodes edges repo s).1.2.2) := by
  simp [expandNode, h, hb]

/-- `expandNode` on the early-return paths. -/
theorem expandNode_some_false (index : NodeIndex) (dirOpt : Option Dir)
    (nodeId : String) (nodes : List FlowNode) (edges : List FlowEdge)
    (repo : DataRepository) (s : FlowNode)
    (h : nodes.find? (fun n => n.id == nodeId) = some s)
    (hb : (expandNodeBody index nodeId nodes edges repo s).2 = false) :
    expandNode index dirOpt nodeId nodes edges repo =
      (expandNodeBody index nodeId nodes edges repo s).1 := by
  simp [expandNode, h, hb]

/-- The record branch of `expandNodeBody`, unfolded to its two forEach
folds. -/
theorem expandNodeBody_record_eq (index : NodeIndex) (nodeId : String)
    (nodes : List FlowNode) (edges : List FlowEdge)
    (repo : DataRepository) (s : FlowNode) (record : RecordNode)
    (hty : s.type = NodeType.record)
    (htr : jsTruthyStr s.data.recordKey = true)
    (hrec : getRecord repo (s.data.recordKey.getD "") = some record) :
    expandNodeBody index nodeId nodes edges repo s =
      ((((collectLinkedDocuments record repo).foldl
          (expandRecDocStep nodeId (s.position.x + 250) record)
          ((collectLinkedRecords record repo).foldl
            (expandRecRecStep nodeId (s.position.x + 250) record)
            ⟨index, nodes, edges, s.position.y - 100⟩)).index,
        ((collectLinkedDocuments record repo).foldl
          (expandRecDocStep nodeId (s.position.x + 250) record)
          ((collectLinkedRecords record repo).foldl
            (expandRecRecStep nodeId (s.position.x + 250) record)
            ⟨index, nodes, edges, s.position.y - 100⟩)).nodes,
        ((collectLinkedDocuments record repo).foldl
          (expandRecDocStep nodeId (s.position.x + 250) record)
          ((collectLinkedRecords record repo).foldl
            (expandRecRecStep nodeId (s.position.x + 250) record)
            ⟨index, nodes, edges, s.position.y - 100⟩)).edges), true) := by
  simp [expandNodeBody, hty, htr, hrec]

/-- The document branch of `expandNodeBody`, unfolded to its two forEach
folds. -/
theorem expandNodeBody_document_eq (index : NodeIndex) (nodeId : String)
    (nodes : List FlowNode) (edges : List FlowEdge)
    (repo : DataRepository) (s : FlowNode) (document : Document)
    (hty : s.type = NodeType.document)
    (htr : jsTruthyStr s.data.documentKey = true)
    (hrec : getDocument repo (s.data.documentKey.getD "") =
      some document) :
    expandNodeBody index nodeId nodes edges repo s =
      ((((document.linkedDocuments.getD []).foldl
          (expandNodeDocDocStep repo nodeId (s.position.x + 250))
          ((document.linkedRecords.getD []).foldl
            (expandNodeDocRecStep repo nodeId (s.position.x + 250)
              document)
            ⟨index, nodes, edges, s.position.y - 100⟩)).index,
        ((document.linkedDocuments.getD []).foldl
          (expandNodeDocDocStep repo nodeId (s.position.x + 250))
          ((document.linkedRecords.getD []).foldl
            (expandNodeDocRecStep repo nodeId (s.position.x + 250)
              document)
            ⟨index, nodes, edges, s.position.y - 100⟩)).nodes,
        ((document.linkedDocuments.getD []).foldl
          (expandNodeDocDocStep repo nodeId (s.position.x + 250))
          ((document.linkedRecords.getD []).foldl
            (expandNodeDocRecStep repo nodeId (s.position.x + 250)
              document)
            ⟨index, nodes, edges, s.position.y - 100⟩)).edges), true) := by
  simp [expandNodeBody, hty, htr, hrec]

/-- The remaining branch (a `documentVersion` source) does nothing but
fall through. -/
theorem expandNodeBody_other_eq (index : NodeIndex) (nodeId : String)
    (nodes : List FlowNode) (edges : List FlowEdge)
    (repo : DataRepository) (s : FlowNode)
    (hty : s.type = NodeType.documentVersion) :
    expandNodeBody index nodeId nodes edges repo s =
      ((index, nodes, edges), true) := by
  simp [expandNodeBody, hty]

/-- On every early-return path the body hands back its inputs. -/
theorem expandNodeBody_false (index : NodeIndex) (nodeId : String)
    (nodes : List FlowNode) (edges : List FlowEdge)
    (repo : DataRepository) (s : FlowNode)
    (hb : (expandNodeBody index nodeId nodes edges repo s).2 = false) :
    (expandNodeBody index nodeId nodes edges repo s).1 =
      (index, nodes, edges) := by
  by_cases hty : s.type = NodeType.record
  · by_cases htr : jsTruthyStr s.data.recordKey = true
    · cases hrec : getRecord repo (s.data.recordKey.getD "") with
      | none => simp [expandNodeBody, hty, htr, hrec]
      | some record =>
          rw [expandNodeBody_record_eq index nodeId nodes edges repo s
            record hty htr hrec] at hb
          exact absurd hb (by simp)
    · rw [Bool.not_eq_true] at htr
      simp [expandNodeBody, hty, htr]
  · by_cases htyd : s.type = NodeType.document
    · by_cases htr : jsTruthyStr s.data.documentKey = true
      · cases hrec : getDocument repo (s.data.documentKey.getD "") with
        | none => simp [expandNodeBody, hty, htyd, htr, hrec]
        | some document =>
            rw [expandNodeBody_document_eq index nodeId nodes edges repo s
              document htyd htr hrec] at hb
            exact absurd hb (by simp)
      · rw [Bool.not_eq_true] at htr
        simp [expandNodeBody, hty, htyd, htr]
    · have htyv : s.type = NodeType.documentVersion := by
        cases hcase : s.type with
        | record => exact absurd hcase hty
        | document => exact absurd hcase htyd
        | documentVersion => rfl
      rw [expandNodeBody_other_eq index nodeId nodes edges repo s htyv]
        at hb
      exact absurd hb (by simp)

theorem recBranchState_extends (nodeId : String) (bx : JsNum)
    (record : RecordNode) (repo : DataRepository) (st0 : ExpSt) :
    stExtends st0
      ((collectLinkedDocuments record repo).foldl
        (expandRecDocStep nodeId bx record)
        ((collectLinkedRecords record repo).foldl
          (expandRecRecStep nodeId bx record) st0)) :=
  stExtends_trans
    (expFold_extends _
      (fun st x => expandRecRecStep_extends nodeId bx record st x)
      (collectLinkedRecords record repo) st0)
    (expFold_extends _
      (fun st x => expandRecDocStep_extends nodeId bx record st x)
      (collectLinkedDocuments record repo) _)

theorem recBranchState_nodup (nodeId : String) (bx : JsNum)
    (record : RecordNode) (repo : DataRepository) (st0 : ExpSt)
    (h : (st0.nodes.map (·.id)).Nodup) :
    ((((collectLinkedDocuments record repo).foldl
        (expandRecDocStep nodeId bx record)
        ((collectLinkedRecords record repo).foldl
          (expandRecRecStep nodeId bx record) st0)).nodes).map
      (·.id)).Nodup :=
  expFold_pres _ (fun st => ((st.nodes.map (·.id)).Nodup))
    (fun st x h2 => expandRecDocStep_nodup nodeId bx record st x h2)
    (collectLinkedDocuments record repo) _
    (expFold_pres _ (fun st => ((st.nodes.map (·.id)).Nodup))
      (fun st x h2 => expandRecRecStep_nodup nodeId bx record st x h2)
      (collectLinkedRecords record repo) st0 h)

theorem recBranchState_sat1 (nodeId : String) (bx : JsNum)
    (record : RecordNode) (repo : DataRepository) (st0 : ExpSt) :
    ∀ lr ∈ collectLinkedRecords record repo,
      satIn (fun i => i.recordsByKey) lr.recordKey nodeId
        (jsOrStrOpt
          (((record.linkedRecords.getD []).find?
            (fun l => l.recordKey == lr.recordKey)).map (·.linkType))
          "related_to")
        ((collectLinkedDocuments record repo).foldl
          (expandRecDocStep nodeId bx record)
          ((collectLinkedRecords record repo).foldl
            (expandRecRecStep nodeId bx record) st0)) := by
  intro lr hlr
  refine satIn_mono _ _ _ _
    (expFold_extends _
      (fun st x => expandRecDocStep_extends nodeId bx record st x)
      (collectLinkedDocuments record repo) _).1.1
    (expFold_extends _
      (fun st x => expandRecDocStep_extends nodeId bx record st x)
      (collectLinkedDocuments record repo) _) ?_
  exact expFold_sat _
    (fun st x => satIn (fun i => i.recordsByKey) x.recordKey nodeId
      (jsOrStrOpt
        (((record.linkedRecords.getD []).find?
          (fun l => l.recordKey == x.recordKey)).map (·.linkType))
        "related_to") st)
    (fun st x => expandRecRecStep_sat nodeId bx record st x)
    (fun st x y hy => by
      have hy2 : satIn (fun i => i.recordsByKey) y.recordKey nodeId
          (jsOrStrOpt
            (((record.linkedRecords.getD []).find?
              (fun l => l.recordKey == y.recordKey)).map (·.linkType))
            "related_to") st := hy
      exact satIn_mono _ y.recordKey nodeId _
        (expandRecRecStep_extends nodeId bx record st x).1.1
        (expandRecRecStep_extends nodeId bx record st x) hy2)
    (collectLinkedRecords record repo) st0 lr hlr

theorem recBranchState_sat2 (nodeId : String) (bx : JsNum)
    (record : RecordNode) (repo : DataRepository) (st0 : ExpSt) :
    ∀ ld ∈ collectLinkedDocuments record repo,
      satIn (fun i => i.documentsByKey) ld.documentKey nodeId
        (jsOrStrOpt
          (((record.linkedDocuments.getD []).find?
            (fun l => l.documentKey == ld.documentKey)).map (·.linkType))
          "references")
        ((collectLinkedDocuments record repo).foldl
          (expandRecDocStep nodeId bx record)
          ((collectLinkedRecords record repo).foldl
            (expandRecRecStep nodeId bx record) st0)) :=
  expFold_sat _
    (fun st x => satIn (fun i => i.documentsByKey) x.documentKey nodeId
      (jsOrStrOpt
        (((record.linkedDocuments.getD []).find?
          (fun l => l.documentKey == x.documentKey)).map (·.linkType))
        "references") st)
    (fun st x => expandRecDocStep_sat nodeId bx record st x)
    (fun st x y hy => by
      have hy2 : satIn (fun i => i.documentsByKey) y.documentKey nodeId
          (jsOrStrOpt
            (((record.linkedDocuments.getD []).find?
              (fun l => l.documentKey == y.documentKey)).map
              (·.linkType))
            "references") st := hy
      exact satIn_mono _ y.documentKey nodeId _
        (expandRecDocStep_extends nodeId bx record st x).1.2.1
        (expandRecDocStep_extends nodeId bx record st x) hy2)
    (collectLinkedDocuments record repo) _

theorem docBranchState_extends (repo : DataRepository) (nodeId : String)
    (bx : JsNum) (document : Document) (st0 : ExpSt) :
    stExtends st0
      ((document.linkedDocuments.getD []).foldl
        (expandNodeDocDocStep repo nodeId bx)
        ((document.linkedRecords.getD []).foldl
          (expandNodeDocRecStep repo nodeId bx document) st0)) :=
  stExtends_trans
    (expFold_extends _
      (fun st x => expandNodeDocRecStep_extends repo nodeId bx document
        st x)
      (document.linkedRecords.getD []) st0)
    (expFold_extends _
      (fun st x => expandNodeDocDocStep_extends repo nodeId bx st x)
      (document.linkedDocuments.getD []) _)

theorem docBranchState_nodup (repo : DataRepository) (nodeId : String)
    (bx : JsNum) (document : Document) (st0 : ExpSt)
    (h : (st0.nodes.map (·.id)).Nodup) :
    ((((document.linkedDocuments.getD []).foldl
        (expandNodeDocDocStep repo nodeId bx)
        ((document.linkedRecords.getD []).foldl
          (expandNodeDocRecStep repo nodeId bx document) st0)).nodes).map
      (·.id)).Nodup :=
  expFold_pres _ (fun st => ((st.nodes.map (·.id)).Nodup))
    (fun st x h2 => expandNodeDocDocStep_nodup repo nodeId bx st x h2)
    (document.linkedDocuments.getD []) _
    (expFold_pres _ (fun st => ((st.nodes.map (·.id)).Nodup))
      (fun st x h2 => expandNodeDocRecStep_nodup repo nodeId bx document
        st x h2)
      (document.linkedRecords.getD []) st0 h)

theorem docBranchState_sat1 (repo : DataRepository) (nodeId : String)
    (bx : JsNum) (document : Document) (st0 : ExpSt) :
    ∀ lk ∈ document.linkedRecords.getD [],
      match getRecord repo lk.recordKey with
      | none => True
      | some lr => satIn (fun i => i.recordsByKey) lr.recordKey nodeId
          (jsOrStr lk.linkType "references")
          ((document.linkedDocuments.getD []).foldl
            (expandNodeDocDocStep repo nodeId bx)
            ((document.linkedRecords.getD []).foldl
              (expandNodeDocRecStep repo nodeId bx document) st0)) := by
  intro lk hlk
  have hsat := expFold_sat _
    (fun st x => match getRecord repo x.recordKey with
      | none => True
      | some lr => satIn (fun i => i.recordsByKey) lr.recordKey nodeId
          (jsOrStr x.linkType "references") st)
    (fun st x => expandNodeDocRecStep_sat repo nodeId bx document st x)
    (fun st x y hy => by
      show match getRecord repo y.recordKey with
        | none => True
        | some lr => satIn (fun i => i.recordsByKey) lr.recordKey nodeId
            (jsOrStr y.linkType "references")
            (expandNodeDocRecStep repo nodeId bx document st x)
      have hy3 : match getRecord repo y.recordKey with
        | none => True
        | some lr => satIn (fun i => i.recordsByKey) lr.recordKey nodeId
            (jsOrStr y.linkType "references") st := hy
      cases hres : getRecord repo y.recordKey with
      | none => exact trivial
      | some lr =>
          rw [hres] at hy3
          show satIn (fun i => i.recordsByKey) lr.recordKey nodeId
            (jsOrStr y.linkType "references")
            (expandNodeDocRecStep repo nodeId bx document st x)
          have hy2 : satIn (fun i => i.recordsByKey) lr.recordKey nodeId
              (jsOrStr y.linkType "references") st := hy3
          exact satIn_mono _ _ _ _
            (expandNodeDocRecStep_extends repo nodeId bx document st
              x).1.1
            (expandNodeDocRecStep_extends repo nodeId bx document st x)
            hy2)
    (document.linkedRecords.getD []) st0 lk hlk
  have hsat3 : match getRecord repo lk.recordKey with
    | none => True
    | some lr => satIn (fun i => i.recordsByKey) lr.recordKey nodeId
        (jsOrStr lk.linkType "references")
        ((document.linkedRecords.getD []).foldl
          (expandNodeDocRecStep repo nodeId bx document) st0) := hsat
  cases hres : getRecord repo lk.recordKey with
  | none => trivial
  | some lr =>
      have hy2 : satIn (fun i => i.recordsByKey) lr.recordKey nodeId
          (jsOrStr lk.linkType "references")
          ((document.linkedRecords.getD []).foldl
            (expandNodeDocRecStep repo nodeId bx document) st0) := by
        rw [hres] at hsat3
        exact hsat3
      show satIn (fun i => i.recordsByKey) lr.recordKey nodeId
        (jsOrStr lk.linkType "references") _
      exact satIn_mono _ _ _ _
        (expFold_extends _
          (fun st x => expandNodeDocDocStep_extends repo nodeId bx st x)
          (document.linkedDocuments.getD []) _).1.1
        (expFold_extends _
          (fun st x => expandNodeDocDocStep_extends repo nodeId bx st x)
          (document.linkedDocuments.getD []) _) hy2

theorem docBranchState_sat2 (repo : DataRepository) (nodeId : String)
    (bx : JsNum) (document : Document) (st0 : ExpSt) :
    ∀ lk ∈ document.linkedDocuments.getD [],
      match getDocument repo lk.documentKey with
      | none => True
      | some ld => satIn (fun i => i.documentsByKey) ld.documentKey nodeId
          (jsOrStr lk.linkType "references")
          ((document.linkedDocuments.getD []).foldl
            (expandNodeDocDocStep repo nodeId bx)
            ((document.linkedRecords.getD []).foldl
              (expandNodeDocRecStep repo nodeId bx document) st0)) :=
  expFold_sat _
    (fun st x => match getDocument repo x.documentKey with
      | none => True
      | some ld => satIn (fun i => i.documentsByKey) ld.documentKey nodeId
          (jsOrStr x.linkType "references") st)
    (fun st x => expandNodeDocDocStep_sat repo nodeId bx st x)
    (fun st x y hy => by
      show match getDocument repo y.documentKey with
        | none => True
        | some ld => satIn (fun i => i.documentsByKey) ld.documentKey
            nodeId (jsOrStr y.linkType "references")
            (expandNodeDocDocStep repo nodeId bx st x)
      have hy3 : match getDocument repo y.documentKey with
        | none => True
        | some ld => satIn (fun i => i.documentsByKey) ld.documentKey
            nodeId (jsOrStr y.linkType "references") st := hy
      cases hres : getDocument repo y.documentKey with
      | none => exact trivial
      | some ld =>
          rw [hres] at hy3
          show satIn (fun i => i.documentsByKey) ld.documentKey nodeId
            (jsOrStr y.linkType "references")
            (expandNodeDocDocStep repo nodeId bx st x)
          have hy2 : satIn (fun i => i.documentsByKey) ld.documentKey
              nodeId (jsOrStr y.linkType "references") st := hy3
          exact satIn_mono _ _ _ _
            (expandNodeDocDocStep_extends repo nodeId bx st x).1.2.1
            (expandNodeDocDocStep_extends repo nodeId bx st x) hy2)
    (document.linkedDocuments.getD []) _

/-- When every linked child of the record is already saturated in the
state, the record branch of the body leaves index, nodes and edges
unchanged. -/
theorem expandNodeBody_record_noop (index1 : NodeIndex) (nodeId : String)
    (layouted : List FlowNode) (edges1 : List FlowEdge)
    (repo : DataRepository) (s2 : FlowNode) (record : RecordNode)
    (hty : s2.type = NodeType.record)
    (htr : jsTruthyStr s2.data.recordKey = true)
    (hrec : getRecord repo (s2.data.recordKey.getD "") = some record)
    (hsat1 : ∀ lr ∈ collectLinkedRecords record repo,
      satIn (fun i => i.recordsByKey) lr.recordKey nodeId
        (jsOrStrOpt
          (((record.linkedRecords.getD []).find?
            (fun l => l.recordKey == lr.recordKey)).map (·.linkType))
          "related_to") ⟨index1, layouted, edges1, 0⟩)
    (hsat2 : ∀ ld ∈ collectLinkedDocuments record repo,
      satIn (fun i => i.documentsByKey) ld.documentKey nodeId
        (jsOrStrOpt
          (((record.linkedDocuments.getD []).find?
            (fun l => l.documentKey == ld.documentKey)).map (·.linkType))
          "references") ⟨index1, layouted, edges1, 0⟩) :
    expandNodeBody index1 nodeId layouted edges1 repo s2 =
      ((index1, layouted, edges1), true) := by
  rw [expandNodeBody_record_eq index1 nodeId layouted edges1 repo s2
    record hty htr hrec]
  have hf1 := expFold_fixed
    (expandRecRecStep nodeId (s2.position.x + 250) record)
    index1 layouted edges1 (collectLinkedRecords record repo)
    (fun x hx st h1 h2 h3 => by
      obtain ⟨ha, hb, hc⟩ := expandRecRecStep_noop nodeId
        (s2.position.x + 250) record st x
        (satIn_of_fields _ _ _ _ st index1 layouted edges1 h1 h2 h3
          (hsat1 x hx))
      exact ⟨ha.trans h1, hb.trans h2, hc.trans h3⟩)
    (s2.position.y - 100)
  rw [hf1]
  have hf2 := expFold_fixed
    (expandRecDocStep nodeId (s2.position.x + 250) record)
    index1 layouted edges1 (collectLinkedDocuments record repo)
    (fun x hx st h1 h2 h3 => by
      obtain ⟨ha, hb, hc⟩ := expandRecDocStep_noop nodeId
        (s2.position.x + 250) record st x
        (satIn_of_fields _ _ _ _ st index1 layouted edges1 h1 h2 h3
          (hsat2 x hx))
      exact ⟨ha.trans h1, hb.trans h2, hc.trans h3⟩)
    ((collectLinkedRecords record repo).foldl
      (expandRecRecStep nodeId (s2.position.x + 250) record)
      ⟨index1, layouted, edges1, s2.position.y - 100⟩).yOffset
  rw [hf2]

/-- When every linked child of the document is already saturated in the
state, the document branch of the body leaves index, nodes and edges
unchanged. -/
theorem expandNodeBody_document_noop (index1 : NodeIndex)
    (nodeId : String) (layouted : List FlowNode) (edges1 : List FlowEdge)
    (repo : DataRepository) (s2 : FlowNode) (document : Document)
    (hty : s2.type = NodeType.document)
    (htr : jsTruthyStr s2.data.documentKey = true)
    (hrec : getDocument repo (s2.data.documentKey.getD "") =
      some document)
    (hsat1 : ∀ lk ∈ document.linkedRecords.getD [],
      match getRecord repo lk.recordKey with
      | none => True
      | some lr => satIn (fun i => i.recordsByKey) lr.recordKey nodeId
          (jsOrStr lk.linkType "references")
          (⟨index1, layouted, edges1, 0⟩ : ExpSt))
    (hsat2 : ∀ lk ∈ document.linkedDocuments.getD [],
      match getDocument repo lk.documentKey with
      | none => True
      | some ld => satIn (fun i => i.documentsByKey) ld.documentKey
          nodeId (jsOrStr lk.linkType "references")
          (⟨index1, layouted, edges1, 0⟩ : ExpSt)) :
    expandNodeBody index1 nodeId layouted edges1 repo s2 =
      ((index1, layouted, edges1), true) := by
  rw [expandNodeBody_document_eq index1 nodeId layouted edges1 repo s2
    document hty htr hrec]
  have hf1 := expFold_fixed
    (expandNodeDocRecStep repo nodeId (s2.position.x + 250) document)
    index1 layouted edges1 (document.linkedRecords.getD [])
    (fun x hx st h1 h2 h3 => by
      obtain ⟨ha, hb, hc⟩ := expandNodeDocRecStep_noop repo nodeId
        (s2.position.x + 250) document st x (by
        have hm := hsat1 x hx
        cases hres : getRecord repo x.recordKey with
        | none => exact trivial
        | some lr =>
            rw [hres] at hm
            show satIn (fun i => i.recordsByKey) lr.recordKey nodeId
              (jsOrStr x.linkType "references") st
            exact satIn_of_fields _ _ _ _ st index1 layouted edges1 h1 h2
              h3 hm)
      exact ⟨ha.trans h1, hb.trans h2, hc.trans h3⟩)
    (s2.position.y - 100)
  rw [hf1]
  have hf2 := expFold_fixed
    (expandNodeDocDocStep repo nodeId (s2.position.x + 250))
    index1 layouted edges1 (document.linkedDocuments.getD [])
    (fun x hx st h1 h2 h3 => by
      obtain ⟨ha, hb, hc⟩ := expandNodeDocDocStep_noop repo nodeId
        (s2.position.x + 250) st x (by
        have hm := hsat2 x hx
        cases hres : getDocument repo x.documentKey with
        | none => exact trivial
        | some ld =>
            rw [hres] at hm
            show satIn (fun i => i.documentsByKey) ld.documentKey nodeId
              (jsOrStr x.linkType "references") st
            exact satIn_of_fields _ _ _ _ st index1 layouted edges1 h1 h2
              h3 hm)
      exact ⟨ha.trans h1, hb.trans h2, hc.trans h3⟩)
    ((document.linkedRecords.getD []).foldl
      (expandNodeDocRecStep repo nodeId (s2.position.x + 250) document)
      ⟨index1, layouted, edges1, s2.position.y - 100⟩).yOffset
  rw [hf2]

/-- Core of the idempotence argument: if the first call's body produced
`(STi, STn, STe)` and every second body run on a faithful copy of the
source node is a no-op, the second call reproduces the first call's
output. -/
theorem expandNode_branch_assemble (index : NodeIndex)
    (dirOpt : Option Dir) (nodeId : String) (nodes : List FlowNode)
    (edges : List FlowEdge) (repo : DataRepository) (s : FlowNode)
    (STi : NodeIndex) (STn : List FlowNode) (STe : List FlowEdge)
    (hroot : nodeId ≠ "")
    (hfind : nodes.find? (fun n => n.id == nodeId) = some s)
    (hbody : expandNodeBody index nodeId nodes edges repo s =
      ((STi, STn, STe), true))
    (hnodup1 : (STn.map (·.id)).Nodup)
    (hs_mem : s ∈ STn) (hs_id : s.id = nodeId)
    (hbody2 : ∀ s2 : FlowNode, s2.id = nodeId → s2.type = s.type →
      s2.data.recordKey = s.data.recordKey →
      s2.data.documentKey = s.data.documentKey →
      expandNodeBody STi nodeId
        (calculateHierarchicalLayout (markExpanded nodeId STn) STe
          (some nodeId) (dirOpt.getD Dir.TB)) STe repo s2 =
        ((STi,
          calculateHierarchicalLayout (markExpanded nodeId STn) STe
            (some nodeId) (dirOpt.getD Dir.TB), STe), true)) :
    (expandNode (expandNode index dirOpt nodeId nodes edges repo).1 dirOpt
        nodeId (expandNode index dirOpt nodeId nodes edges repo).2.1
        (expandNode index dirOpt nodeId nodes edges repo).2.2 repo).2 =
      (expandNode index dirOpt nodeId nodes edges repo).2 := by
  have hb : (expandNodeBody index nodeId nodes edges repo s).2 = true := by
    rw [hbody]
  rw [expandNode_some_true index dirOpt nodeId nodes edges repo s hfind hb,
    hbody]
  show (expandNode STi dirOpt nodeId
      (calculateHierarchicalLayout (markExpanded nodeId STn) STe
        (some nodeId) (dirOpt.getD Dir.TB)) STe repo).2 =
    (calculateHierarchicalLayout (markExpanded nodeId STn) STe
      (some nodeId) (dirOpt.getD Dir.TB), STe)
  have hmids := markExpanded_ids nodeId STn
  have hLperm : List.Perm
      ((calculateHierarchicalLayout (markExpanded nodeId STn) STe
        (some nodeId) (dirOpt.getD Dir.TB)).map (·.id))
      (STn.map (·.id)) := by
    have hp := calculateLayout_ids_perm hierarchicalOpts
      (markExpanded nodeId STn) STe (dirOpt.getD Dir.TB) nodeId hroot
    rw [hmids] at hp
    exact hp
  have hany : (calculateHierarchicalLayout (markExpanded nodeId STn) STe
      (some nodeId) (dirOpt.getD Dir.TB)).any
      (fun n => n.id == nodeId) = true := by
    rw [any_id_congr_of_ids_perm _ STn hLperm nodeId]
    have h2 := any_id_of_mem STn s hs_mem
    rw [hs_id] at h2
    exact h2
  have hfind2 : ∃ s2, (calculateHierarchicalLayout
      (markExpanded nodeId STn) STe (some nodeId)
      (dirOpt.getD Dir.TB)).find? (fun n => n.id == nodeId) = some s2 := by
    obtain ⟨x, hx, hpx⟩ := List.any_eq_true.mp hany
    cases hf : (calculateHierarchicalLayout (markExpanded nodeId STn) STe
        (some nodeId) (dirOpt.getD Dir.TB)).find?
        (fun n => n.id == nodeId) with
    | none => exact absurd hpx (List.find?_eq_none.mp hf x hx)
    | some s2 => exact ⟨s2, rfl⟩
  obtain ⟨s2, hf2⟩ := hfind2
  have hs2_id : s2.id = nodeId := by
    have hp2 := List.find?_some hf2
    exact eq_of_beq hp2
  have hs2_mem := List.mem_of_find?_eq_some hf2
  obtain ⟨m, hm, p, hmp⟩ := calculateLayout_mem hierarchicalOpts
    (markExpanded nodeId STn) STe (dirOpt.getD Dir.TB) nodeId hroot s2
    hs2_mem
  obtain ⟨n0, hn0, hid0, hty0, hrk0, hdk0⟩ :=
    markExpanded_mem_src nodeId STn m hm
  have hmid : m.id = nodeId := by
    rw [hmp] at hs2_id
    exact hs2_id
  have hn0s : n0 = s := by
    refine List.inj_on_of_nodup_map hnodup1 hn0 hs_mem ?_
    show n0.id = s.id
    rw [← hid0, hmid, hs_id]
  have hs2ty : s2.type = s.type := by
    rw [hmp]
    show m.type = s.type
    rw [hty0, hn0s]
  have hs2rk : s2.data.recordKey = s.data.recordKey := by
    rw [hmp]
    show m.data.recordKey = s.data.recordKey
    rw [hrk0, hn0s]
  have hs2dk : s2.data.documentKey = s.data.documentKey := by
    rw [hmp]
    show m.data.documentKey = s.data.documentKey
    rw [hdk0, hn0s]
  have hb2 := hbody2 s2 hs2_id hs2ty hs2rk hs2dk
  rw [expandNode_some_true STi dirOpt nodeId
    (calculateHierarchicalLayout (markExpanded nodeId STn) STe
      (some nodeId) (dirOpt.getD Dir.TB)) STe repo s2 hf2
    (by rw [hb2]), hb2]
  show (calculateHierarchicalLayout
      (markExpanded nodeId (calculateHierarchicalLayout
        (markExpanded nodeId STn) STe (some nodeId)
        (dirOpt.getD Dir.TB))) STe (some nodeId) (dirOpt.getD Dir.TB),
    STe) =
    (calculateHierarchicalLayout (markExpanded nodeId STn) STe
      (some nodeId) (dirOpt.getD Dir.TB), STe)
  have hmark : markExpanded nodeId (calculateHierarchicalLayout
      (markExpanded nodeId STn) STe (some nodeId) (dirOpt.getD Dir.TB)) =
      calculateHierarchicalLayout (markExpanded nodeId STn) STe
        (some nodeId) (dirOpt.getD Dir.TB) := by
    refine markExpanded_noop nodeId _ ?_
    intro n hn hnid
    obtain ⟨m2, hm2, p2, hmp2⟩ := calculateLayout_mem hierarchicalOpts
      (markExpanded nodeId STn) STe (dirOpt.getD Dir.TB) nodeId hroot n hn
    have hm2id : m2.id = nodeId := by
      rw [hmp2] at hnid
      exact hnid
    rw [hmp2]
    show m2.data.isExpanded = some true
    exact markExpanded_marks nodeId STn m2 hm2 hm2id
  rw [hmark, calculateHierarchicalLayout_idem (markExpanded nodeId STn)
    STe nodeId (dirOpt.getD Dir.TB) hroot]

/-- The record-branch instance of the assembly. -/
theorem expandNode_assemble_record (index : NodeIndex)
    (dirOpt : Option Dir) (nodeId : String) (nodes : List FlowNode)
    (edges : List FlowEdge) (repo : DataRepository) (s : FlowNode)
    (record : RecordNode) (STi : NodeIndex) (STn : List FlowNode)
    (STe : List FlowEdge) (hroot : nodeId ≠ "")
    (hfind : nodes.find? (fun n => n.id == nodeId) = some s)
    (hsty : s.type = NodeType.record)
    (htr : jsTruthyStr s.data.recordKey = true)
    (hrec : getRecord repo (s.data.recordKey.getD "") = some record)
    (hbody : expandNodeBody index nodeId nodes edges repo s =
      ((STi, STn, STe), true))
    (hnodup1 : (STn.map (·.id)).Nodup)
    (hs_mem : s ∈ STn) (hs_id : s.id = nodeId)
    (hsat1 : ∀ lr ∈ collectLinkedRecords record repo,
      satIn (fun i => i.recordsByKey) lr.recordKey nodeId
        (jsOrStrOpt
          (((record.linkedRecords.getD []).find?
            (fun l => l.recordKey == lr.recordKey)).map (·.linkType))
          "related_to") ⟨STi, STn, STe, 0⟩)
    (hsat2 : ∀ ld ∈ collectLinkedDocuments record repo,
      satIn (fun i => i.documentsByKey) ld.documentKey nodeId
        (jsOrStrOpt
          (((record.linkedDocuments.getD []).find?
            (fun l => l.documentKey == ld.documentKey)).map (·.linkType))
          "references") ⟨STi, STn, STe, 0⟩) :
    (expandNode (expandNode index dirOpt nodeId nodes edges repo).1 dirOpt
        nodeId (expandNode index dirOpt nodeId nodes edges repo).2.1
        (expandNode index dirOpt nodeId nodes edges repo).2.2 repo).2 =
      (expandNode index dirOpt nodeId nodes edges repo).2 := by
  refine expandNode_branch_assemble index dirOpt nodeId nodes edges repo s
    STi STn STe hroot hfind hbody hnodup1 hs_mem hs_id ?_
  intro s2 h1 h2 h3 h4
  have hmids := markExpanded_ids nodeId STn
  have hLperm : List.Perm
      ((calculateHierarchicalLayout (markExpanded nodeId STn) STe
        (some nodeId) (dirOpt.getD Dir.TB)).map (·.id))
      (STn.map (·.id)) := by
    have hp := calculateLayout_ids_perm hierarchicalOpts
      (markExpanded nodeId STn) STe (dirOpt.getD Dir.TB) nodeId hroot
    rw [hmids] at hp
    exact hp
  refine expandNodeBody_record_noop STi nodeId _ STe repo s2 record
    (h2.trans hsty) ?_ ?_ ?_ ?_
  · rw [h3]
    exact htr
  · rw [h3]
    exact hrec
  · intro lr hlr
    exact satIn_retarget _ _ _ _ ⟨STi, STn, STe, 0⟩ _ 0 hLperm
      (hsat1 lr hlr)
  · intro ld hld
    exact satIn_retarget _ _ _ _ ⟨STi, STn, STe, 0⟩ _ 0 hLperm
      (hsat2 ld hld)

/-- The document-branch instance of the assembly. -/
theorem expandNode_assemble_document (index : NodeIndex)
    (dirOpt : Option Dir) (nodeId : String) (nodes : List FlowNode)
    (edges : List FlowEdge) (repo : DataRepository) (s : FlowNode)
    (document : Document) (STi : NodeIndex) (STn : List FlowNode)
    (STe : List FlowEdge) (hroot : nodeId ≠ "")
    (hfind : nodes.find? (fun n => n.id == nodeId) = some s)
    (hsty : s.type = NodeType.document)
    (htr : jsTruthyStr s.data.documentKey = true)
    (hrec : getDocument repo (s.data.documentKey.getD "") = some document)
    (hbody : expandNodeBody index nodeId nodes edges repo s =
      ((STi, STn, STe), true))
    (hnodup1 : (STn.map (·.id)).Nodup)
    (hs_mem : s ∈ STn) (hs_id : s.id = nodeId)
    (hsat1 : ∀ lk ∈ document.linkedRecords.getD [],
      match getRecord repo lk.recordKey with
      | none => True
      | some lr => satIn (fun i => i.recordsByKey) lr.recordKey nodeId
          (jsOrStr lk.linkType "references")
          (⟨STi, STn, STe, 0⟩ : ExpSt))
    (hsat2 : ∀ lk ∈ document.linkedDocuments.getD [],
      match getDocument repo lk.documentKey with
      | none => True
      | some ld => satIn (fun i => i.documentsByKey) ld.documentKey
          nodeId (jsOrStr lk.linkType "references")
          (⟨STi, STn, STe, 0⟩ : ExpSt)) :
    (expandNode (expandNode index dirOpt nodeId nodes edges repo).1 dirOpt
        nodeId (expandNode index dirOpt nodeId nodes edges repo).2.1
        (expandNode index dirOpt nodeId nodes edges repo).2.2 repo).2 =
      (expandNode index dirOpt nodeId nodes edges repo).2 := by
  refine expandNode_branch_assemble index dirOpt nodeId nodes edges repo s
    STi STn STe hroot hfind hbody hnodup1 hs_mem hs_id ?_
  intro s2 h1 h2 h3 h4
  have hmids := markExpanded_ids nodeId STn
  have hLperm : List.Perm
      ((calculateHierarchicalLayout (markExpanded nodeId STn) STe
        (some nodeId) (dirOpt.getD Dir.TB)).map (·.id))
      (STn.map (·.id)) := by
    have hp := calculateLayout_ids_perm hierarchicalOpts
      (markExpanded nodeId STn) STe (dirOpt.getD Dir.TB) nodeId hroot
    rw [hmids] at hp
    exact hp
  refine expandNodeBody_document_noop STi nodeId _ STe repo s2 document
    (h2.trans hsty) ?_ ?_ ?_ ?_
  · rw [h4]
    exact htr
  · rw [h4]
    exact hrec
  · intro lk hlk
    have hm := hsat1 lk hlk
    cases hres : getRecord repo lk.recordKey with
    | none => exact trivial
    | some lr =>
        rw [hres] at hm
        show satIn (fun i => i.recordsByKey) lr.recordKey nodeId
          (jsOrStr lk.linkType "references")
          (⟨STi, calculateHierarchicalLayout (markExpanded nodeId STn)
            STe (some nodeId) (dirOpt.getD Dir.TB), STe, 0⟩ : ExpSt)
        exact satIn_retarget _ _ _ _ ⟨STi, STn, STe, 0⟩ _ 0 hLperm hm
  · intro lk hlk
    have hm := hsat2 lk hlk
    cases hres : getDocument repo lk.documentKey with
    | none => exact trivial
    | some ld =>
        rw [hres] at hm
        show satIn (fun i => i.documentsByKey) ld.documentKey nodeId
          (jsOrStr lk.linkType "references")
          (⟨STi, calculateHierarchicalLayout (markExpanded nodeId STn)
            STe (some nodeId) (dirOpt.getD Dir.TB), STe, 0⟩ : ExpSt)
        exact satIn_retarget _ _ _ _ ⟨STi, STn, STe, 0⟩ _ 0 hLperm hm

/-- The `documentVersion`-source instance of the assembly. -/
theorem expandNode_assemble_other (index : NodeIndex)
    (dirOpt : Option Dir) (nodeId : String) (nodes : List FlowNode)
    (edges : List FlowEdge) (repo : DataRepository) (s : FlowNode)
    (hroot : nodeId ≠ "")
    (hfind : nodes.find? (fun n => n.id == nodeId) = some s)
    (hsty : s.type = NodeType.documentVersion)
    (hnodup : (nodes.map (·.id)).Nodup)
    (hs_mem : s ∈ nodes) (hs_id : s.id = nodeId) :
    (expandNode (expandNode index dirOpt nodeId nodes edges repo).1 dirOpt
        nodeId (expandNode index dirOpt nodeId nodes edges repo).2.1
        (expandNode index dirOpt nodeId nodes edges repo).2.2 repo).2 =
      (expandNode index dirOpt nodeId nodes edges repo).2 := by
  refine expandNode_branch_assemble index dirOpt nodeId nodes edges repo s
    index nodes edges hroot hfind
    (expandNodeBody_other_eq index nodeId nodes edges repo s hsty)
    hnodup hs_mem hs_id ?_
  intro s2 h1 h2 h3 h4
  exact expandNodeBody_other_eq index nodeId _ edges repo s2
    (h2.trans hsty)

/-- C4: expanding a node twice is the same as expanding it once — the
second `expandNode` call on the first call's own output (same node id,
same repository, same layout direction) returns the same visible nodes
and edges.  The working node list is assumed to have distinct ids, and
the expanded node id to be non-empty (the layout engine treats `""` as an
absent root id, so an empty id would re-root the second layout pass). -/
theorem c4_expand_idempotent (index : NodeIndex) (dirOpt : Option Dir)
    (nodeId : String) (nodes : List FlowNode) (edges : List FlowEdge)
    (repo : DataRepository) (hnodup : (nodes.map (·.id)).Nodup)
    (hroot : nodeId ≠ "") :
    (expandNode (expandNode index dirOpt nodeId nodes edges repo).1 dirOpt
        nodeId (expandNode index dirOpt nodeId nodes edges repo).2.1
        (expandNode index dirOpt nodeId nodes edges repo).2.2 repo).2 =
      (expandNode index dirOpt nodeId nodes edges repo).2 := by
  cases hfind : nodes.find? (fun n => n.id == nodeId) with
  | none =>
      rw [expandNode_none index dirOpt nodeId nodes edges repo hfind]
      rw [show expandNode (index, nodes, edges).1 dirOpt nodeId
          (index, nodes, edges).2.1 (index, nodes, edges).2.2 repo =
          (index, nodes, edges) from
        expandNode_none index dirOpt nodeId nodes edges repo hfind]
  | some s =>
      have hs_mem : s ∈ nodes := List.mem_of_find?_eq_some hfind
      have hs_id : s.id = nodeId := by
        have hp := List.find?_some hfind
        exact eq_of_beq hp
      by_cases hb : (expandNodeBody index nodeId nodes edges repo s).2 =
        true
      · cases hsty : s.type with
        | record =>
            by_cases htr : jsTruthyStr s.data.recordKey = true
            · cases hrec : getRecord repo (s.data.recordKey.getD "") with
              | none =>
                  rw [show (expandNodeBody index nodeId nodes edges repo
                      s).2 = false from by
                    simp [expandNodeBody, hsty, htr, hrec]] at hb
                  exact absurd hb Bool.false_ne_true
              | some record =>
                  have hnodup1 := recBranchState_nodup nodeId
                    (s.position.x + 250) record repo
                    ⟨index, nodes, edges, s.position.y - 100⟩ hnodup
                  obtain ⟨ns2, hns2⟩ := (recBranchState_extends nodeId
                    (s.position.x + 250) record repo
                    ⟨index, nodes, edges, s.position.y - 100⟩).2.1
                  have hs_mem2 : s ∈
                      ((collectLinkedDocuments record repo).foldl
                        (expandRecDocStep nodeId (s.position.x + 250)
                          record)
                        ((collectLinkedRecords record repo).foldl
                          (expandRecRecStep nodeId (s.position.x + 250)
                            record)
                          ⟨index, nodes, edges,
                            s.position.y - 100⟩)).nodes := by
                    rw [hns2]
                    exact List.mem_append_left ns2 hs_mem
                  exact expandNode_assemble_record index dirOpt nodeId
                    nodes edges repo s record _ _ _ hroot hfind hsty htr
                    hrec
                    (expandNodeBody_record_eq index nodeId nodes edges
                      repo s record hsty htr hrec)
                    hnodup1 hs_mem2 hs_id
                    (recBranchState_sat1 nodeId (s.position.x + 250)
                      record repo
                      ⟨index, nodes, edges, s.position.y - 100⟩)
                    (recBranchState_sat2 nodeId (s.position.x + 250)
                      record repo
                      ⟨index, nodes, edges, s.position.y - 100⟩)
            · rw [Bool.not_eq_true] at htr
              rw [show (expandNodeBody index nodeId nodes edges repo
                  s).2 = false from by
                simp [expandNodeBody, hsty, htr]] at hb
              exact absurd hb Bool.false_ne_true
        | document =>
            by_cases htr : jsTruthyStr s.data.documentKey = true
            · cases hrec : getDocument repo
                (s.data.documentKey.getD "") with
              | none =>
                  rw [show (expandNodeBody index nodeId nodes edges repo
                      s).2 = false from by
                    simp [expandNodeBody, hsty, htr, hrec]] at hb
                  exact absurd hb Bool.false_ne_true
              | some document =>
                  have hnodup1 := docBranchState_nodup repo nodeId
                    (s.position.x + 250) document
                    ⟨index, nodes, edges, s.position.y - 100⟩ hnodup
                  obtain ⟨ns2, hns2⟩ := (docBranchState_extends repo
                    nodeId (s.position.x + 250) document
                    ⟨index, nodes, edges, s.position.y - 100⟩).2.1
                  have hs_mem2 : s ∈
                      ((document.linkedDocuments.getD []).foldl
                        (expandNodeDocDocStep repo nodeId
                          (s.position.x + 250))
                        ((document.linkedRecords.getD []).foldl
                          (expandNodeDocRecStep repo nodeId
                            (s.position.x + 250) document)
                          ⟨index, nodes, edges,
                            s.position.y - 100⟩)).nodes := by
                    rw [hns2]
                    exact List.mem_append_left ns2 hs_mem
                  exact expandNode_assemble_document index dirOpt nodeId
                    nodes edges repo s document _ _ _ hroot hfind hsty
                    htr hrec
                    (expandNodeBody_document_eq index nodeId nodes edges
                      repo s document hsty htr hrec)
                    hnodup1 hs_mem2 hs_id
                    (docBranchState_sat1 repo nodeId (s.position.x + 250)
                      document
                      ⟨index, nodes, edges, s.position.y - 100⟩)
                    (docBranchState_sat2 repo nodeId (s.position.x + 250)
                      document
                      ⟨index, nodes, edges, s.position.y - 100⟩)
            · rw [Bool.not_eq_true] at htr
              rw [show (expandNodeBody index nodeId nodes edges repo
                  s).2 = false from by
                simp [expandNodeBody, hsty, htr]] at hb
              exact absurd hb Bool.false_ne_true
        | documentVersion =>
            exact expandNode_assemble_other index dirOpt nodeId nodes
              edges repo s hroot hfind hsty hnodup hs_mem hs_id
      · rw [Bool.not_eq_true] at hb
        rw [expandNode_some_false index dirOpt nodeId nodes edges repo s
          hfind hb, expandNodeBody_false index nodeId nodes edges repo s
          hb]
        rw [show expandNode (index, nodes, edges).1 dirOpt nodeId
            (index, nodes, edges).2.1 (index, nodes, edges).2.2 repo =
            (expandNodeBody index nodeId nodes edges repo s).1 from
          expandNode_some_false index dirOpt nodeId nodes edges repo s
            hfind hb,
          expandNodeBody_false index nodeId nodes edges repo s hb]

/-- The C4 theorem at a concrete expansion: the record `R` (one linked
record and one linked document with a version) is expanded from a
singleton working set. -/
theorem c4_expand_idempotent_witness :
    ((([c4start.1].map (·.id)).Nodup) ∧ "record-R" ≠ "") ∧
    (expandNode (expandNode c4start.2 none "record-R" [c4start.1] []
          c4repo).1 none "record-R"
        (expandNode c4start.2 none "record-R" [c4start.1] [] c4repo).2.1
        (expandNode c4start.2 none "record-R" [c4start.1] [] c4repo).2.2
        c4repo).2 =
      (expandNode c4start.2 none "record-R" [c4start.1] [] c4repo).2 :=
  ⟨⟨by decide, by decide⟩,
   c4_expand_idempotent c4start.2 none "record-R" [c4start.1] [] c4repo
     (by decide) (by decide)⟩

end CircuitMap
